import Mathlib

/-!
Shallow embedding of the `cdcl` repository (a CDCL SAT solver written in
Rust) and verification of the specification claims against it.

Source files embedded:
- `src/variables.rs` : `VarRef`, `Atom`
- `src/clauses.rs`   : `Clause`, `SingleUnitPropResult`, `Clause::unit_prop_clause`
- `src/stack_stack.rs` : `StackStack`
- `src/lib.rs`       : `DerivationGraphNode`, `State`, `State::unit_prop_scan`,
  `State::analyse_conflict`, `State::guess`, `State::make_guess`, `State::sat`,
  and the parser loop of `run_cnf`.

Mutable state is passed explicitly; Rust `Vec` is a Lean `List` with push at
the back; a dense array indexed by variable id is a `List` read with `getD`.
Loops whose termination is itself a verification subject (`State::sat`, and
the inner fixpoint loop of `unit_prop_scan`) are embedded with explicit fuel;
panics and fuel exhaustion are `Option.none`.
-/

namespace Cdcl

/-- Embeds `VarRef` from `src/variables.rs`. -/
structure VarRef where
  id : Nat
deriving DecidableEq, Repr

/-- Embeds `Atom` from `src/variables.rs`: a variable with a polarity. -/
structure Atom where
  var : VarRef
  polarity : Bool
deriving DecidableEq, Repr

/-- `VarRef::as_atom`. -/
def VarRef.as_atom (v : VarRef) (polarity : Bool) : Atom :=
  { var := v, polarity := polarity }

/-- `Atom::negated`: flip the polarity. -/
def Atom.negated (a : Atom) : Atom :=
  { var := a.var, polarity := !a.polarity }

/-- `Atom::get_var`. -/
def Atom.get_var (a : Atom) : VarRef := a.var

/-- Embeds `Clause` from `src/clauses.rs`: an ordered sequence of literals. -/
structure Clause where
  body : List Atom
deriving DecidableEq, Repr

/-- `Clause::new`. -/
def Clause.new (body : List Atom) : Clause := { body := body }

/-- Embeds `SingleUnitPropResult` from `src/clauses.rs`. -/
inductive SingleUnitPropResult where
  | Conflict : SingleUnitPropResult
  | None : SingleUnitPropResult
  | UnitProp (inputs : List Atom) (output : Atom) : SingleUnitPropResult
deriving DecidableEq, Repr

/-- The assignment map: a dense array indexed by variable id, each slot
`none` (unset) or `some b`.  Reads use `getD` (the Rust code indexes; all
uses are in range under the well-formedness hypotheses carried by the
theorems). -/
abbrev Assignments := List (Option Bool)

/-- The first scan of `Clause::unit_prop_clause`: walk the body looking for a
satisfied literal (early exit, modelled as `none`) while tracking the single
unassigned literal seen so far (`acc`, the Rust `unit_result`); a second
unassigned literal is also an early exit.  Returns `some acc` when the loop
runs to completion. -/
def findUnitScan (assignments : Assignments) :
    List Atom → Option Atom → Option (Option Atom)
  | [], acc => some acc
  | atom :: rest, acc =>
    match assignments.getD atom.get_var.id none with
    | some assignment =>
      if atom.polarity = assignment then none
      else findUnitScan assignments rest acc
    | none =>
      match acc with
      | some _ => none
      | none => findUnitScan assignments rest (some atom)

/-- The second scan of `Clause::unit_prop_clause`: collect the negations of
the falsified literals (the Rust `atom_deps`). -/
def atomDeps (assignments : Assignments) (body : List Atom) : List Atom :=
  body.filterMap fun atom =>
    match assignments.getD atom.get_var.id none with
    | some assignment =>
      if atom.polarity ≠ assignment then some atom.negated else none
    | none => none

/-- Embeds `Clause::unit_prop_clause` from `src/clauses.rs`. -/
def Clause.unit_prop_clause (c : Clause) (assignments : Assignments) :
    SingleUnitPropResult :=
  match findUnitScan assignments c.body none with
  | none => .None
  | some (some unit) => .UnitProp (atomDeps assignments c.body) unit
  | some none => .Conflict

/-- Embeds `StackStack` from `src/stack_stack.rs`: a flat values array plus
an array of offsets marking each level boundary.  Both `Vec`s are lists with
push at the back, as in the source. -/
structure StackStack (α : Type) where
  values : List α
  tops : List Nat
deriving DecidableEq, Repr

namespace StackStack

/-- `StackStack::new`. -/
def new {α : Type} : StackStack α := { values := [], tops := [] }

/-- `StackStack::push_value`: push onto the top stack. -/
def push_value {α : Type} (s : StackStack α) (x : α) : StackStack α :=
  { s with values := s.values ++ [x] }

/-- `StackStack::push_stack`: open a new level at the current length. -/
def push_stack {α : Type} (s : StackStack α) : StackStack α :=
  { s with tops := s.tops ++ [s.values.length] }

/-- `StackStack::peek_stack`: the suffix of `values` from the last recorded
offset (0 when no level is open). -/
def peek_stack {α : Type} (s : StackStack α) : List α :=
  s.values.drop (s.tops.getLast?.getD 0)

/-- `StackStack::len`: the number of open levels. -/
def len {α : Type} (s : StackStack α) : Nat := s.tops.length

/-- `StackStack::pop_stack_iter`, split into its two effects: the drained
elements (`values[top_start..]`, yielded by the iterator) and the remaining
structure.  The Rust panic on an empty outer stack is `none`. -/
def pop_stack {α : Type} (s : StackStack α) :
    Option (List α × StackStack α) :=
  match s.tops.getLast? with
  | none => none
  | some top_start =>
    some (s.values.drop top_start,
      { values := s.values.take top_start, tops := s.tops.dropLast })

end StackStack

/-- Embeds `DerivationGraphNode` from `src/lib.rs`. -/
inductive DerivationGraphNode where
  | Guess (level : Nat) : DerivationGraphNode
  | Derivation (level : Nat) (inputs : List Atom) : DerivationGraphNode
deriving DecidableEq, Repr

/-- `DerivationGraphNode::level`. -/
def DerivationGraphNode.level : DerivationGraphNode → Nat
  | .Guess level => level
  | .Derivation level _ => level

/-- Embeds `State` from `src/lib.rs`. -/
structure State where
  clauses : List Clause
  assignment_stack : StackStack Atom
  assignments : Assignments
  derivation_graph : List (Option DerivationGraphNode)
deriving DecidableEq, Repr

/-- `State::new`. -/
def State.new (clauses : List Clause) (num_vars : Nat) : State :=
  { clauses := clauses
    assignment_stack := StackStack.new
    assignments := List.replicate num_vars none
    derivation_graph := List.replicate num_vars none }

/-- The body of the `UnitProp` arm of `unit_prop_scan`: record the
derivation at the current level, set the assignment, push the literal. -/
def installUnit (s : State) (inputs : List Atom) (output : Atom) : State :=
  { s with
    derivation_graph := s.derivation_graph.set output.get_var.id
      (some (.Derivation s.assignment_stack.len inputs))
    assignments := s.assignments.set output.get_var.id (some output.polarity)
    assignment_stack := s.assignment_stack.push_value output }

/-- Result of one `for clause in clauses` pass inside `unit_prop_scan`:
either an early exit on a conflict (with the mutated state), or the pass
completes with the final `done_something` flag. -/
inductive PassResult where
  | Conflict (inputs : List Atom) (s : State) : PassResult
  | Completed (s : State) (done_something : Bool) : PassResult
deriving DecidableEq, Repr

/-- One pass of the inner `for` loop of `State::unit_prop_scan`, over the
remaining clauses. -/
def scanPass (s : State) (done_something : Bool) :
    List Clause → PassResult
  | [] => .Completed s done_something
  | clause :: rest =>
    match clause.unit_prop_clause s.assignments with
    | .Conflict => .Conflict (clause.body.map Atom.negated) s
    | .None => scanPass s done_something rest
    | .UnitProp inputs output =>
      scanPass (installUnit s inputs output) true rest

/-- Result of `State::unit_prop_scan` (`FullUnitPropResult` in the source),
with the mutated state made explicit. -/
inductive FullUnitPropResult where
  | Conflict (inputs : List Atom) (s : State) : FullUnitPropResult
  | Done (s : State) : FullUnitPropResult
deriving DecidableEq, Repr

/-- The `while done_something` loop of `State::unit_prop_scan`, with fuel
bounding the number of passes (each productive pass assigns at least one
variable, so `unassigned + 1` passes always suffice; `none` = fuel ran
out, which is shown not to happen on well-formed states). -/
def scanLoop : Nat → State → Option FullUnitPropResult
  | 0, _ => none
  | fuel + 1, s =>
    match scanPass s false s.clauses with
    | .Conflict inputs s' => some (.Conflict inputs s')
    | .Completed s' true => scanLoop fuel s'
    | .Completed s' false => some (.Done s')

/-- The number of unset slots in the assignment map. -/
def State.noneCount (s : State) : Nat :=
  s.assignments.countP fun slot => slot = none

/-- Embeds `State::unit_prop_scan` from `src/lib.rs`: run passes to
fixpoint.  The fuel `noneCount + 1` is sufficient on well-formed states. -/
def State.unit_prop_scan (s : State) : Option FullUnitPropResult :=
  scanLoop (s.noneCount + 1) s

/-! ### Conflict analysis -/

/-- The `for atom in next_conflict` loop of `State::analyse_conflict`:
absorb the cut into the frontier, classifying each newly seen variable by
its graph level.  State threaded: frontier, `cur_level_size`, `reset_level`,
`result_body`.  A cut literal with no graph entry is the first panic,
modelled as `none`. -/
def absorbCut (graph : List (Option DerivationGraphNode)) (cur_level : Nat) :
    List Atom → List Bool → Nat → Nat → List Atom →
    Option (List Bool × Nat × Nat × List Atom)
  | [], frontier, cur_level_size, reset_level, result_body =>
    some (frontier, cur_level_size, reset_level, result_body)
  | atom :: rest, frontier, cur_level_size, reset_level, result_body =>
    if frontier.getD atom.get_var.id false then
      absorbCut graph cur_level rest frontier cur_level_size reset_level
        result_body
    else
      match graph.getD atom.get_var.id none with
      | none => none
      | some node =>
        if node.level = cur_level then
          absorbCut graph cur_level rest
            (frontier.set atom.get_var.id true) (cur_level_size + 1)
            reset_level result_body
        else if node.level ≠ 0 then
          absorbCut graph cur_level rest
            (frontier.set atom.get_var.id true) cur_level_size
            (max reset_level node.level) (result_body ++ [atom.negated])
        else
          absorbCut graph cur_level rest
            (frontier.set atom.get_var.id true) cur_level_size
            reset_level result_body

/-- The outer `loop` of `State::analyse_conflict` after the cut has been
absorbed into the frontier.  Walk the reverse iterator (the inner `loop`
of the source) looking for a frontier variable: a non-frontier literal is
skipped; the first frontier literal is the pivot, which is removed from
the frontier and `cur_level_size` is decremented.  If the count hits 0
the pivot is the UIP; otherwise the pivot must carry a `Derivation` node
and its inputs are absorbed (step 1 of the source loop) before the walk
continues.  Exhausting the iterator is the "Could not find a UIP" panic;
the other `none`s are the remaining two panics.  This is the same
control flow as the source's nested loops, associated so that the
recursion is structural on the iterator. -/
def analyseLoop (graph : List (Option DerivationGraphNode))
    (cur_level : Nat) :
    List Atom → List Bool → Nat → Nat → List Atom →
    Option (Clause × Nat)
  | [], _, _, _, _ => none
  | atom :: iter, frontier, cur_level_size, reset_level, result_body =>
    if frontier.getD atom.get_var.id false then
      if cur_level_size - 1 = 0 then
        some (Clause.new (result_body ++ [atom.negated]), reset_level)
      else
        match graph.getD atom.get_var.id none with
        | some (.Guess _) => none
        | none => none
        | some (.Derivation _ inputs) =>
          match absorbCut graph cur_level inputs
              (frontier.set atom.get_var.id false) (cur_level_size - 1)
              reset_level result_body with
          | none => none
          | some (frontier2, cls2, reset2, body2) =>
            analyseLoop graph cur_level iter frontier2 cls2 reset2 body2
    else
      analyseLoop graph cur_level iter frontier cur_level_size
        reset_level result_body

/-- Embeds `State::analyse_conflict` from `src/lib.rs`: absorb the
conflict's reasons, then walk the current level in reverse. -/
def State.analyse_conflict (s : State) (inputs : List Atom) :
    Option (Clause × Nat) :=
  match absorbCut s.derivation_graph s.assignment_stack.len inputs
      (List.replicate s.assignments.length false) 0 0 [] with
  | none => none
  | some (frontier, cur_level_size, reset_level, result_body) =>
    analyseLoop s.derivation_graph s.assignment_stack.len
      s.assignment_stack.peek_stack.reverse frontier cur_level_size
      reset_level result_body

/-! ### Decisions, backjumping and the search driver -/

/-- Embeds `State::guess`: the first unset variable, positive polarity. -/
def guessScan : List (Option Bool) → Nat → Option Atom
  | [], _ => none
  | none :: _, i => some (VarRef.as_atom { id := i } true)
  | some _ :: rest, i => guessScan rest (i + 1)

/-- `State::guess`. -/
def State.guess (s : State) : Option Atom :=
  guessScan s.assignments 0

/-- Embeds `State::make_guess` from `src/lib.rs`. -/
def State.make_guess (s : State) (guess : Atom) : State :=
  { s with
    derivation_graph := s.derivation_graph.set guess.get_var.id
      (some (.Guess (s.assignment_stack.len + 1)))
    assignments := s.assignments.set guess.get_var.id (some guess.polarity)
    assignment_stack := (s.assignment_stack.push_stack).push_value guess }

/-- The body of the backjump `for` loop in `State::sat`: clear the popped
literals' assignment slots and graph entries. -/
def clearAtoms (s : State) : List Atom → State
  | [] => s
  | atom :: rest =>
    clearAtoms
      { s with
        assignments := s.assignments.set atom.get_var.id none
        derivation_graph := s.derivation_graph.set atom.get_var.id none }
      rest

/-- Popping a level shrinks the outer stack. -/
theorem pop_stack_len_lt {α : Type} {s : StackStack α} {popped : List α}
    {stack' : StackStack α}
    (h : s.pop_stack = some (popped, stack')) :
    stack'.len < s.len := by
  unfold StackStack.pop_stack at h
  cases hl : s.tops.getLast? with
  | none => rw [hl] at h; exact absurd h (by simp)
  | some t =>
    rw [hl] at h
    simp only [Option.some.injEq, Prod.mk.injEq] at h
    obtain ⟨-, h2⟩ := h
    have hne : s.tops ≠ [] := by
      intro hnil
      rw [hnil] at hl
      exact absurd hl (by simp)
    rw [← h2]
    simp only [StackStack.len, List.length_dropLast]
    have hpos : 0 < s.tops.length := List.length_pos.mpr hne
    omega

/-- The `while assignment_stack.len() > reset_level` backjump loop in
`State::sat`. -/
def backjump (s : State) (reset_level : Nat) : State :=
  if h : reset_level < s.assignment_stack.len then
    match hp : s.assignment_stack.pop_stack with
    | none => s
    | some (popped, stack') =>
      backjump
        { clearAtoms s popped with assignment_stack := stack' }
        reset_level
  else s
  termination_by s.assignment_stack.len
  decreasing_by
    simp_wf
    exact pop_stack_len_lt hp

/-- One iteration of the `loop` in `State::sat`: either the loop continues
with a new state, returns a verdict, or hits a panic / internal fuel
exhaustion (`stuck`, shown unreachable on well-formed states). -/
inductive StepResult where
  | next (s : State) : StepResult
  | done (result : Bool) (s : State) : StepResult
  | stuck : StepResult
deriving DecidableEq, Repr

/-- One iteration of the `loop` in `State::sat`. -/
def satStep (s : State) : StepResult :=
  match s.unit_prop_scan with
  | none => .stuck
  | some (.Conflict inputs s') =>
    if s'.assignment_stack.len = 0 then .done false s'
    else
      match s'.analyse_conflict inputs with
      | none => .stuck
      | some (conflict_clause, reset_level) =>
        .next (backjump
          { s' with clauses := s'.clauses ++ [conflict_clause] }
          reset_level)
  | some (.Done s') =>
    match s'.guess with
    | some g => .next (s'.make_guess g)
    | none => .done true s'

/-- Embeds `State::sat` from `src/lib.rs`, with fuel bounding the number of
loop iterations; `none` = fuel ran out or a panic. -/
def satFuel : Nat → State → Option (Bool × State)
  | 0, _ => none
  | fuel + 1, s =>
    match satStep s with
    | .next s' => satFuel fuel s'
    | .done b s' => some (b, s')
    | .stuck => none

/-! ### The parser loop of `run_cnf` -/

/-- Tokens and variable names are character lists (Rust `String`s; strings
are modelled at the character level so that everything evaluates). -/
abbrev Token := List Char

/-- One token of the parser loop in `run_cnf`: strip a leading `!` (at most
once, only at the front) for the polarity; the rest is the variable name.
Mirrors `if atom.starts_with('!') { (atom[1..], false) } else { (atom, true) }`. -/
def parseToken (atom : Token) : Token × Bool :=
  if atom.head? = some '!' then (atom.drop 1, false) else (atom, true)

/-- The variable manager: interning by first occurrence.  The Rust
`HashMap<String, VarRef>` together with `max_var` is modelled as the
association list of entries in insertion order (ids are allocated in
first-seen order; lookup is by name). -/
abbrev VarManager := List (Token × VarRef)

/-- `var_manager.entry(name).or_insert_with(...)`: look the name up,
allocating the next id on a miss. -/
def internVar (mgr : VarManager) (name : Token) : VarRef × VarManager :=
  match mgr.lookup name with
  | some v => (v, mgr)
  | none => ({ id := mgr.length }, mgr ++ [(name, { id := mgr.length })])

/-- The `for atom in line.split_whitespace()` loop of `run_cnf`. -/
def parseLine (mgr : VarManager) : List Token → List Atom × VarManager
  | [] => ([], mgr)
  | token :: rest =>
    let pt := parseToken token
    let iv := internVar mgr pt.1
    let res := parseLine iv.2 rest
    (iv.1.as_atom pt.2 :: res.1, res.2)

/-- The `for line in input.lines()` loop of `run_cnf`: each line is already
split into whitespace-separated tokens; an empty clause stops parsing. -/
def parseLines (mgr : VarManager) (clauses : List Clause) :
    List (List Token) → List Clause × VarManager
  | [] => (clauses, mgr)
  | line :: rest =>
    let res := parseLine mgr line
    if res.1.isEmpty then (clauses, res.2)
    else parseLines res.2 (clauses ++ [Clause.new res.1]) rest

/-- The parsing phase of `run_cnf`: clauses plus the symbol table. -/
def runCnfParse (input : List (List Token)) : List Clause × VarManager :=
  parseLines [] [] input

/-! ### Semantic vocabulary -/

/-- The literal is true under the (partial) assignment map. -/
def litTrue (assignments : Assignments) (a : Atom) : Prop :=
  assignments.getD a.get_var.id none = some a.polarity

/-- The literal is false under the (partial) assignment map. -/
def litFalse (assignments : Assignments) (a : Atom) : Prop :=
  assignments.getD a.get_var.id none = some (!a.polarity)

/-- The literal's variable is unset. -/
def litUnset (assignments : Assignments) (a : Atom) : Prop :=
  assignments.getD a.get_var.id none = none

instance (assignments : Assignments) (a : Atom) :
    Decidable (litTrue assignments a) :=
  inferInstanceAs
    (Decidable (assignments.getD a.get_var.id none = some a.polarity))

instance (assignments : Assignments) (a : Atom) :
    Decidable (litFalse assignments a) :=
  inferInstanceAs
    (Decidable (assignments.getD a.get_var.id none = some (!a.polarity)))

instance (assignments : Assignments) (a : Atom) :
    Decidable (litUnset assignments a) :=
  inferInstanceAs
    (Decidable (assignments.getD a.get_var.id none = none))

/-- Boolean test for an unset literal, for `List.filter`. -/
def unsetB (assignments : Assignments) (a : Atom) : Bool :=
  (assignments.getD a.get_var.id none).isNone

/-- A total assignment satisfies a clause: some literal evaluates true. -/
def clauseSatBy (ρ : Nat → Bool) (c : Clause) : Prop :=
  ∃ a ∈ c.body, ρ a.get_var.id = a.polarity

/-- A total assignment satisfies a clause list. -/
def cnfSatBy (ρ : Nat → Bool) (clauses : List Clause) : Prop :=
  ∀ c ∈ clauses, clauseSatBy ρ c

instance : Inhabited Atom := ⟨{ var := { id := 0 }, polarity := true }⟩

/-! ### Structural state invariants

The layered stack is described positionally: `posLevel tops p` is the
decision level of the literal at position `p` of the flat `values` array
(the number of level boundaries at or below `p`). -/

/-- The decision level of stack position `p`. -/
def posLevel (tops : List Nat) (p : Nat) : Nat :=
  tops.countP fun t => decide (t ≤ p)

/-- The variable ids on the assignment stack, in stack order. -/
def stackVars (s : State) : List Nat :=
  s.assignment_stack.values.map fun a => a.get_var.id

/-- The two dense arrays have the same length. -/
def WfLens (s : State) : Prop :=
  s.derivation_graph.length = s.assignments.length

/-- Every literal of every clause mentions an in-range variable. -/
def WfClauses (s : State) : Prop :=
  ∀ c ∈ s.clauses, ∀ a ∈ c.body, a.get_var.id < s.assignments.length

/-- The level boundaries are strictly increasing and below the stack size
(every open level is nonempty, starting with its decision literal). -/
def WfTops (s : State) : Prop :=
  List.Chain' (· < ·)
    (s.assignment_stack.tops ++ [s.assignment_stack.values.length])

/-- Executable strict-chain test (for deciding `WfTops`). -/
def chainLtB : List Nat → Bool
  | [] => true
  | [_] => true
  | a :: b :: rest => (decide (a < b)) && chainLtB (b :: rest)

/-- Every stacked literal mentions an in-range variable. -/
def WfStackVars (s : State) : Prop :=
  ∀ a ∈ s.assignment_stack.values, a.get_var.id < s.assignments.length

/-- A variable has an assignment exactly when it has a graph entry. -/
def AgreeGraph (s : State) : Prop :=
  ∀ v < s.assignments.length,
    ((s.assignments.getD v none).isSome ↔
      (s.derivation_graph.getD v none).isSome)

/-- A variable has an assignment exactly when it is on the stack. -/
def AgreeStack (s : State) : Prop :=
  ∀ v < s.assignments.length,
    ((s.assignments.getD v none).isSome ↔ v ∈ stackVars s)

/-- No variable occurs twice on the stack. -/
def StackNodup (s : State) : Prop :=
  (stackVars s).Nodup

/-- Each stacked literal agrees with the assignment map. -/
def StackMatches (s : State) : Prop :=
  ∀ a ∈ s.assignment_stack.values,
    s.assignments.getD a.get_var.id none = some a.polarity

/-- The graph level of each stacked literal is its stack layer. -/
def LevelsMatch (s : State) : Prop :=
  ∀ p < s.assignment_stack.values.length,
    (s.derivation_graph.getD
        ((s.assignment_stack.values.getD p default).get_var.id) none).map
      DerivationGraphNode.level =
      some (posLevel s.assignment_stack.tops p)

/-- A `Guess` node's variable sits exactly at the start of its layer
(condition on the node, if any). -/
def guessNodeCondAux (s : State) (v : Nat) :
    Option DerivationGraphNode → Prop
  | some (.Guess lev) =>
    1 ≤ lev ∧ lev ≤ s.assignment_stack.len ∧
    (s.assignment_stack.values.getD
        (s.assignment_stack.tops.getD (lev - 1) 0) default).get_var.id = v
  | _ => True

/-- A `Guess` node's variable sits exactly at the start of its layer. -/
def guessNodeCond (s : State) (v : Nat) : Prop :=
  guessNodeCondAux s v (s.derivation_graph.getD v none)

/-- All guess nodes are layer-initial. -/
def GuessCond (s : State) : Prop :=
  ∀ v < s.assignments.length, guessNodeCond s v

/-- A `Derivation` node's inputs are currently-true literals assigned
strictly before the derived variable in stack order (condition on the
node, if any). -/
def derivNodeCondAux (s : State) (v : Nat) :
    Option DerivationGraphNode → Prop
  | some (.Derivation _ inputs) =>
    ∀ a ∈ inputs,
      litTrue s.assignments a ∧
      (stackVars s).indexOf a.get_var.id < (stackVars s).indexOf v
  | _ => True

/-- A `Derivation` node's inputs are currently-true literals assigned
strictly before the derived variable in stack order. -/
def derivNodeCond (s : State) (v : Nat) : Prop :=
  derivNodeCondAux s v (s.derivation_graph.getD v none)

/-- All derivation nodes have well-founded inputs. -/
def DerivCond (s : State) : Prop :=
  ∀ v < s.assignments.length, derivNodeCond s v

/-- Above level 0, no clause of the current clause list is falsified (this
is the loop-head quiescence property behind conflict analysis always
finding a current-level literal). -/
def QCond (s : State) : Prop :=
  1 ≤ s.assignment_stack.len →
    ∀ c ∈ s.clauses, ¬ ∀ a ∈ c.body, litFalse s.assignments a

/-- The core structural invariant of the solver state: everything except
quiescence.  It holds at every boundary of the `State::sat` loop and is
also maintained across the interior of a propagation scan. -/
def CoreInv (s : State) : Prop :=
  WfLens s ∧ WfClauses s ∧ WfTops s ∧ WfStackVars s ∧ AgreeGraph s ∧
    AgreeStack s ∧ StackNodup s ∧ StackMatches s ∧ LevelsMatch s ∧
    GuessCond s ∧ DerivCond s

/-- The structural invariant of the solver state: all components that hold
at every boundary of the `State::sat` loop. -/
def StructInv (s : State) : Prop :=
  CoreInv s ∧ QCond s

instance guessNodeCondAuxDec (s : State) (v : Nat) :
    (o : Option DerivationGraphNode) → Decidable (guessNodeCondAux s v o)
  | none => isTrue trivial
  | some (.Guess _) => inferInstanceAs (Decidable (_ ∧ _ ∧ _))
  | some (.Derivation _ _) => isTrue trivial

instance (s : State) (v : Nat) : Decidable (guessNodeCond s v) :=
  guessNodeCondAuxDec s v _

instance derivNodeCondAuxDec (s : State) (v : Nat) :
    (o : Option DerivationGraphNode) → Decidable (derivNodeCondAux s v o)
  | none => isTrue trivial
  | some (.Guess _) => isTrue trivial
  | some (.Derivation _ _) =>
    inferInstanceAs (Decidable (∀ _ ∈ _, _ ∧ _))

instance (s : State) (v : Nat) : Decidable (derivNodeCond s v) :=
  derivNodeCondAuxDec s v _

instance (s : State) : Decidable (WfLens s) :=
  inferInstanceAs
    (Decidable (s.derivation_graph.length = s.assignments.length))

instance (s : State) : Decidable (WfClauses s) :=
  inferInstanceAs (Decidable (∀ c ∈ s.clauses, ∀ a ∈ c.body,
    a.get_var.id < s.assignments.length))

theorem chainLtB_iff : ∀ l : List Nat,
    (chainLtB l = true ↔ List.Chain' (· < ·) l)
  | [] => by simp [chainLtB]
  | [a] => by simp [chainLtB]
  | a :: b :: rest => by
    rw [chainLtB, Bool.and_eq_true, chainLtB_iff (b :: rest),
      List.chain'_cons]
    simp only [decide_eq_true_eq]

instance (s : State) : Decidable (WfTops s) :=
  decidable_of_iff _
    (chainLtB_iff
      (s.assignment_stack.tops ++ [s.assignment_stack.values.length]))

instance (s : State) : Decidable (WfStackVars s) :=
  inferInstanceAs (Decidable (∀ a ∈ s.assignment_stack.values,
    a.get_var.id < s.assignments.length))

instance (s : State) : Decidable (AgreeGraph s) :=
  inferInstanceAs (Decidable (∀ v < s.assignments.length,
    ((s.assignments.getD v none).isSome ↔
      (s.derivation_graph.getD v none).isSome)))

instance (s : State) : Decidable (AgreeStack s) :=
  inferInstanceAs (Decidable (∀ v < s.assignments.length,
    ((s.assignments.getD v none).isSome ↔ v ∈ stackVars s)))

instance (s : State) : Decidable (StackNodup s) :=
  inferInstanceAs (Decidable (stackVars s).Nodup)

instance (s : State) : Decidable (StackMatches s) :=
  inferInstanceAs (Decidable (∀ a ∈ s.assignment_stack.values,
    s.assignments.getD a.get_var.id none = some a.polarity))

instance (s : State) : Decidable (LevelsMatch s) :=
  inferInstanceAs (Decidable (∀ p < s.assignment_stack.values.length,
    (s.derivation_graph.getD
        ((s.assignment_stack.values.getD p default).get_var.id) none).map
      DerivationGraphNode.level =
      some (posLevel s.assignment_stack.tops p)))

instance (s : State) : Decidable (GuessCond s) :=
  inferInstanceAs
    (Decidable (∀ v < s.assignments.length, guessNodeCond s v))

instance (s : State) : Decidable (DerivCond s) :=
  inferInstanceAs
    (Decidable (∀ v < s.assignments.length, derivNodeCond s v))

instance (s : State) : Decidable (QCond s) :=
  inferInstanceAs (Decidable (1 ≤ s.assignment_stack.len →
    ∀ c ∈ s.clauses, ¬ ∀ a ∈ c.body, litFalse s.assignments a))

instance (s : State) : Decidable (CoreInv s) :=
  inferInstanceAs (Decidable (WfLens s ∧ WfClauses s ∧ WfTops s ∧
    WfStackVars s ∧ AgreeGraph s ∧ AgreeStack s ∧ StackNodup s ∧
    StackMatches s ∧ LevelsMatch s ∧ GuessCond s ∧ DerivCond s))

instance (s : State) : Decidable (StructInv s) :=
  inferInstanceAs (Decidable (CoreInv s ∧ QCond s))

/-- The variable ids popped by a backjump to level `T`: those at stack
positions at or above the boundary of layer `T + 1`. -/
def droppedVars (s : State) (T : Nat) : List Nat :=
  (s.assignment_stack.values.drop
      (s.assignment_stack.tops.getD T s.assignment_stack.values.length)).map
    fun a => a.get_var.id

/-! ## List helpers -/

theorem getD_set_self {α : Type} (l : List α) (i : Nat) (x d : α)
    (h : i < l.length) : (l.set i x).getD i d = x := by
  rw [List.getD_eq_getElem?_getD, List.getElem?_set_eq_of_lt x h]
  rfl

theorem getD_set_other {α : Type} (l : List α) {i j : Nat} (x d : α)
    (h : i ≠ j) : (l.set i x).getD j d = l.getD j d := by
  rw [List.getD_eq_getElem?_getD, List.getElem?_set_ne h,
    ← List.getD_eq_getElem?_getD]

theorem getD_oob {α : Type} (l : List α) {i : Nat} (d : α)
    (h : l.length ≤ i) : l.getD i d = d := by
  rw [List.getD_eq_getElem?_getD, List.getElem?_eq_none h]
  rfl

theorem getD_set_none_self {α : Type} (l : List (Option α)) (i : Nat) :
    (l.set i none).getD i none = none := by
  by_cases h : i < l.length
  · exact getD_set_self l i none none h
  · exact getD_oob _ none (by rw [List.length_set]; omega)

/-! ## `clearAtoms` and the backjump loop -/

theorem clearAtoms_clauses (s : State) (atoms : List Atom) :
    (clearAtoms s atoms).clauses = s.clauses := by
  induction atoms generalizing s with
  | nil => rfl
  | cons a rest ih => rw [clearAtoms]; exact ih _

theorem clearAtoms_stack (s : State) (atoms : List Atom) :
    (clearAtoms s atoms).assignment_stack = s.assignment_stack := by
  induction atoms generalizing s with
  | nil => rfl
  | cons a rest ih => rw [clearAtoms]; exact ih _

theorem clearAtoms_assignments_length (s : State) (atoms : List Atom) :
    (clearAtoms s atoms).assignments.length = s.assignments.length := by
  induction atoms generalizing s with
  | nil => rfl
  | cons a rest ih =>
    rw [clearAtoms, ih]
    simp [List.length_set]

theorem clearAtoms_graph_length (s : State) (atoms : List Atom) :
    (clearAtoms s atoms).derivation_graph.length =
      s.derivation_graph.length := by
  induction atoms generalizing s with
  | nil => rfl
  | cons a rest ih =>
    rw [clearAtoms, ih]
    simp [List.length_set]

theorem clearAtoms_assignments_getD (s : State) (atoms : List Atom)
    (v : Nat) :
    (clearAtoms s atoms).assignments.getD v none =
      if ∃ a ∈ atoms, a.get_var.id = v then none
      else s.assignments.getD v none := by
  induction atoms generalizing s with
  | nil => simp [clearAtoms]
  | cons a rest ih =>
    rw [clearAtoms, ih]
    by_cases hv : a.get_var.id = v
    · subst hv
      by_cases hr : ∃ x ∈ rest, x.get_var.id = a.get_var.id
      · rw [if_pos hr, if_pos ⟨a, List.mem_cons_self a rest, rfl⟩]
      · rw [if_neg hr, if_pos ⟨a, List.mem_cons_self a rest, rfl⟩]
        exact getD_set_none_self _ _
    · by_cases hr : ∃ x ∈ rest, x.get_var.id = v
      · rw [if_pos hr, if_pos (by
          obtain ⟨x, hx, he⟩ := hr
          exact ⟨x, List.mem_cons_of_mem a hx, he⟩)]
      · rw [if_neg hr, if_neg (by
          rintro ⟨x, hx, he⟩
          rcases List.mem_cons.mp hx with rfl | hx'
          · exact hv he
          · exact hr ⟨x, hx', he⟩)]
        exact getD_set_other _ _ _ hv

theorem clearAtoms_graph_getD (s : State) (atoms : List Atom) (v : Nat) :
    (clearAtoms s atoms).derivation_graph.getD v none =
      if ∃ a ∈ atoms, a.get_var.id = v then none
      else s.derivation_graph.getD v none := by
  induction atoms generalizing s with
  | nil => simp [clearAtoms]
  | cons a rest ih =>
    rw [clearAtoms, ih]
    by_cases hv : a.get_var.id = v
    · subst hv
      by_cases hr : ∃ x ∈ rest, x.get_var.id = a.get_var.id
      · rw [if_pos hr, if_pos ⟨a, List.mem_cons_self a rest, rfl⟩]
      · rw [if_neg hr, if_pos ⟨a, List.mem_cons_self a rest, rfl⟩]
        exact getD_set_none_self _ _
    · by_cases hr : ∃ x ∈ rest, x.get_var.id = v
      · rw [if_pos hr, if_pos (by
          obtain ⟨x, hx, he⟩ := hr
          exact ⟨x, List.mem_cons_of_mem a hx, he⟩)]
      · rw [if_neg hr, if_neg (by
          rintro ⟨x, hx, he⟩
          rcases List.mem_cons.mp hx with rfl | hx'
          · exact hv he
          · exact hr ⟨x, hx', he⟩)]
        exact getD_set_other _ _ _ hv

/-! ## Consequences of `WfTops` -/

theorem getD_in {α : Type} (l : List α) {i : Nat} (h : i < l.length)
    (d : α) : l.getD i d = l[i] :=
  List.getD_eq_getElem l d h

/-- The level boundaries are strictly monotone. -/
theorem wfTops_strict {s : State} (hW : WfTops s) {i j : Nat} (hij : i < j)
    (hj : j < s.assignment_stack.tops.length) :
    s.assignment_stack.tops.getD i 0 < s.assignment_stack.tops.getD j 0 := by
  have hp := (List.chain'_iff_pairwise.mp hW)
  have hi : i < s.assignment_stack.tops.length := by omega
  have hib : i < (s.assignment_stack.tops ++
      [s.assignment_stack.values.length]).length := by
    simp
    omega
  have hjb : j < (s.assignment_stack.tops ++
      [s.assignment_stack.values.length]).length := by
    simp
    omega
  have hget := List.pairwise_iff_getElem.mp hp i j hib hjb hij
  rw [getD_in _ hi, getD_in _ hj]
  have e1 : (s.assignment_stack.tops ++
      [s.assignment_stack.values.length])[i] =
      s.assignment_stack.tops[i] := by
    rw [List.getElem_append]
    exact dif_pos hi
  have e2 : (s.assignment_stack.tops ++
      [s.assignment_stack.values.length])[j] =
      s.assignment_stack.tops[j] := by
    rw [List.getElem_append]
    exact dif_pos hj
  rw [e1, e2] at hget
  exact hget

/-- The level boundaries are weakly monotone. -/
theorem wfTops_mono {s : State} (hW : WfTops s) {i j : Nat} (hij : i ≤ j)
    (hj : j < s.assignment_stack.tops.length) :
    s.assignment_stack.tops.getD i 0 ≤ s.assignment_stack.tops.getD j 0 := by
  rcases Nat.lt_or_ge i j with h | h
  · exact Nat.le_of_lt (wfTops_strict hW h hj)
  · have : i = j := by omega
    rw [this]

/-- Every level boundary is below the stack size. -/
theorem wfTops_lt_values {s : State} (hW : WfTops s) {i : Nat}
    (hi : i < s.assignment_stack.tops.length) :
    s.assignment_stack.tops.getD i 0 <
      s.assignment_stack.values.length := by
  have hp := (List.chain'_iff_pairwise.mp hW)
  have hib : i < (s.assignment_stack.tops ++
      [s.assignment_stack.values.length]).length := by
    simp
    omega
  have hjb : s.assignment_stack.tops.length <
      (s.assignment_stack.tops ++
        [s.assignment_stack.values.length]).length := by
    simp
  have hget := List.pairwise_iff_getElem.mp hp i
    s.assignment_stack.tops.length hib hjb hi
  rw [getD_in _ hi]
  have e1 : (s.assignment_stack.tops ++
      [s.assignment_stack.values.length])[i] =
      s.assignment_stack.tops[i] := by
    rw [List.getElem_append]
    exact dif_pos hi
  have e2 : (s.assignment_stack.tops ++
      [s.assignment_stack.values.length])[s.assignment_stack.tops.length] =
      s.assignment_stack.values.length := by
    rw [List.getElem_append]
    simp
  rw [e1, e2] at hget
  exact hget

/-- The backjump loop, fully characterized: it truncates the stack at the
boundary of layer `T + 1`, clears exactly the popped variables, and leaves
everything else alone. -/
theorem backjump_spec (n : Nat) :
    ∀ (s : State) (T : Nat), WfTops s →
      s.assignment_stack.len - T = n → T ≤ s.assignment_stack.len →
      (backjump s T).clauses = s.clauses ∧
      (backjump s T).assignments.length = s.assignments.length ∧
      (backjump s T).derivation_graph.length =
        s.derivation_graph.length ∧
      (backjump s T).assignment_stack.tops =
        s.assignment_stack.tops.take T ∧
      (backjump s T).assignment_stack.values =
        s.assignment_stack.values.take
          (s.assignment_stack.tops.getD T
            s.assignment_stack.values.length) ∧
      (∀ v : Nat, (backjump s T).assignments.getD v none =
        if v ∈ droppedVars s T then none
        else s.assignments.getD v none) ∧
      (∀ v : Nat, (backjump s T).derivation_graph.getD v none =
        if v ∈ droppedVars s T then none
        else s.derivation_graph.getD v none) := by
  induction n with
  | zero =>
    intro s T hW h0 hle
    have hlen_eq : s.assignment_stack.len =
      s.assignment_stack.tops.length := rfl
    have hTt : s.assignment_stack.tops.length ≤ T := by omega
    have hnored : backjump s T = s := by
      rw [backjump]
      rw [dif_neg (by omega)]
    have hdrop : droppedVars s T = [] := by
      unfold droppedVars
      rw [getD_oob _ _ hTt]
      simp
    rw [hnored]
    refine ⟨rfl, rfl, rfl, ?_, ?_, ?_, ?_⟩
    · have hTeq : T = s.assignment_stack.tops.length := by omega
      rw [hTeq, List.take_length]
    · rw [getD_oob _ _ hTt, List.take_length]
    · intro v
      rw [hdrop, if_neg (List.not_mem_nil v)]
    · intro v
      rw [hdrop, if_neg (List.not_mem_nil v)]
  | succ n ih =>
    intro s T hW h0 hle
    have hlt : T < s.assignment_stack.len := by omega
    have hLpos : 0 < s.assignment_stack.tops.length := by
      unfold StackStack.len at hlt
      omega
    set V := s.assignment_stack.values with hV
    set tops := s.assignment_stack.tops with htops
    set L := tops.length with hL
    have hsl : s.assignment_stack.len = L := rfl
    have hLL : s.assignment_stack.tops.length = L := rfl
    have hVV : s.assignment_stack.values.length = V.length := rfl
    set t_last := tops.getD (L - 1) 0 with ht_last
    have htlast : tops.getLast? = some t_last := by
      rw [List.getLast?_eq_getElem?, List.getElem?_eq_getElem (by omega),
        ht_last, getD_in _ (by omega)]
    have htl_lt : t_last < V.length := wfTops_lt_values hW (by omega)
    have hpop : s.assignment_stack.pop_stack =
        some (V.drop t_last,
          { values := V.take t_last, tops := tops.dropLast }) := by
      unfold StackStack.pop_stack
      rw [← htops, htlast]
    set s₁ : State :=
      { clearAtoms s (V.drop t_last) with
        assignment_stack :=
          { values := V.take t_last, tops := tops.dropLast } } with hs₁
    have hred : backjump s T = backjump s₁ T := by
      conv_lhs => rw [backjump]
      rw [dif_pos hlt]
      split
      · rename_i heq
        rw [hpop] at heq
        exact absurd heq (by simp)
      · rename_i popped stack' heq
        rw [hpop] at heq
        simp only [Option.some.injEq, Prod.mk.injEq] at heq
        obtain ⟨h1, h2⟩ := heq
        rw [← h1, ← h2]
    have hV₁len : (V.take t_last).length = t_last := by
      rw [List.length_take]
      omega
    have hne : tops ≠ [] := by
      intro hnil
      have : tops.length = 0 := by rw [hnil]; rfl
      omega
    have hgl : tops.getLast hne = t_last := by
      have h2 := List.getLast?_eq_getLast tops hne
      rw [htlast] at h2
      exact (Option.some.inj h2).symm
    have htd : tops = tops.dropLast ++ [t_last] := by
      conv_lhs => rw [← List.dropLast_concat_getLast hne]
      rw [hgl]
    have hW₁ : WfTops s₁ := by
      unfold WfTops
      show List.Chain' (· < ·) (tops.dropLast ++ [(V.take t_last).length])
      rw [hV₁len]
      have hchain : List.Chain' (· < ·) (tops ++ [V.length]) := hW
      rw [htd, List.append_assoc] at hchain
      obtain ⟨hc1, hc2, hc3⟩ := List.chain'_append.mp hchain
      rw [List.chain'_append]
      refine ⟨hc1, List.chain'_singleton _, ?_⟩
      intro x hx y hy
      simp only [List.head?_cons, Option.mem_def, Option.some.injEq] at hy
      subst hy
      exact hc3 x hx t_last (by simp)
    have hlen₁ : s₁.assignment_stack.len = L - 1 := by
      show (tops.dropLast).length = L - 1
      rw [List.length_dropLast]
    have hTb : T < tops.length := by omega
    have hb : tops.getD T V.length = tops.getD T 0 := by
      rw [getD_in tops hTb V.length, getD_in tops hTb 0]
    have hble : tops.getD T 0 ≤ t_last := by
      rcases Nat.lt_or_ge T (L - 1) with h | h
      · exact Nat.le_of_lt (wfTops_strict hW h (by omega))
      · have : T = L - 1 := by omega
        rw [this]
    have hgetD₁ : tops.dropLast.getD T ((V.take t_last).length) =
        tops.getD T 0 := by
      rw [hV₁len]
      rcases Nat.lt_or_ge T (L - 1) with h | h
      · have hTd : T < tops.dropLast.length := by
          rw [List.length_dropLast]
          omega
        rw [getD_in tops.dropLast hTd t_last, getD_in tops hTb 0]
        exact List.getElem_dropLast tops T hTd
      · have hTeq : T = L - 1 := by omega
        rw [getD_oob _ _ (by rw [List.length_dropLast]; omega), hTeq]
    have hdropped_eq : droppedVars s T =
        droppedVars s₁ T ++ (V.drop t_last).map fun a => a.get_var.id := by
      unfold droppedVars
      show (V.drop (tops.getD T V.length)).map _ =
        ((V.take t_last).drop
          (tops.dropLast.getD T (V.take t_last).length)).map _ ++ _
      rw [hgetD₁, hb]
      rw [← List.map_append]
      congr 1
      conv_lhs => rw [← List.take_append_drop t_last V]
      rw [List.drop_append_eq_append_drop]
      congr 1
      rw [hV₁len]
      have : tops.getD T 0 - t_last = 0 := by omega
      rw [this, List.drop_zero]
    obtain ⟨ih1, ih2, ih3, ih4, ih5, ih6, ih7⟩ :=
      ih s₁ T hW₁ (by rw [hlen₁]; omega) (by rw [hlen₁]; omega)
    have hcl₁ : s₁.clauses = s.clauses := by
      show (clearAtoms s (V.drop t_last)).clauses = s.clauses
      exact clearAtoms_clauses s _
    have hal₁ : s₁.assignments.length = s.assignments.length := by
      show (clearAtoms s (V.drop t_last)).assignments.length = _
      exact clearAtoms_assignments_length s _
    have hgl₁ : s₁.derivation_graph.length =
        s.derivation_graph.length := by
      show (clearAtoms s (V.drop t_last)).derivation_graph.length = _
      exact clearAtoms_graph_length s _
    rw [hred]
    refine ⟨by rw [ih1, hcl₁], by rw [ih2, hal₁], by rw [ih3, hgl₁],
      ?_, ?_, ?_, ?_⟩
    · rw [ih4]
      show (tops.dropLast).take T = tops.take T
      rw [List.dropLast_eq_take, List.take_take]
      congr 1
      omega
    · rw [ih5]
      show (V.take t_last).take
        (tops.dropLast.getD T ((V.take t_last)).length) =
        V.take (tops.getD T V.length)
      rw [hgetD₁, hb, List.take_take]
      congr 1
      omega
    · intro v
      rw [ih6 v]
      have hclr : s₁.assignments.getD v none =
          if ∃ a ∈ V.drop t_last, a.get_var.id = v then none
          else s.assignments.getD v none := by
        show (clearAtoms s (V.drop t_last)).assignments.getD v none = _
        exact clearAtoms_assignments_getD s _ v
      rw [hclr, hdropped_eq]
      by_cases h₁ : v ∈ droppedVars s₁ T
      · rw [if_pos h₁, if_pos (List.mem_append.mpr (Or.inl h₁))]
      · rw [if_neg h₁]
        by_cases h₂ : ∃ a ∈ V.drop t_last, a.get_var.id = v
        · rw [if_pos h₂, if_pos (List.mem_append.mpr (Or.inr (by
            obtain ⟨a, ha, he⟩ := h₂
            exact List.mem_map.mpr ⟨a, ha, he⟩)))]
        · rw [if_neg h₂, if_neg (by
            intro hmem
            rcases List.mem_append.mp hmem with h | h
            · exact h₁ h
            · obtain ⟨a, ha, he⟩ := List.mem_map.mp h
              exact h₂ ⟨a, ha, he⟩)]
    · intro v
      rw [ih7 v]
      have hclr : s₁.derivation_graph.getD v none =
          if ∃ a ∈ V.drop t_last, a.get_var.id = v then none
          else s.derivation_graph.getD v none := by
        show (clearAtoms s (V.drop t_last)).derivation_graph.getD v none = _
        exact clearAtoms_graph_getD s _ v
      rw [hclr, hdropped_eq]
      by_cases h₁ : v ∈ droppedVars s₁ T
      · rw [if_pos h₁, if_pos (List.mem_append.mpr (Or.inl h₁))]
      · rw [if_neg h₁]
        by_cases h₂ : ∃ a ∈ V.drop t_last, a.get_var.id = v
        · rw [if_pos h₂, if_pos (List.mem_append.mpr (Or.inr (by
            obtain ⟨a, ha, he⟩ := h₂
            exact List.mem_map.mpr ⟨a, ha, he⟩)))]
        · rw [if_neg h₂, if_neg (by
            intro hmem
            rcases List.mem_append.mp hmem with h | h
            · exact h₁ h
            · obtain ⟨a, ha, he⟩ := List.mem_map.mp h
              exact h₂ ⟨a, ha, he⟩)]

/-- Positions at or past the boundary of layer `T + 1` have level `> T`. -/
theorem posLevel_gt {s : State} (hW : WfTops s) {T p : Nat}
    (hT : T < s.assignment_stack.tops.length)
    (hp : s.assignment_stack.tops.getD T 0 ≤ p) :
    T < posLevel s.assignment_stack.tops p := by
  set tops := s.assignment_stack.tops with htops
  unfold posLevel
  have hsplit : tops = tops.take (T + 1) ++ tops.drop (T + 1) :=
    (List.take_append_drop _ _).symm
  rw [hsplit, List.countP_append]
  have hlen : (tops.take (T + 1)).length = T + 1 := by
    rw [List.length_take]
    omega
  have hcount : (tops.take (T + 1)).countP (fun t => decide (t ≤ p)) =
      (tops.take (T + 1)).length := by
    rw [List.countP_eq_length]
    intro x hx
    obtain ⟨i, hi, hxi⟩ := List.mem_take_iff_getElem.mp hx
    have hiT : i ≤ T := by omega
    have hib : i < tops.length := by omega
    have hmono : tops[i] ≤ tops.getD T 0 := by
      rw [← getD_in tops hib 0]
      exact wfTops_mono hW hiT hT
    simp only [decide_eq_true_eq]
    omega
  rw [hlen] at hcount
  omega

/-- Positions strictly below the boundary of layer `T + 1` have
level `≤ T`. -/
theorem posLevel_le {s : State} (hW : WfTops s) {T p : Nat}
    (hT : T < s.assignment_stack.tops.length)
    (hp : p < s.assignment_stack.tops.getD T 0) :
    posLevel s.assignment_stack.tops p ≤ T := by
  set tops := s.assignment_stack.tops with htops
  unfold posLevel
  have hsplit : tops = tops.take T ++ tops.drop T :=
    (List.take_append_drop _ _).symm
  rw [hsplit, List.countP_append]
  have hz : (tops.drop T).countP (fun t => decide (t ≤ p)) = 0 := by
    rw [List.countP_eq_zero]
    intro x hx
    obtain ⟨j, hj, hxj⟩ := List.getElem_of_mem hx
    rw [List.getElem_drop] at hxj
    have hjb : T + j < tops.length := by
      rw [List.length_drop] at hj
      omega
    have hmono : tops.getD T 0 ≤ tops.getD (T + j) 0 :=
      wfTops_mono hW (by omega) hjb
    rw [getD_in tops hjb 0] at hmono
    simp only [decide_eq_true_eq]
    omega
  have hle2 : (tops.take T).countP (fun t => decide (t ≤ p)) ≤ T := by
    calc (tops.take T).countP _ ≤ (tops.take T).length :=
        List.countP_le_length _
    _ ≤ T := by rw [List.length_take]; omega
  omega

/-- Under the structural invariant, the variables popped by a backjump to
`T` are exactly those whose graph entry sits at a level above `T`. -/
theorem droppedVars_iff {s : State} (hInv : CoreInv s) {T : Nat}
    (hT : T < s.assignment_stack.len) (v : Nat) :
    v ∈ droppedVars s T ↔
      ∃ node, s.derivation_graph.getD v none = some node ∧
        T < node.level := by
  obtain ⟨hW1, hW2, hW3, hW4, hA1, hA2, hA3, hA4, hL1, hG, hD⟩ := hInv
  have hlens : s.derivation_graph.length = s.assignments.length := hW1
  have hTb : T < s.assignment_stack.tops.length := hT
  have hb : s.assignment_stack.tops.getD T
      s.assignment_stack.values.length = s.assignment_stack.tops.getD T 0 :=
    by rw [getD_in _ hTb, getD_in _ hTb]
  constructor
  · intro hmem
    unfold droppedVars at hmem
    obtain ⟨a, ha, hav⟩ := List.mem_map.mp hmem
    obtain ⟨j, hj, haj⟩ := List.getElem_of_mem ha
    rw [List.getElem_drop] at haj
    set b := s.assignment_stack.tops.getD T
      s.assignment_stack.values.length with hbdef
    have hjb : b + j < s.assignment_stack.values.length := by
      rw [List.length_drop] at hj
      omega
    have hlm := hL1 (b + j) hjb
    rw [getD_in _ hjb default] at hlm
    rw [haj] at hlm
    cases hnode : s.derivation_graph.getD a.get_var.id none with
    | none => rw [hnode] at hlm; exact absurd hlm (by simp)
    | some node =>
      rw [hnode] at hlm
      simp only [Option.map_some', Option.some.injEq] at hlm
      refine ⟨node, by rw [← hav]; exact hnode, ?_⟩
      rw [hlm]
      apply posLevel_gt hW3 hTb
      rw [← hb]
      omega
  · rintro ⟨node, hnode, hlev⟩
    have hvlt : v < s.assignments.length := by
      by_contra hge
      have : s.derivation_graph.getD v none = none := by
        apply getD_oob
        omega
      rw [this] at hnode
      exact absurd hnode (by simp)
    have hassigned : (s.assignments.getD v none).isSome :=
      (hA1 v hvlt).mpr (by rw [hnode]; rfl)
    have hstk := (hA2 v hvlt).mp hassigned
    obtain ⟨a, ha, hav⟩ := List.mem_map.mp hstk
    obtain ⟨p, hp, hap⟩ := List.getElem_of_mem ha
    have hlm := hL1 p hp
    rw [getD_in _ hp default, hap, hav, hnode] at hlm
    simp only [Option.map_some', Option.some.injEq] at hlm
    have hpos : s.assignment_stack.tops.getD T
        s.assignment_stack.values.length ≤ p := by
      rw [hb]
      by_contra hlt2
      have := posLevel_le (p := p) hW3 hTb (by omega)
      omega
    unfold droppedVars
    apply List.mem_map.mpr
    refine ⟨a, ?_, hav⟩
    have hp2 : p - (s.assignment_stack.tops.getD T
        s.assignment_stack.values.length) <
        (s.assignment_stack.values.drop
          (s.assignment_stack.tops.getD T
            s.assignment_stack.values.length)).length := by
      rw [List.length_drop]
      omega
    apply List.mem_iff_getElem.mpr
    refine ⟨p - (s.assignment_stack.tops.getD T
      s.assignment_stack.values.length), hp2, ?_⟩
    rw [List.getElem_drop]
    rw [← hap]
    congr 1
    omega

/-- C7: after the backjump loop of `sat()` runs with target level `T`
(with `T` below the current number of open levels) on a structurally sound
state, the number of open levels equals `T`; every variable whose
implication-graph entry is at a level `> T` has its assignment slot and
its graph entry cleared; and the assignment slot and graph entry of every
other variable (entry at level `≤ T`, or no entry) are unchanged. -/
theorem claim_C7_backjump_frame (s : State) (T : Nat)
    (hInv : CoreInv s) (hT : T < s.assignment_stack.len) :
    (backjump s T).assignment_stack.len = T ∧
    (∀ v node, s.derivation_graph.getD v none = some node →
      T < node.level →
      (backjump s T).assignments.getD v none = none ∧
      (backjump s T).derivation_graph.getD v none = none) ∧
    (∀ v node, s.derivation_graph.getD v none = some node →
      node.level ≤ T →
      (backjump s T).assignments.getD v none =
        s.assignments.getD v none ∧
      (backjump s T).derivation_graph.getD v none =
        s.derivation_graph.getD v none) ∧
    (∀ v, s.derivation_graph.getD v none = none →
      (backjump s T).assignments.getD v none =
        s.assignments.getD v none ∧
      (backjump s T).derivation_graph.getD v none =
        s.derivation_graph.getD v none) := by
  have hW3 : WfTops s := hInv.2.2.1
  obtain ⟨h1, h2, h3, h4, h5, h6, h7⟩ :=
    backjump_spec (s.assignment_stack.len - T) s T hW3 rfl
      (Nat.le_of_lt hT)
  refine ⟨?_, ?_, ?_, ?_⟩
  · show (backjump s T).assignment_stack.tops.length = T
    rw [h4, List.length_take]
    have : T ≤ s.assignment_stack.tops.length := Nat.le_of_lt hT
    omega
  · intro v node hnode hlev
    have hmem : v ∈ droppedVars s T :=
      (droppedVars_iff hInv hT v).mpr ⟨node, hnode, hlev⟩
    rw [h6 v, h7 v, if_pos hmem, if_pos hmem]
    exact ⟨rfl, rfl⟩
  · intro v node hnode hlev
    have hmem : v ∉ droppedVars s T := by
      intro hmem
      obtain ⟨node', hnode', hlev'⟩ := (droppedVars_iff hInv hT v).mp hmem
      rw [hnode] at hnode'
      rw [Option.some.inj hnode'] at hlev
      omega
    rw [h6 v, h7 v, if_neg hmem, if_neg hmem]
    exact ⟨rfl, rfl⟩
  · intro v hnone
    have hmem : v ∉ droppedVars s T := by
      intro hmem
      obtain ⟨node', hnode', -⟩ := (droppedVars_iff hInv hT v).mp hmem
      rw [hnone] at hnode'
      exact absurd hnode' (by simp)
    rw [h6 v, h7 v, if_neg hmem, if_neg hmem]
    exact ⟨rfl, rfl⟩

/-- Witness for C7 at a concrete state: one variable guessed at level 1,
backjump to level 0. -/
theorem claim_C7_witness :
    CoreInv
      { clauses := []
        assignment_stack :=
          { values := [{ var := { id := 0 }, polarity := true }],
            tops := [0] }
        assignments := [some true]
        derivation_graph := [some (.Guess 1)] } ∧
    (0 : Nat) <
      (({ clauses := []
          assignment_stack :=
            { values := [{ var := { id := 0 }, polarity := true }],
              tops := [0] }
          assignments := [some true]
          derivation_graph := [some (.Guess 1)] } :
        State)).assignment_stack.len ∧
    (backjump
      { clauses := []
        assignment_stack :=
          { values := [{ var := { id := 0 }, polarity := true }],
            tops := [0] }
        assignments := [some true]
        derivation_graph := [some (.Guess 1)] } 0).assignment_stack.len
      = 0 :=
  ⟨by decide, by decide,
   (claim_C7_backjump_frame
     { clauses := []
       assignment_stack :=
         { values := [{ var := { id := 0 }, polarity := true }],
           tops := [0] }
       assignments := [some true]
       derivation_graph := [some (.Guess 1)] } 0 (by decide) (by decide)).1⟩

/-! ## Characterization of `Clause::unit_prop_clause` -/

/-- Full characterization of the first scan: the result is determined by
whether some literal is true and by the list of unset occurrences. -/
theorem findUnitScan_eq (assignments : Assignments) (body : List Atom)
    (acc : Option Atom) :
    findUnitScan assignments body acc =
      if ∃ a ∈ body, litTrue assignments a then none
      else
        match acc, body.filter (unsetB assignments) with
        | some x, [] => some (some x)
        | some _, _ :: _ => none
        | none, [] => some none
        | none, [u] => some (some u)
        | none, _ :: _ :: _ => none := by
  induction body generalizing acc with
  | nil =>
    cases acc <;> simp [findUnitScan]
  | cons a rest ih =>
    simp only [findUnitScan]
    cases hval : assignments.getD a.get_var.id none with
    | some assignment =>
      by_cases hpol : a.polarity = assignment
      · have htrue : litTrue assignments a := by
          rw [litTrue, hval, hpol]
        rw [if_pos ⟨a, List.mem_cons_self a rest, htrue⟩]
        simp [hpol]
      · have hnottrue : ¬ litTrue assignments a := by
          rw [litTrue, hval]
          simp
          intro h
          exact hpol h.symm
        have hnotunset : unsetB assignments a = false := by
          rw [unsetB, hval]; rfl
        simp only [hpol, if_false]
        rw [ih acc]
        have hex : (∃ x ∈ a :: rest, litTrue assignments x) ↔
            (∃ x ∈ rest, litTrue assignments x) := by
          constructor
          · rintro ⟨x, hx, ht⟩
            rcases List.mem_cons.mp hx with rfl | hx'
            · exact absurd ht hnottrue
            · exact ⟨x, hx', ht⟩
          · rintro ⟨x, hx, ht⟩
            exact ⟨x, List.mem_cons_of_mem a hx, ht⟩
        rw [List.filter_cons_of_neg (by simp [hnotunset])]
        by_cases he : ∃ x ∈ rest, litTrue assignments x
        · rw [if_pos he, if_pos (hex.mpr he)]
        · rw [if_neg he, if_neg (fun h => he (hex.mp h))]
    | none =>
      have hnottrue : ¬ litTrue assignments a := by
        rw [litTrue, hval]; simp
      have hunset : unsetB assignments a = true := by
        rw [unsetB, hval]; rfl
      have hex : (∃ x ∈ a :: rest, litTrue assignments x) ↔
          (∃ x ∈ rest, litTrue assignments x) := by
        constructor
        · rintro ⟨x, hx, ht⟩
          rcases List.mem_cons.mp hx with rfl | hx'
          · exact absurd ht hnottrue
          · exact ⟨x, hx', ht⟩
        · rintro ⟨x, hx, ht⟩
          exact ⟨x, List.mem_cons_of_mem a hx, ht⟩
      rw [List.filter_cons_of_pos (by simp [hunset])]
      cases acc with
      | some x =>
        simp only []
        by_cases he : ∃ x ∈ rest, litTrue assignments x
        · rw [if_pos (hex.mpr he)]
        · rw [if_neg (fun h => he (hex.mp h))]
      | none =>
        simp only []
        rw [ih (some a)]
        by_cases he : ∃ x ∈ rest, litTrue assignments x
        · rw [if_pos he, if_pos (hex.mpr he)]
        · rw [if_neg he, if_neg (fun h => he (hex.mp h))]
          cases hf : rest.filter (unsetB assignments) <;> rfl

/-- `unit_prop_clause`, characterized. -/
theorem unit_prop_clause_eq (c : Clause) (assignments : Assignments) :
    c.unit_prop_clause assignments =
      if ∃ a ∈ c.body, litTrue assignments a then .None
      else
        match c.body.filter (unsetB assignments) with
        | [] => .Conflict
        | [u] => .UnitProp (atomDeps assignments c.body) u
        | _ :: _ :: _ => .None := by
  rw [Clause.unit_prop_clause, findUnitScan_eq]
  by_cases he : ∃ a ∈ c.body, litTrue assignments a
  · rw [if_pos he, if_pos he]
  · rw [if_neg he, if_neg he]
    cases hf : c.body.filter (unsetB assignments) with
    | nil => rfl
    | cons u rest => cases rest <;> rfl

/-- `atomDeps` is the negation map over the falsified occurrences. -/
theorem atomDeps_eq (assignments : Assignments) (body : List Atom) :
    atomDeps assignments body =
      (body.filter fun a => decide (litFalse assignments a)).map
        Atom.negated := by
  induction body with
  | nil => rfl
  | cons a rest ih =>
    rw [atomDeps, List.filterMap_cons]
    cases hval : assignments.getD a.get_var.id none with
    | some assignment =>
      by_cases hpol : a.polarity = assignment
      · have : ¬ litFalse assignments a := by
          rw [litFalse, hval, ← hpol]
          simp
        rw [List.filter_cons_of_neg (by simpa using this)]
        simpa [hval, hpol, atomDeps] using ih
      · have : litFalse assignments a := by
          rw [litFalse, hval]
          cases hb : a.polarity <;> cases hc : assignment <;>
            simp_all
        rw [List.filter_cons_of_pos (by simpa using this)]
        simp only [hval, hpol, List.map_cons]
        rw [if_pos (by exact hpol)]
        simpa [atomDeps] using congrArg (List.cons a.negated) ih
    | none =>
      have : ¬ litFalse assignments a := by
        rw [litFalse, hval]; simp
      rw [List.filter_cons_of_neg (by simpa using this)]
      simpa [hval, atomDeps] using ih

/-- A literal is true, false or unset. -/
theorem lit_trichotomy (assignments : Assignments) (a : Atom) :
    litTrue assignments a ∨ litFalse assignments a ∨
      litUnset assignments a := by
  unfold litTrue litFalse litUnset
  cases h : assignments.getD a.get_var.id none with
  | none => right; right; rfl
  | some b =>
    cases hp : a.polarity <;> cases b <;> simp

theorem litTrue_not_litFalse {assignments : Assignments} {a : Atom}
    (h : litTrue assignments a) : ¬ litFalse assignments a := by
  unfold litTrue at h
  unfold litFalse
  rw [h]
  simp

theorem litFalse_not_litUnset {assignments : Assignments} {a : Atom}
    (h : litFalse assignments a) : ¬ litUnset assignments a := by
  unfold litFalse at h
  unfold litUnset
  rw [h]
  simp

theorem litTrue_not_litUnset {assignments : Assignments} {a : Atom}
    (h : litTrue assignments a) : ¬ litUnset assignments a := by
  unfold litTrue at h
  unfold litUnset
  rw [h]
  simp

theorem unsetB_iff {assignments : Assignments} {a : Atom} :
    unsetB assignments a = true ↔ litUnset assignments a := by
  unfold unsetB litUnset
  exact Option.isNone_iff_eq_none

theorem not_unset_not_true_false {assignments : Assignments} {a : Atom}
    (hu : ¬ litUnset assignments a) (ht : ¬ litTrue assignments a) :
    litFalse assignments a := by
  rcases lit_trichotomy assignments a with h | h | h
  · exact absurd h ht
  · exact h
  · exact absurd h hu

/-- Negating a literal swaps "false" and "true". -/
theorem litTrue_negated_iff {assignments : Assignments} {a : Atom} :
    litTrue assignments a.negated ↔ litFalse assignments a := Iff.rfl

/-- `unit_prop_clause` returns `Conflict` exactly when every literal
occurrence is falsified. -/
theorem upc_conflict_iff (c : Clause) (assignments : Assignments) :
    c.unit_prop_clause assignments = .Conflict ↔
      ∀ a ∈ c.body, litFalse assignments a := by
  rw [unit_prop_clause_eq]
  by_cases he : ∃ a ∈ c.body, litTrue assignments a
  · rw [if_pos he]
    constructor
    · intro h; exact absurd h (by simp)
    · intro hall
      obtain ⟨a, ha, ht⟩ := he
      exact absurd (hall a ha) (litTrue_not_litFalse ht)
  · rw [if_neg he]
    cases hf : c.body.filter (unsetB assignments) with
    | nil =>
      simp only [true_iff]
      intro a ha
      have hnu : ¬ litUnset assignments a := by
        intro hu
        have hmem : a ∈ c.body.filter (unsetB assignments) :=
          List.mem_filter.mpr ⟨ha, unsetB_iff.mpr hu⟩
        rw [hf] at hmem
        exact absurd hmem (List.not_mem_nil a)
      exact not_unset_not_true_false hnu (fun ht => he ⟨a, ha, ht⟩)
    | cons u rest =>
      have humem : u ∈ c.body.filter (unsetB assignments) := by
        rw [hf]; exact List.mem_cons_self u rest
      have hub := List.mem_filter.mp humem
      have hcontra : ¬ ∀ a ∈ c.body, litFalse assignments a := by
        intro hall
        exact absurd (unsetB_iff.mp hub.2)
          (litFalse_not_litUnset (hall u hub.1))
      cases rest with
      | nil =>
        constructor
        · intro h; exact absurd h (by simp)
        · intro h; exact absurd h hcontra
      | cons v rest' =>
        constructor
        · intro h; exact absurd h (by simp)
        · intro h; exact absurd h hcontra

/-- `unit_prop_clause` returns `UnitProp` exactly when exactly one literal
occurrence is unset and all others are falsified; the output is that unset
occurrence and the inputs are the negations of the falsified occurrences. -/
theorem upc_unitProp_iff (c : Clause) (assignments : Assignments)
    (inputs : List Atom) (output : Atom) :
    c.unit_prop_clause assignments = .UnitProp inputs output ↔
      (output ∈ c.body ∧ litUnset assignments output ∧
       c.body.filter (unsetB assignments) = [output] ∧
       (∀ a ∈ c.body, litUnset assignments a ∨ litFalse assignments a) ∧
       inputs = (c.body.filter fun a =>
         decide (litFalse assignments a)).map Atom.negated) := by
  rw [unit_prop_clause_eq]
  by_cases he : ∃ a ∈ c.body, litTrue assignments a
  · rw [if_pos he]
    constructor
    · intro h; exact absurd h (by simp)
    · rintro ⟨-, -, -, hall, -⟩
      obtain ⟨a, ha, ht⟩ := he
      rcases hall a ha with h | h
      · exact absurd h (litTrue_not_litUnset ht)
      · exact absurd h (litTrue_not_litFalse ht)
  · rw [if_neg he]
    cases hf : c.body.filter (unsetB assignments) with
    | nil =>
      constructor
      · intro h; exact absurd h (by simp)
      · rintro ⟨hmem, hu, hfil, -, -⟩
        exact absurd hfil (by simp)
    | cons u rest =>
      cases rest with
      | nil =>
        have humem : u ∈ c.body.filter (unsetB assignments) := by
          rw [hf]; exact List.mem_cons_self u []
        have hub := List.mem_filter.mp humem
        constructor
        · intro h
          simp only [SingleUnitPropResult.UnitProp.injEq] at h
          obtain ⟨hi, ho⟩ := h
          refine ⟨ho ▸ hub.1, ho ▸ unsetB_iff.mp hub.2, by rw [ho], ?_, ?_⟩
          · intro a ha
            by_cases hu : litUnset assignments a
            · exact Or.inl hu
            · exact Or.inr
                (not_unset_not_true_false hu (fun ht => he ⟨a, ha, ht⟩))
          · rw [← hi, atomDeps_eq]
        · rintro ⟨hmem, hu, hfil, -, hi⟩
          have ho : u = output := by
            simpa using hfil
          rw [ho, hi, atomDeps_eq]
      | cons v rest' =>
        have humem : u ∈ c.body.filter (unsetB assignments) := by
          rw [hf]; exact List.mem_cons_self u (v :: rest')
        have hvmem : v ∈ c.body.filter (unsetB assignments) := by
          rw [hf]
          exact List.mem_cons_of_mem u (List.mem_cons_self v rest')
        constructor
        · intro h; exact absurd h (by simp)
        · rintro ⟨hmem, hu, hfil, -, -⟩
          exact absurd hfil (by simp)

/-- `unit_prop_clause` returns `None` in every other case. -/
theorem upc_none_iff (c : Clause) (assignments : Assignments) :
    c.unit_prop_clause assignments = .None ↔
      (¬ ∀ a ∈ c.body, litFalse assignments a) ∧
      ¬ ((∀ a ∈ c.body, litUnset assignments a ∨ litFalse assignments a) ∧
         (c.body.filter (unsetB assignments)).length = 1) := by
  constructor
  · intro h
    constructor
    · intro hall
      rw [(upc_conflict_iff c assignments).mpr hall] at h
      exact absurd h (by simp)
    · rintro ⟨hall, hlen⟩
      cases hfil : c.body.filter (unsetB assignments) with
      | nil => rw [hfil] at hlen; exact absurd hlen (by simp)
      | cons u rest =>
        cases rest with
        | nil =>
          have hub := List.mem_filter.mp
            (by rw [hfil]; exact List.mem_cons_self u [] :
              u ∈ c.body.filter (unsetB assignments))
          have : c.unit_prop_clause assignments =
              .UnitProp ((c.body.filter fun a =>
                decide (litFalse assignments a)).map Atom.negated) u :=
            (upc_unitProp_iff c assignments _ u).mpr
              ⟨hub.1, unsetB_iff.mp hub.2, hfil, hall, rfl⟩
          rw [this] at h
          exact absurd h (by simp)
        | cons v rest' =>
          rw [hfil] at hlen
          simp at hlen
  · rintro ⟨hnc, hnu⟩
    cases hres : c.unit_prop_clause assignments with
    | Conflict => exact absurd ((upc_conflict_iff c assignments).mp hres) hnc
    | None => rfl
    | UnitProp inputs output =>
      obtain ⟨hmem, hu, hfil, hall, hi⟩ :=
        (upc_unitProp_iff c assignments inputs output).mp hres
      exact absurd ⟨hall, by rw [hfil]; rfl⟩ hnu

/-- C6: For every clause and every assignment map covering its variables,
`unit_prop_clause` returns `Conflict` exactly when all literal occurrences
of the clause are assigned false; it returns `UnitProp` exactly when
exactly one literal occurrence is unset and all the others are false, with
the forced output being that unset literal and the inputs being the
complements of the falsified clause literals; in every other case it
returns `None`; and every clause yields exactly one outcome (the function
is total). -/
theorem claim_C6_unit_prop_clause_characterization
    (c : Clause) (assignments : Assignments)
    (hcov : ∀ a ∈ c.body, a.get_var.id < assignments.length) :
    (c.unit_prop_clause assignments = .Conflict ↔
      ∀ a ∈ c.body, litFalse assignments a) ∧
    (∀ inputs output,
      c.unit_prop_clause assignments = .UnitProp inputs output ↔
        (output ∈ c.body ∧ litUnset assignments output ∧
         c.body.filter (unsetB assignments) = [output] ∧
         (∀ a ∈ c.body, litUnset assignments a ∨ litFalse assignments a) ∧
         inputs = (c.body.filter fun a =>
           decide (litFalse assignments a)).map Atom.negated)) ∧
    (c.unit_prop_clause assignments = .None ↔
      (¬ ∀ a ∈ c.body, litFalse assignments a) ∧
      ¬ ((∀ a ∈ c.body, litUnset assignments a ∨ litFalse assignments a) ∧
         (c.body.filter (unsetB assignments)).length = 1)) :=
  ⟨upc_conflict_iff c assignments,
   fun inputs output => upc_unitProp_iff c assignments inputs output,
   upc_none_iff c assignments⟩

/-- Witness for C6 at a concrete input: the clause `x0 ∨ x1` under the
assignment `x0 ↦ false, x1 unset` is unit. -/
theorem claim_C6_witness :
    (∀ a ∈ (Clause.new [VarRef.as_atom { id := 0 } true,
        VarRef.as_atom { id := 1 } true]).body,
      a.get_var.id < ([some false, none] : Assignments).length) ∧
    ((Clause.new [VarRef.as_atom { id := 0 } true,
        VarRef.as_atom { id := 1 } true]).unit_prop_clause
        ([some false, none] : Assignments) = .Conflict ↔
      ∀ a ∈ (Clause.new [VarRef.as_atom { id := 0 } true,
          VarRef.as_atom { id := 1 } true]).body,
        litFalse ([some false, none] : Assignments) a) :=
  ⟨by decide,
   (claim_C6_unit_prop_clause_characterization
     (Clause.new [VarRef.as_atom { id := 0 } true,
       VarRef.as_atom { id := 1 } true])
     ([some false, none] : Assignments) (by decide)).1⟩

/-! ## The parser (claim C10) -/

/-- Every token yields exactly one literal: no token is rejected. -/
theorem parseLine_length (mgr : VarManager) (line : List Token) :
    (parseLine mgr line).1.length = line.length := by
  induction line generalizing mgr with
  | nil => rfl
  | cons tok rest ih =>
    simp only [parseLine, List.length_cons]
    rw [ih]

/-- C10: in the parser loop of `run_cnf`, the `!` negation marker is
stripped at most once and only when it is the first character of a token;
a bare `!` is accepted as a negated literal of the empty-string variable;
`!!a` is accepted as a negated literal of a variable named `!a`, interned
as a distinct variable from `a` (ids 0 and 1 below); and no token is ever
rejected (every token of a line yields exactly one literal). -/
theorem claim_C10_parser_negation :
    (∀ tok : Token, tok.head? = some '!' →
      parseToken tok = (tok.drop 1, false)) ∧
    (∀ tok : Token, tok.head? ≠ some '!' →
      parseToken tok = (tok, true)) ∧
    parseToken ['!'] = ([], false) ∧
    runCnfParse [[['!']]] =
      ([Clause.new [{ var := { id := 0 }, polarity := false }]],
       [([], { id := 0 })]) ∧
    runCnfParse [[['!', '!', 'a'], ['a']]] =
      ([Clause.new [{ var := { id := 0 }, polarity := false },
                    { var := { id := 1 }, polarity := true }]],
       [(['!', 'a'], { id := 0 }), (['a'], { id := 1 })]) ∧
    (∀ (mgr : VarManager) (line : List Token),
      (parseLine mgr line).1.length = line.length) := by
  refine ⟨?_, ?_, ?_, ?_, ?_, parseLine_length⟩
  · intro tok h
    rw [parseToken, if_pos h]
  · intro tok h
    rw [parseToken, if_neg h]
  · rfl
  · rfl
  · rfl

/-- Witness for C10: the theorem applied to the token `!!a`, whose leading
character is `!`. -/
theorem claim_C10_witness :
    (['!', '!', 'a'] : Token).head? = some '!' ∧
      parseToken ['!', '!', 'a'] = (['!', 'a'], false) :=
  ⟨by decide, claim_C10_parser_negation.1 ['!', '!', 'a'] (by decide)⟩

/-! ## Frame lemmas for the scan, backjump and guessing -/

theorem backjump_clauses (s : State) (T : Nat) :
    (backjump s T).clauses = s.clauses := by
  rw [backjump]
  by_cases h : T < s.assignment_stack.len
  · rw [dif_pos h]
    split
    · rfl
    · rw [backjump_clauses, clearAtoms_clauses]
  · rw [dif_neg h]
  termination_by s.assignment_stack.len
  decreasing_by
    simp_wf
    rename_i heq
    exact pop_stack_len_lt heq

theorem backjump_assignments_length (s : State) (T : Nat) :
    (backjump s T).assignments.length = s.assignments.length := by
  rw [backjump]
  by_cases h : T < s.assignment_stack.len
  · rw [dif_pos h]
    split
    · rfl
    · rw [backjump_assignments_length, clearAtoms_assignments_length]
  · rw [dif_neg h]
  termination_by s.assignment_stack.len
  decreasing_by
    simp_wf
    rename_i heq
    exact pop_stack_len_lt heq

theorem backjump_graph_length (s : State) (T : Nat) :
    (backjump s T).derivation_graph.length =
      s.derivation_graph.length := by
  rw [backjump]
  by_cases h : T < s.assignment_stack.len
  · rw [dif_pos h]
    split
    · rfl
    · rw [backjump_graph_length, clearAtoms_graph_length]
  · rw [dif_neg h]
  termination_by s.assignment_stack.len
  decreasing_by
    simp_wf
    rename_i heq
    exact pop_stack_len_lt heq

theorem scanPass_clauses (s : State) (d : Bool) (cs : List Clause) :
    (∀ s' d', scanPass s d cs = .Completed s' d' →
      s'.clauses = s.clauses ∧
      s'.assignments.length = s.assignments.length ∧
      s'.derivation_graph.length = s.derivation_graph.length) ∧
    (∀ inputs s', scanPass s d cs = .Conflict inputs s' →
      s'.clauses = s.clauses ∧
      s'.assignments.length = s.assignments.length ∧
      s'.derivation_graph.length = s.derivation_graph.length) := by
  induction cs generalizing s d with
  | nil =>
    constructor
    · intro s' d' h
      rw [scanPass] at h
      cases h
      exact ⟨rfl, rfl, rfl⟩
    · intro inputs s' h
      rw [scanPass] at h
      exact absurd h (by simp)
  | cons c rest ih =>
    constructor
    · intro s' d' h
      rw [scanPass] at h
      cases hc : c.unit_prop_clause s.assignments with
      | Conflict => rw [hc] at h; exact absurd h (by simp)
      | None =>
        rw [hc] at h
        exact (ih s d).1 s' d' h
      | UnitProp inputs output =>
        rw [hc] at h
        obtain ⟨h1, h2, h3⟩ :=
          (ih (installUnit s inputs output) true).1 s' d' h
        refine ⟨h1, ?_, ?_⟩
        · rw [h2]
          show (s.assignments.set output.get_var.id
            (some output.polarity)).length = _
          rw [List.length_set]
        · rw [h3]
          show (s.derivation_graph.set output.get_var.id _).length = _
          rw [List.length_set]
    · intro inputs s' h
      rw [scanPass] at h
      cases hc : c.unit_prop_clause s.assignments with
      | Conflict =>
        rw [hc] at h
        cases h
        exact ⟨rfl, rfl, rfl⟩
      | None =>
        rw [hc] at h
        exact (ih s d).2 inputs s' h
      | UnitProp inputs' output =>
        rw [hc] at h
        obtain ⟨h1, h2, h3⟩ :=
          (ih (installUnit s inputs' output) true).2 inputs s' h
        refine ⟨h1, ?_, ?_⟩
        · rw [h2]
          show (s.assignments.set output.get_var.id
            (some output.polarity)).length = _
          rw [List.length_set]
        · rw [h3]
          show (s.derivation_graph.set output.get_var.id _).length = _
          rw [List.length_set]

/-- A pass that reports no progress did nothing, and every clause of it
returned `None`. -/
theorem scanPass_false_fixpoint (s : State) (d : Bool) (cs : List Clause)
    (s' : State) (h : scanPass s d cs = .Completed s' false) :
    s' = s ∧ d = false ∧
      ∀ c ∈ cs, c.unit_prop_clause s.assignments = .None := by
  induction cs generalizing s d with
  | nil =>
    rw [scanPass] at h
    cases h
    exact ⟨rfl, rfl, fun c hc => absurd hc (List.not_mem_nil c)⟩
  | cons c rest ih =>
    rw [scanPass] at h
    cases hc : c.unit_prop_clause s.assignments with
    | Conflict => rw [hc] at h; exact absurd h (by simp)
    | None =>
      rw [hc] at h
      obtain ⟨h1, h2, h3⟩ := ih s d h
      refine ⟨h1, h2, ?_⟩
      intro c' hc'
      rcases List.mem_cons.mp hc' with rfl | hm
      · exact hc
      · exact h3 c' hm
    | UnitProp inputs output =>
      rw [hc] at h
      obtain ⟨-, h2, -⟩ := ih (installUnit s inputs output) true h
      exact absurd h2 (by simp)

/-- A finished scan reaches a fixpoint: the clause list is unchanged and
every clause reports `None` under the final assignment. -/
theorem scanLoop_done (f : Nat) (s s' : State)
    (h : scanLoop f s = some (.Done s')) :
    s'.clauses = s.clauses ∧
      s'.assignments.length = s.assignments.length ∧
      s'.derivation_graph.length = s.derivation_graph.length ∧
      ∀ c ∈ s'.clauses, c.unit_prop_clause s'.assignments = .None := by
  induction f generalizing s with
  | zero => rw [scanLoop] at h; exact absurd h (by simp)
  | succ f ih =>
    rw [scanLoop] at h
    cases hp : scanPass s false s.clauses with
    | Conflict inputs s₁ => rw [hp] at h; exact absurd h (by simp)
    | Completed s₁ d =>
      rw [hp] at h
      cases d with
      | true =>
        obtain ⟨h1, h2, h3, h4⟩ := ih s₁ h
        obtain ⟨g1, g2, g3⟩ := (scanPass_clauses s false s.clauses).1 s₁
          true hp
        exact ⟨by rw [h1, g1], by rw [h2, g2], by rw [h3, g3], h4⟩
      | false =>
        simp only [Option.some.injEq, FullUnitPropResult.Done.injEq] at h
        obtain ⟨hs, -, hfix⟩ := scanPass_false_fixpoint s false s.clauses
          s₁ hp
        rw [← h, hs]
        exact ⟨rfl, rfl, rfl, hfix⟩

/-- A conflicting scan leaves the clause list and array sizes unchanged. -/
theorem scanLoop_conflict_frame (f : Nat) (s s' : State)
    (inputs : List Atom) (h : scanLoop f s = some (.Conflict inputs s')) :
    s'.clauses = s.clauses ∧
      s'.assignments.length = s.assignments.length ∧
      s'.derivation_graph.length = s.derivation_graph.length := by
  induction f generalizing s with
  | zero => rw [scanLoop] at h; exact absurd h (by simp)
  | succ f ih =>
    rw [scanLoop] at h
    cases hp : scanPass s false s.clauses with
    | Conflict inputs' s₁ =>
      rw [hp] at h
      simp only [Option.some.injEq, FullUnitPropResult.Conflict.injEq] at h
      obtain ⟨-, hs⟩ := h
      rw [← hs]
      exact (scanPass_clauses s false s.clauses).2 inputs' s₁ hp
    | Completed s₁ d =>
      rw [hp] at h
      cases d with
      | true =>
        obtain ⟨h1, h2, h3⟩ := ih s₁ h
        obtain ⟨g1, g2, g3⟩ := (scanPass_clauses s false s.clauses).1 s₁
          true hp
        exact ⟨by rw [h1, g1], by rw [h2, g2], by rw [h3, g3]⟩
      | false => exact absurd h (by simp)

/-! Equation lemmas for `satStep`, one per execution path. -/

theorem satStep_eq_scan_stuck {s : State}
    (h : s.unit_prop_scan = none) : satStep s = .stuck := by
  unfold satStep
  rw [h]

theorem satStep_eq_conflict_zero {s : State} {inputs : List Atom}
    {s₁ : State} (h : s.unit_prop_scan = some (.Conflict inputs s₁))
    (hz : s₁.assignment_stack.len = 0) :
    satStep s = .done false s₁ := by
  unfold satStep
  rw [h]
  exact if_pos hz

theorem satStep_eq_conflict_stuck {s : State} {inputs : List Atom}
    {s₁ : State} (h : s.unit_prop_scan = some (.Conflict inputs s₁))
    (hz : s₁.assignment_stack.len ≠ 0)
    (ha : s₁.analyse_conflict inputs = none) :
    satStep s = .stuck := by
  unfold satStep
  rw [h]
  show (if s₁.assignment_stack.len = 0 then StepResult.done false s₁
    else
      match s₁.analyse_conflict inputs with
      | none => StepResult.stuck
      | some (conflict_clause, reset_level) =>
        StepResult.next (backjump
          { s₁ with clauses := s₁.clauses ++ [conflict_clause] }
          reset_level)) = StepResult.stuck
  rw [if_neg hz, ha]

theorem satStep_eq_conflict_next {s : State} {inputs : List Atom}
    {s₁ : State} {conflict_clause : Clause} {reset_level : Nat}
    (h : s.unit_prop_scan = some (.Conflict inputs s₁))
    (hz : s₁.assignment_stack.len ≠ 0)
    (ha : s₁.analyse_conflict inputs =
      some (conflict_clause, reset_level)) :
    satStep s = .next (backjump
      { s₁ with clauses := s₁.clauses ++ [conflict_clause] }
      reset_level) := by
  unfold satStep
  rw [h]
  show (if s₁.assignment_stack.len = 0 then StepResult.done false s₁
    else
      match s₁.analyse_conflict inputs with
      | none => StepResult.stuck
      | some (conflict_clause, reset_level) =>
        StepResult.next (backjump
          { s₁ with clauses := s₁.clauses ++ [conflict_clause] }
          reset_level)) = _
  rw [if_neg hz, ha]

theorem satStep_eq_done_guess {s : State} {s₁ : State} {g : Atom}
    (h : s.unit_prop_scan = some (.Done s₁)) (hg : s₁.guess = some g) :
    satStep s = .next (s₁.make_guess g) := by
  unfold satStep
  rw [h]
  show (match s₁.guess with
    | some g => StepResult.next (s₁.make_guess g)
    | none => StepResult.done true s₁) = _
  rw [hg]

theorem satStep_eq_done_sat {s : State} {s₁ : State}
    (h : s.unit_prop_scan = some (.Done s₁)) (hg : s₁.guess = none) :
    satStep s = .done true s₁ := by
  unfold satStep
  rw [h]
  show (match s₁.guess with
    | some g => StepResult.next (s₁.make_guess g)
    | none => StepResult.done true s₁) = _
  rw [hg]

/-- One `sat` loop iteration only appends clauses and keeps array sizes. -/
theorem satStep_frame (s s' : State) (h : satStep s = .next s') :
    (∃ r, s'.clauses = s.clauses ++ r) ∧
      s'.assignments.length = s.assignments.length ∧
      s'.derivation_graph.length = s.derivation_graph.length := by
  cases hscan : s.unit_prop_scan with
  | none => rw [satStep_eq_scan_stuck hscan] at h; exact absurd h (by simp)
  | some res =>
    cases res with
    | Conflict inputs s₁ =>
      by_cases hz : s₁.assignment_stack.len = 0
      · rw [satStep_eq_conflict_zero hscan hz] at h
        exact absurd h (by simp)
      · cases hac : s₁.analyse_conflict inputs with
        | none =>
          rw [satStep_eq_conflict_stuck hscan hz hac] at h
          exact absurd h (by simp)
        | some res2 =>
          obtain ⟨conflict_clause, reset_level⟩ := res2
          rw [satStep_eq_conflict_next hscan hz hac] at h
          simp only [StepResult.next.injEq] at h
          obtain ⟨g1, g2, g3⟩ := scanLoop_conflict_frame _ s s₁ inputs
            hscan
          rw [← h]
          refine ⟨⟨[conflict_clause], ?_⟩, ?_, ?_⟩
          · rw [backjump_clauses]
            show s₁.clauses ++ [conflict_clause] = _
            rw [g1]
          · rw [backjump_assignments_length]
            exact g2
          · rw [backjump_graph_length]
            exact g3
    | Done s₁ =>
      cases hg : s₁.guess with
      | some g =>
        rw [satStep_eq_done_guess hscan hg] at h
        simp only [StepResult.next.injEq] at h
        obtain ⟨g1, g2, g3, -⟩ := scanLoop_done _ s s₁ hscan
        rw [← h]
        refine ⟨⟨[], ?_⟩, ?_, ?_⟩
        · show s₁.clauses = s.clauses ++ []
          rw [g1, List.append_nil]
        · show (s₁.assignments.set g.get_var.id
            (some g.polarity)).length = _
          rw [List.length_set]
          exact g2
        · show (s₁.derivation_graph.set g.get_var.id _).length = _
          rw [List.length_set]
          exact g3
      | none =>
        rw [satStep_eq_done_sat hscan hg] at h
        exact absurd h (by simp)

/-- A verdict step leaves the clause list and the assignment-array size
unchanged. -/
theorem satStep_done_frame (s : State) (b : Bool) (s₁ : State)
    (h : satStep s = .done b s₁) :
    s₁.clauses = s.clauses ∧
      s₁.assignments.length = s.assignments.length := by
  cases hscan : s.unit_prop_scan with
  | none => rw [satStep_eq_scan_stuck hscan] at h; exact absurd h (by simp)
  | some res =>
    cases res with
    | Conflict inputs s₂ =>
      by_cases hz : s₂.assignment_stack.len = 0
      · rw [satStep_eq_conflict_zero hscan hz] at h
        simp only [StepResult.done.injEq] at h
        obtain ⟨g1, g2, -⟩ := scanLoop_conflict_frame _ s s₂ inputs hscan
        rw [← h.2]
        exact ⟨g1, g2⟩
      · cases hac : s₂.analyse_conflict inputs with
        | none =>
          rw [satStep_eq_conflict_stuck hscan hz hac] at h
          exact absurd h (by simp)
        | some res2 =>
          obtain ⟨cc, rl⟩ := res2
          rw [satStep_eq_conflict_next hscan hz hac] at h
          exact absurd h (by simp)
    | Done s₂ =>
      cases hg : s₂.guess with
      | some g =>
        rw [satStep_eq_done_guess hscan hg] at h
        exact absurd h (by simp)
      | none =>
        rw [satStep_eq_done_sat hscan hg] at h
        simp only [StepResult.done.injEq] at h
        obtain ⟨g1, g2, -, -⟩ := scanLoop_done _ s s₂ hscan
        rw [← h.2]
        exact ⟨g1, g2⟩

/-- Along any completed run, clauses are only appended and array sizes are
kept. -/
theorem satFuel_frame (fuel : Nat) :
    ∀ (s : State) (b : Bool) (s' : State),
      satFuel fuel s = some (b, s') →
      (∃ r, s'.clauses = s.clauses ++ r) ∧
        s'.assignments.length = s.assignments.length := by
  induction fuel with
  | zero => intro s b s' h; rw [satFuel] at h; exact absurd h (by simp)
  | succ fuel ih =>
    intro s b s' h
    rw [satFuel] at h
    cases hstep : satStep s with
    | next s₁ =>
      rw [hstep] at h
      obtain ⟨⟨r1, hr1⟩, hl1⟩ := ih s₁ b s' h
      obtain ⟨⟨r0, hr0⟩, hl0, -⟩ := satStep_frame s s₁ hstep
      refine ⟨⟨r0 ++ r1, ?_⟩, by rw [hl1, hl0]⟩
      rw [hr1, hr0, List.append_assoc]
    | done b' s₁ =>
      rw [hstep] at h
      simp only [Option.some.injEq, Prod.mk.injEq] at h
      obtain ⟨-, hs⟩ := h
      rw [← hs]
      obtain ⟨h1, h2⟩ := satStep_done_frame s b' s₁ hstep
      exact ⟨⟨[], by rw [h1, List.append_nil]⟩, h2⟩
    | stuck => rw [hstep] at h; exact absurd h (by simp)

/-- A SAT verdict comes from a quiescent, fully-guessed final state. -/
theorem satFuel_true_final (fuel : Nat) :
    ∀ (s s' : State), satFuel fuel s = some (true, s') →
      (∀ c ∈ s'.clauses, c.unit_prop_clause s'.assignments = .None) ∧
        s'.guess = none := by
  induction fuel with
  | zero => intro s s' h; rw [satFuel] at h; exact absurd h (by simp)
  | succ fuel ih =>
    intro s s' h
    rw [satFuel] at h
    cases hstep : satStep s with
    | next s₁ =>
      rw [hstep] at h
      exact ih s₁ s' h
    | done b' s₁ =>
      rw [hstep] at h
      simp only [Option.some.injEq, Prod.mk.injEq] at h
      obtain ⟨hb, hs⟩ := h
      cases hscan : s.unit_prop_scan with
      | none =>
        rw [satStep_eq_scan_stuck hscan] at hstep
        exact absurd hstep (by simp)
      | some res =>
        cases res with
        | Conflict inputs s₂ =>
          by_cases hz : s₂.assignment_stack.len = 0
          · rw [satStep_eq_conflict_zero hscan hz] at hstep
            simp only [StepResult.done.injEq] at hstep
            rw [← hstep.1] at hb
            exact absurd hb (by simp)
          · cases hac : s₂.analyse_conflict inputs with
            | none =>
              rw [satStep_eq_conflict_stuck hscan hz hac] at hstep
              exact absurd hstep (by simp)
            | some res2 =>
              obtain ⟨cc, rl⟩ := res2
              rw [satStep_eq_conflict_next hscan hz hac] at hstep
              exact absurd hstep (by simp)
        | Done s₂ =>
          cases hg : s₂.guess with
          | some g =>
            rw [satStep_eq_done_guess hscan hg] at hstep
            exact absurd hstep (by simp)
          | none =>
            rw [satStep_eq_done_sat hscan hg] at hstep
            simp only [StepResult.done.injEq] at hstep
            obtain ⟨-, hs2⟩ := hstep
            obtain ⟨-, -, -, hfix⟩ := scanLoop_done _ s s₂ hscan
            rw [← hs, ← hs2]
            exact ⟨hfix, hg⟩
    | stuck =>
      rw [hstep] at h
      exact absurd h (by simp)

/-- `guess` finds nothing exactly when no slot is unset. -/
theorem guessScan_none (l : List (Option Bool)) (i : Nat)
    (h : guessScan l i = none) : ∀ x ∈ l, x ≠ none := by
  induction l generalizing i with
  | nil => intro x hx; exact absurd hx (List.not_mem_nil x)
  | cons a rest ih =>
    cases a with
    | none => rw [guessScan] at h; exact absurd h (by simp)
    | some b =>
      rw [guessScan] at h
      intro x hx
      rcases List.mem_cons.mp hx with rfl | hm
      · simp
      · exact ih (i + 1) h x hm

/-- A quiescent clause over fully assigned variables has a true literal. -/
theorem upc_none_all_assigned (c : Clause) (assignments : Assignments)
    (hnone : c.unit_prop_clause assignments = .None)
    (hass : ∀ a ∈ c.body, ¬ litUnset assignments a) :
    ∃ a ∈ c.body, litTrue assignments a := by
  obtain ⟨hnc, -⟩ := (upc_none_iff c assignments).mp hnone
  by_contra hnt
  apply hnc
  intro a ha
  exact not_unset_not_true_false (hass a ha)
    (fun ht => hnt ⟨a, ha, ht⟩)

/-- C1: if `State::sat()` returns true (SAT), then under the final
assignment map every clause of the list passed to `State::new` is
satisfied: at least one of its literals has its variable assigned to the
literal's polarity. -/
theorem claim_C1_sat_sound (clauses : List Clause) (num_vars : Nat)
    (fuel : Nat) (s' : State)
    (hwf : ∀ c ∈ clauses, ∀ a ∈ c.body, a.get_var.id < num_vars)
    (h : satFuel fuel (State.new clauses num_vars) = some (true, s')) :
    ∀ c ∈ clauses, ∃ a ∈ c.body, litTrue s'.assignments a := by
  obtain ⟨⟨r, hr⟩, hlen⟩ := satFuel_frame fuel _ true s' h
  obtain ⟨hfix, hguess⟩ := satFuel_true_final fuel _ s' h
  have hlen' : s'.assignments.length = num_vars := by
    rw [hlen]
    show (List.replicate num_vars (none : Option Bool)).length = _
    rw [List.length_replicate]
  have hall : ∀ x ∈ s'.assignments, x ≠ none :=
    guessScan_none s'.assignments 0 hguess
  intro c hc
  have hc' : c ∈ s'.clauses := by
    rw [hr]
    exact List.mem_append.mpr (Or.inl hc)
  apply upc_none_all_assigned c s'.assignments (hfix c hc')
  intro a ha hu
  have hv : a.get_var.id < s'.assignments.length := by
    rw [hlen']
    exact hwf c hc a ha
  unfold litUnset at hu
  rw [getD_in _ hv] at hu
  exact hall _ (List.getElem_mem hv) hu

/-- Witness for C1: the one-clause formula `x0` is SAT and the clause is
satisfied in the final state. -/
theorem claim_C1_witness :
    (∀ c ∈ [Clause.new [VarRef.as_atom { id := 0 } true]], ∀ a ∈ c.body,
      a.get_var.id < 1) ∧
    (∃ s', satFuel 2
        (State.new [Clause.new [VarRef.as_atom { id := 0 } true]] 1) =
        some (true, s') ∧
      ∀ c ∈ [Clause.new [VarRef.as_atom { id := 0 } true]],
        ∃ a ∈ c.body, litTrue s'.assignments a) := by
  refine ⟨by decide, ?_⟩
  cases hres : satFuel 2
      (State.new [Clause.new [VarRef.as_atom { id := 0 } true]] 1) with
  | none => exact absurd hres (by decide)
  | some p =>
    obtain ⟨b, sfin⟩ := p
    have hb : b = true := by
      have : (satFuel 2
        (State.new [Clause.new [VarRef.as_atom { id := 0 } true]] 1)).map
          Prod.fst = some true := by decide
      rw [hres] at this
      simpa using this
    subst hb
    exact ⟨sfin, rfl,
      claim_C1_sat_sound _ 1 2 sfin (by decide) hres⟩

/-! ## Conflict analysis: the reset level is below the conflict level -/

/-- Every graph entry's level is at most the current number of open
levels. -/
theorem coreInv_levels_le {s : State} (hInv : CoreInv s) :
    ∀ v node, s.derivation_graph.getD v none = some node →
      node.level ≤ s.assignment_stack.len := by
  obtain ⟨hW1, hW2, hW3, hW4, hA1, hA2, hA3, hA4, hL1, hG, hD⟩ := hInv
  intro v node hnode
  have hlens : s.derivation_graph.length = s.assignments.length := hW1
  have hvlt : v < s.assignments.length := by
    by_contra hge
    rw [getD_oob _ _ (by omega)] at hnode
    exact absurd hnode (by simp)
  have hassigned : (s.assignments.getD v none).isSome :=
    (hA1 v hvlt).mpr (by rw [hnode]; rfl)
  obtain ⟨a, ha, hav⟩ := List.mem_map.mp ((hA2 v hvlt).mp hassigned)
  obtain ⟨p, hp, hap⟩ := List.getElem_of_mem ha
  have hlm := hL1 p hp
  rw [getD_in _ hp default, hap, hav, hnode] at hlm
  simp only [Option.map_some', Option.some.injEq] at hlm
  rw [hlm]
  show posLevel _ p ≤ s.assignment_stack.tops.length
  unfold posLevel
  exact List.countP_le_length _

/-- Absorbing a cut can only raise the reset level to levels strictly
below the conflict level. -/
theorem absorbCut_reset_lt (graph : List (Option DerivationGraphNode))
    (L : Nat)
    (hlev : ∀ v node, graph.getD v none = some node → node.level ≤ L) :
    ∀ (nc : List Atom) (f : List Bool) (cls r : Nat) (body : List Atom)
      (f2 : List Bool) (cls2 r2 : Nat) (body2 : List Atom),
      absorbCut graph L nc f cls r body = some (f2, cls2, r2, body2) →
      r < L → r2 < L := by
  intro nc
  induction nc with
  | nil =>
    intro f cls r body f2 cls2 r2 body2 h hr
    rw [absorbCut] at h
    simp only [Option.some.injEq, Prod.mk.injEq] at h
    obtain ⟨-, -, h3, -⟩ := h
    rw [← h3]
    exact hr
  | cons a rest ih =>
    intro f cls r body f2 cls2 r2 body2 h hr
    rw [absorbCut] at h
    by_cases hf : f.getD a.get_var.id false
    · rw [if_pos hf] at h
      exact ih _ _ _ _ _ _ _ _ h hr
    · rw [if_neg hf] at h
      cases hnode : graph.getD a.get_var.id none with
      | none =>
        rw [hnode] at h
        exact absurd h (by simp)
      | some node =>
        rw [hnode] at h
        have h2 : (if node.level = L then
            absorbCut graph L rest (f.set a.get_var.id true) (cls + 1) r
              body
          else if node.level ≠ 0 then
            absorbCut graph L rest (f.set a.get_var.id true) cls
              (max r node.level) (body ++ [a.negated])
          else
            absorbCut graph L rest (f.set a.get_var.id true) cls r
              body) = some (f2, cls2, r2, body2) := h
        by_cases hL2 : node.level = L
        · rw [if_pos hL2] at h2
          exact ih _ _ _ _ _ _ _ _ h2 hr
        · rw [if_neg hL2] at h2
          by_cases h0 : node.level ≠ 0
          · rw [if_pos h0] at h2
            have hle : node.level ≤ L := hlev _ _ hnode
            have hmax : max r node.level < L := by
              rw [Nat.max_lt]
              exact ⟨hr, by omega⟩
            exact ih _ _ _ _ _ _ _ _ h2 hmax
          · rw [if_neg h0] at h2
            exact ih _ _ _ _ _ _ _ _ h2 hr

/-! Equation lemmas for `analyseLoop` and `analyse_conflict`, one per
execution path. -/

theorem analyseLoop_nil (graph : List (Option DerivationGraphNode))
    (L : Nat) (f : List Bool) (cls r : Nat) (body : List Atom) :
    analyseLoop graph L [] f cls r body = none := rfl

theorem analyseLoop_skip {graph : List (Option DerivationGraphNode)}
    {L : Nat} {atom : Atom} {iter : List Atom} {f : List Bool}
    {cls r : Nat} {body : List Atom}
    (hf : f.getD atom.get_var.id false = false) :
    analyseLoop graph L (atom :: iter) f cls r body =
      analyseLoop graph L iter f cls r body := by
  simp only [analyseLoop]
  rw [if_neg (by rw [hf]; simp)]

theorem analyseLoop_uip {graph : List (Option DerivationGraphNode)}
    {L : Nat} {atom : Atom} {iter : List Atom} {f : List Bool}
    {cls r : Nat} {body : List Atom}
    (hf : f.getD atom.get_var.id false = true) (hcls : cls - 1 = 0) :
    analyseLoop graph L (atom :: iter) f cls r body =
      some (Clause.new (body ++ [atom.negated]), r) := by
  simp only [analyseLoop]
  rw [if_pos hf, if_pos hcls]

theorem analyseLoop_guess_stuck {graph : List (Option DerivationGraphNode)}
    {L : Nat} {atom : Atom} {iter : List Atom} {f : List Bool}
    {cls r : Nat} {body : List Atom} {lev : Nat}
    (hf : f.getD atom.get_var.id false = true) (hcls : cls - 1 ≠ 0)
    (hnode : graph.getD atom.get_var.id none = some (.Guess lev)) :
    analyseLoop graph L (atom :: iter) f cls r body = none := by
  simp only [analyseLoop]
  rw [if_pos hf, if_neg hcls]
  rw [hnode]

theorem analyseLoop_missing_stuck
    {graph : List (Option DerivationGraphNode)}
    {L : Nat} {atom : Atom} {iter : List Atom} {f : List Bool}
    {cls r : Nat} {body : List Atom}
    (hf : f.getD atom.get_var.id false = true) (hcls : cls - 1 ≠ 0)
    (hnode : graph.getD atom.get_var.id none = none) :
    analyseLoop graph L (atom :: iter) f cls r body = none := by
  simp only [analyseLoop]
  rw [if_pos hf, if_neg hcls]
  rw [hnode]

theorem analyseLoop_absorb_stuck
    {graph : List (Option DerivationGraphNode)}
    {L : Nat} {atom : Atom} {iter : List Atom} {f : List Bool}
    {cls r : Nat} {body : List Atom} {lev : Nat} {inputs : List Atom}
    (hf : f.getD atom.get_var.id false = true) (hcls : cls - 1 ≠ 0)
    (hnode : graph.getD atom.get_var.id none =
      some (.Derivation lev inputs))
    (hab : absorbCut graph L inputs (f.set atom.get_var.id false)
      (cls - 1) r body = none) :
    analyseLoop graph L (atom :: iter) f cls r body = none := by
  simp only [analyseLoop]
  rw [if_pos hf, if_neg hcls]
  rw [hnode]
  show (match absorbCut graph L inputs (f.set atom.get_var.id false)
      (cls - 1) r body with
    | none => none
    | some (frontier2, cls2, reset2, body2) =>
      analyseLoop graph L iter frontier2 cls2 reset2 body2) = none
  rw [hab]

theorem analyseLoop_continue {graph : List (Option DerivationGraphNode)}
    {L : Nat} {atom : Atom} {iter : List Atom} {f : List Bool}
    {cls r : Nat} {body : List Atom} {lev : Nat} {inputs : List Atom}
    {f2 : List Bool} {cls2 r2 : Nat} {body2 : List Atom}
    (hf : f.getD atom.get_var.id false = true) (hcls : cls - 1 ≠ 0)
    (hnode : graph.getD atom.get_var.id none =
      some (.Derivation lev inputs))
    (hab : absorbCut graph L inputs (f.set atom.get_var.id false)
      (cls - 1) r body = some (f2, cls2, r2, body2)) :
    analyseLoop graph L (atom :: iter) f cls r body =
      analyseLoop graph L iter f2 cls2 r2 body2 := by
  simp only [analyseLoop]
  rw [if_pos hf, if_neg hcls]
  rw [hnode]
  show (match absorbCut graph L inputs (f.set atom.get_var.id false)
      (cls - 1) r body with
    | none => none
    | some (frontier2, cls2, reset2, body2) =>
      analyseLoop graph L iter frontier2 cls2 reset2 body2) = _
  rw [hab]

theorem analyse_conflict_eq_stuck {s : State} {inputs : List Atom}
    (hab : absorbCut s.derivation_graph s.assignment_stack.len inputs
      (List.replicate s.assignments.length false) 0 0 [] = none) :
    s.analyse_conflict inputs = none := by
  unfold State.analyse_conflict
  rw [hab]

theorem analyse_conflict_eq {s : State} {inputs : List Atom}
    {f : List Bool} {cls r : Nat} {body : List Atom}
    (hab : absorbCut s.derivation_graph s.assignment_stack.len inputs
      (List.replicate s.assignments.length false) 0 0 [] =
      some (f, cls, r, body)) :
    s.analyse_conflict inputs =
      analyseLoop s.derivation_graph s.assignment_stack.len
        s.assignment_stack.peek_stack.reverse f cls r body := by
  unfold State.analyse_conflict
  rw [hab]

/-- Down the whole analysis loop, the reset level stays strictly below the
conflict level. -/
theorem analyseLoop_reset_lt
    (graph : List (Option DerivationGraphNode)) (L : Nat)
    (hlev : ∀ v node, graph.getD v none = some node → node.level ≤ L)
    (iter : List Atom) :
    ∀ (f : List Bool) (cls r : Nat) (body : List Atom) (C : Clause)
      (r2 : Nat),
      analyseLoop graph L iter f cls r body = some (C, r2) →
      r < L → r2 < L := by
  induction iter with
  | nil =>
    intro f cls r body C r2 h hr
    rw [analyseLoop_nil] at h
    exact absurd h (by simp)
  | cons atom iter ih =>
    intro f cls r body C r2 h hr
    cases hf : f.getD atom.get_var.id false with
    | false =>
      rw [analyseLoop_skip hf] at h
      exact ih f cls r body C r2 h hr
    | true =>
      by_cases hcls : cls - 1 = 0
      · rw [analyseLoop_uip hf hcls] at h
        simp only [Option.some.injEq, Prod.mk.injEq] at h
        rw [← h.2]
        exact hr
      · cases hnode : graph.getD atom.get_var.id none with
        | none =>
          rw [analyseLoop_missing_stuck hf hcls hnode] at h
          exact absurd h (by simp)
        | some node =>
          cases node with
          | Guess lev =>
            rw [analyseLoop_guess_stuck hf hcls hnode] at h
            exact absurd h (by simp)
          | Derivation lev inputs =>
            cases hab : absorbCut graph L inputs
                (f.set atom.get_var.id false) (cls - 1) r body with
            | none =>
              rw [analyseLoop_absorb_stuck hf hcls hnode hab] at h
              exact absurd h (by simp)
            | some q =>
              obtain ⟨f2, cls2, rr, body2⟩ := q
              have hrr : rr < L :=
                absorbCut_reset_lt graph L hlev inputs
                  (f.set atom.get_var.id false) (cls - 1) r body f2 cls2
                  rr body2 hab hr
              rw [analyseLoop_continue hf hcls hnode hab] at h
              exact ih f2 cls2 rr body2 C r2 h hrr

/-- C5: for every conflict analysed while the current decision level
`L = assignment_stack.len()` is at least 1 (on a structurally sound
state), the reset level returned by `analyse_conflict` is strictly less
than `L`. -/
theorem claim_C5_reset_level_lt (s : State) (inputs : List Atom)
    (C : Clause) (reset_level : Nat) (hInv : CoreInv s)
    (hL : 1 ≤ s.assignment_stack.len)
    (h : s.analyse_conflict inputs = some (C, reset_level)) :
    reset_level < s.assignment_stack.len := by
  cases hab : absorbCut s.derivation_graph s.assignment_stack.len inputs
      (List.replicate s.assignments.length false) 0 0 [] with
  | none =>
    rw [analyse_conflict_eq_stuck hab] at h
    exact absurd h (by simp)
  | some q =>
    obtain ⟨f, cls, r, body⟩ := q
    have hr : r < s.assignment_stack.len :=
      absorbCut_reset_lt s.derivation_graph s.assignment_stack.len
        (coreInv_levels_le hInv) inputs
        (List.replicate s.assignments.length false) 0 0 [] f cls r body
        hab hL
    rw [analyse_conflict_eq hab] at h
    exact analyseLoop_reset_lt s.derivation_graph s.assignment_stack.len
      (coreInv_levels_le hInv) s.assignment_stack.peek_stack.reverse
      f cls r body C reset_level h hr

/-- Witness for C5 on the repository's own conflict-analysis test state:
two clauses, `a` guessed true at level 1, `b` derived false, conflict. -/
theorem claim_C5_witness :
    (CoreInv
      { clauses :=
          [Clause.new [{ var := { id := 0 }, polarity := false },
                       { var := { id := 1 }, polarity := true }],
           Clause.new [{ var := { id := 0 }, polarity := false },
                       { var := { id := 1 }, polarity := false }]]
        assignment_stack :=
          { values := [{ var := { id := 0 }, polarity := true },
                       { var := { id := 1 }, polarity := false }],
            tops := [0] }
        assignments := [some true, some false]
        derivation_graph :=
          [some (.Guess 1),
           some (.Derivation 1 [{ var := { id := 0 }, polarity := true }])]
      } ∧
      (1 : Nat) ≤ 1 ∧
      State.analyse_conflict
        { clauses :=
            [Clause.new [{ var := { id := 0 }, polarity := false },
                         { var := { id := 1 }, polarity := true }],
             Clause.new [{ var := { id := 0 }, polarity := false },
                         { var := { id := 1 }, polarity := false }]]
          assignment_stack :=
            { values := [{ var := { id := 0 }, polarity := true },
                         { var := { id := 1 }, polarity := false }],
              tops := [0] }
          assignments := [some true, some false]
          derivation_graph :=
            [some (.Guess 1),
             some (.Derivation 1
               [{ var := { id := 0 }, polarity := true }])] }
        [{ var := { id := 0 }, polarity := false },
         { var := { id := 1 }, polarity := false }] =
        some (Clause.new [{ var := { id := 0 }, polarity := false }], 0)) ∧
    (0 : Nat) < 1 :=
  ⟨⟨by decide, by decide, by decide⟩,
   claim_C5_reset_level_lt
     { clauses :=
         [Clause.new [{ var := { id := 0 }, polarity := false },
                      { var := { id := 1 }, polarity := true }],
          Clause.new [{ var := { id := 0 }, polarity := false },
                      { var := { id := 1 }, polarity := false }]]
       assignment_stack :=
         { values := [{ var := { id := 0 }, polarity := true },
                      { var := { id := 1 }, polarity := false }],
           tops := [0] }
       assignments := [some true, some false]
       derivation_graph :=
         [some (.Guess 1),
          some (.Derivation 1 [{ var := { id := 0 }, polarity := true }])]
     }
     [{ var := { id := 0 }, polarity := false },
      { var := { id := 1 }, polarity := false }]
     (Clause.new [{ var := { id := 0 }, polarity := false }]) 0
     (by decide) (by decide) (by decide)⟩

/-! ## Layer and position facts about the current level -/

/-- The boundary of the top layer. -/
def topStart (s : State) : Nat :=
  s.assignment_stack.tops.getLast?.getD 0

theorem peek_stack_eq (s : State) :
    s.assignment_stack.peek_stack =
      s.assignment_stack.values.drop (topStart s) := rfl

/-- With at least one open level, the top boundary is the last entry. -/
theorem topStart_eq {s : State} (hL : 1 ≤ s.assignment_stack.len) :
    topStart s = s.assignment_stack.tops.getD
      (s.assignment_stack.tops.length - 1) 0 := by
  unfold topStart
  have hlen : s.assignment_stack.len =
    s.assignment_stack.tops.length := rfl
  rw [List.getLast?_eq_getElem?,
    List.getElem?_eq_getElem (by omega),
    getD_in _ (by omega) 0]
  rfl

/-- Reading past a drop is reading at a shifted position. -/
theorem getD_drop {α : Type} (l : List α) (b j : Nat) (d : α)
    (h : b + j < l.length) :
    (l.drop b).getD j d = l.getD (b + j) d := by
  have h2 : j < (l.drop b).length := by
    rw [List.length_drop]; omega
  rw [getD_in _ h2 d, getD_in _ h d]
  exact List.getElem_drop _

/-- Positions at or past the top boundary have level exactly `len`. -/
theorem posLevel_topStart {s : State} (hW : WfTops s)
    (hL : 1 ≤ s.assignment_stack.len) {p : Nat} (hp : topStart s ≤ p) :
    posLevel s.assignment_stack.tops p = s.assignment_stack.len := by
  have hlen : s.assignment_stack.len =
    s.assignment_stack.tops.length := rfl
  rw [topStart_eq hL] at hp
  have hT : s.assignment_stack.tops.length - 1 <
      s.assignment_stack.tops.length := by omega
  have hgt := posLevel_gt hW hT hp
  have hle2 : posLevel s.assignment_stack.tops p ≤
      s.assignment_stack.tops.length := List.countP_le_length _
  omega

/-- Each literal of the current layer carries a graph node at the current
level. -/
theorem curLayer_level {s : State} (hCore : CoreInv s)
    (hL : 1 ≤ s.assignment_stack.len) {j : Nat}
    (hj : j < s.assignment_stack.peek_stack.length) :
    (s.derivation_graph.getD
        ((s.assignment_stack.peek_stack.getD j default).get_var.id)
        none).map DerivationGraphNode.level =
      some s.assignment_stack.len := by
  obtain ⟨hW1, hW2, hW3, hW4, hA1, hA2, hA3, hA4, hL1, hG, hD⟩ := hCore
  rw [peek_stack_eq] at hj ⊢
  rw [List.length_drop] at hj
  have hjp : topStart s + j < s.assignment_stack.values.length := by
    omega
  have hget : (s.assignment_stack.values.drop (topStart s)).getD j
      default = s.assignment_stack.values.getD (topStart s + j) default :=
    by
    rw [getD_in _ (by rw [List.length_drop]; omega) default,
      getD_in _ hjp default]
    exact List.getElem_drop _
  rw [hget]
  have := hL1 (topStart s + j) hjp
  rw [this]
  congr 1
  exact posLevel_topStart hW3 hL (by omega)

/-- A variable at the current level sits in the current layer. -/
theorem level_top_in_curLayer {s : State} (hCore : CoreInv s)
    (hL : 1 ≤ s.assignment_stack.len) {v : Nat}
    (hassigned : (s.assignments.getD v none).isSome)
    (hlvl : (s.derivation_graph.getD v none).map
      DerivationGraphNode.level = some s.assignment_stack.len) :
    ∃ j, j < s.assignment_stack.peek_stack.length ∧
      (s.assignment_stack.peek_stack.getD j default).get_var.id = v := by
  obtain ⟨hW1, hW2, hW3, hW4, hA1, hA2, hA3, hA4, hL1, hG, hD⟩ := hCore
  have hvlt : v < s.assignments.length := by
    by_contra hge
    rw [getD_oob _ _ (by omega)] at hassigned
    exact absurd hassigned (by simp)
  obtain ⟨a, ha, hav⟩ := List.mem_map.mp ((hA2 v hvlt).mp hassigned)
  obtain ⟨p, hp, hap⟩ := List.getElem_of_mem ha
  have hlm := hL1 p hp
  rw [getD_in _ hp default, hap, hav] at hlm
  rw [hlm] at hlvl
  simp only [Option.some.injEq] at hlvl
  have hlen : s.assignment_stack.len =
    s.assignment_stack.tops.length := rfl
  have hpge : topStart s ≤ p := by
    by_contra hlt2
    have := posLevel_le (p := p) hW3
      (T := s.assignment_stack.tops.length - 1) (by omega)
      (by rw [← topStart_eq hL]; omega)
    omega
  refine ⟨p - topStart s, ?_, ?_⟩
  · rw [peek_stack_eq, List.length_drop]
    omega
  · rw [peek_stack_eq]
    rw [getD_drop s.assignment_stack.values (topStart s) (p - topStart s)
      default (by omega)]
    have hcast : topStart s + (p - topStart s) = p := by omega
    rw [hcast, getD_in s.assignment_stack.values hp default, hap, hav]

/-- In a duplicate-free stack, the index of the `p`-th variable is `p`. -/
theorem stackVars_indexOf {s : State} (hNodup : StackNodup s) {p : Nat}
    (hp : p < s.assignment_stack.values.length) :
    (stackVars s).indexOf
      ((s.assignment_stack.values.getD p default).get_var.id) = p := by
  have hlen : (stackVars s).length =
      s.assignment_stack.values.length := by
    unfold stackVars
    rw [List.length_map]
  have hplen : p < (stackVars s).length := by omega
  have hsv : (stackVars s).getD p 0 =
      (s.assignment_stack.values.getD p default).get_var.id := by
    unfold stackVars
    rw [getD_in (s.assignment_stack.values.map fun a => a.get_var.id)
      (by rw [List.length_map]; exact hp) 0,
      getD_in s.assignment_stack.values hp default]
    rw [List.getElem_map]
  have hmem : ((s.assignment_stack.values.getD p default).get_var.id) ∈
      stackVars s := by
    rw [← hsv, getD_in (stackVars s) hplen 0]
    exact List.getElem_mem _
  have hidx : (stackVars s).indexOf
      ((s.assignment_stack.values.getD p default).get_var.id) <
      (stackVars s).length := List.indexOf_lt_length.mpr hmem
  have hgetidx := List.getElem_indexOf hidx
  have hgetp : (stackVars s)[p] =
      (s.assignment_stack.values.getD p default).get_var.id := by
    rw [← hsv]
    exact (getD_in (stackVars s) hplen 0).symm
  have hEq : (stackVars s)[(stackVars s).indexOf
      ((s.assignment_stack.values.getD p default).get_var.id)] =
      (stackVars s)[p] := by
    rw [hgetidx, hgetp]
  exact (hNodup.getElem_inj_iff).mp hEq

/-! ## Vocabulary for conflict analysis and the solver invariant -/

/-- The graph level of a variable, if it has a node. -/
def levelOf (s : State) (v : Nat) : Option Nat :=
  (s.derivation_graph.getD v none).map DerivationGraphNode.level

/-- The polarity currently assigned to a variable (`false` if unset). -/
def polOf (s : State) (v : Nat) : Bool :=
  (s.assignments.getD v none).getD false

/-- The set of frontier variables whose node sits at the conflict level. -/
def SFr (s : State) (f : List Bool) : Finset Nat :=
  (Finset.range s.assignments.length).filter fun v =>
    f.getD v false = true ∧ levelOf s v = some s.assignment_stack.len

/-- Some clause is unit or conflicting under the current assignment. -/
def Pend (s : State) : Prop :=
  ∃ c ∈ s.clauses, c.unit_prop_clause s.assignments ≠ .None

/-- Above level 0, every falsified clause contains a literal assigned at
the current level.  This is the loop-head invariant behind conflict
analysis always finding a first UIP. -/
def TopInv (s : State) : Prop :=
  1 ≤ s.assignment_stack.len →
    ∀ c ∈ s.clauses, (∀ a ∈ c.body, litFalse s.assignments a) →
      ∃ a ∈ c.body, levelOf s a.get_var.id = some s.assignment_stack.len

/-- Every current clause is entailed by the clause list `F`. -/
def ClausesEnt (F : List Clause) (s : State) : Prop :=
  ∀ c ∈ s.clauses, ∀ ρ : Nat → Bool, cnfSatBy ρ F → clauseSatBy ρ c

/-- Level-0 assignments are forced by the clause list `F`. -/
def Forced0 (F : List Clause) (s : State) : Prop :=
  ∀ v, levelOf s v = some 0 → ∀ ρ : Nat → Bool, cnfSatBy ρ F →
    ρ v = polOf s v

/-- Each derivation node's implication is entailed by `F`: a model of `F`
satisfying all the node's inputs assigns the derived variable its recorded
polarity. -/
def DerivSem (F : List Clause) (s : State) : Prop :=
  ∀ v lev inputs,
    s.derivation_graph.getD v none = some (.Derivation lev inputs) →
    ∀ ρ : Nat → Bool, cnfSatBy ρ F →
      (∀ a ∈ inputs, ρ a.get_var.id = a.polarity) → ρ v = polOf s v

/-- The invariant at every boundary of the `State::sat` loop, relative to
the clause list `F` the solver was started from. -/
def SolverInv (F : List Clause) (s : State) : Prop :=
  CoreInv s ∧ TopInv s ∧ ClausesEnt F s ∧ Forced0 F s ∧ DerivSem F s

/-- The running invariant of the conflict-analysis state: the frontier
array has the right size; `cur_level_size` counts the current-level
frontier variables; frontier variables carry graph nodes; the reset level
is below the conflict level; the accumulated body consists of falsified
literals whose nodes sit at levels in `[1, reset_level]`; and every
intermediate-level frontier variable already has its negation in the
body. -/
def FrontInv (s : State) (f : List Bool) (cls r : Nat)
    (body : List Atom) : Prop :=
  f.length = s.assignments.length ∧
  cls = (SFr s f).card ∧
  (∀ v, f.getD v false = true →
    ∃ node, s.derivation_graph.getD v none = some node) ∧
  r < s.assignment_stack.len ∧
  (∀ b ∈ body, litFalse s.assignments b ∧
    ∃ node, s.derivation_graph.getD b.get_var.id none = some node ∧
      1 ≤ node.level ∧ node.level ≤ r) ∧
  (∀ v node, f.getD v false = true →
    s.derivation_graph.getD v none = some node →
    1 ≤ node.level → node.level < s.assignment_stack.len →
    ({ var := { id := v }, polarity := !(polOf s v) } : Atom) ∈ body)

/-- The resolution invariant of conflict analysis: any model of `F` either
satisfies the partial body or disagrees with some current-level frontier
variable. -/
def EntInv (F : List Clause) (s : State) (f : List Bool)
    (body : List Atom) : Prop :=
  ∀ ρ : Nat → Bool, cnfSatBy ρ F →
    clauseSatBy ρ (Clause.new body) ∨
      ∃ v ∈ SFr s f, ρ v ≠ polOf s v

/-! ## Basic lemmas about the new vocabulary -/

theorem litTrue_polOf {s : State} {a : Atom}
    (h : litTrue s.assignments a) : polOf s a.get_var.id = a.polarity := by
  unfold litTrue at h
  unfold polOf
  rw [h]
  rfl

theorem litFalse_polOf {s : State} {a : Atom}
    (h : litFalse s.assignments a) :
    polOf s a.get_var.id = !a.polarity := by
  unfold litFalse at h
  unfold polOf
  rw [h]
  rfl

theorem litFalse_negated_iff {assignments : Assignments} {a : Atom} :
    litFalse assignments a.negated ↔ litTrue assignments a := by
  unfold litFalse litTrue Atom.negated Atom.get_var
  simp

theorem litTrue_var_lt {s : State} {a : Atom}
    (h : litTrue s.assignments a) :
    a.get_var.id < s.assignments.length := by
  by_contra hge
  unfold litTrue at h
  rw [getD_oob _ _ (by omega)] at h
  exact absurd h (by simp)

theorem levelOf_var_lt {s : State} {v : Nat} {lev : Nat}
    (hW1 : WfLens s) (h : levelOf s v = some lev) :
    v < s.assignments.length := by
  by_contra hge
  unfold levelOf at h
  rw [getD_oob _ _ (by rw [hW1]; omega)] at h
  exact absurd h (by simp)

theorem node_var_lt {s : State} {v : Nat} {node : DerivationGraphNode}
    (hW1 : WfLens s) (h : s.derivation_graph.getD v none = some node) :
    v < s.assignments.length := by
  by_contra hge
  rw [getD_oob _ _ (by rw [hW1]; omega)] at h
  exact absurd h (by simp)

theorem getD_set_default_self {α : Type} (l : List α) (i : Nat) (d : α) :
    (l.set i d).getD i d = d := by
  by_cases h : i < l.length
  · exact getD_set_self l i d d h
  · rw [List.set_eq_of_length_le (by omega)]
    exact getD_oob _ _ (by omega)

theorem SFr_mono {s : State} {f f2 : List Bool}
    (h : ∀ v, f.getD v false = true → f2.getD v false = true) :
    SFr s f ⊆ SFr s f2 := by
  intro v hv
  unfold SFr at hv ⊢
  rw [Finset.mem_filter] at hv ⊢
  exact ⟨hv.1, h v hv.2.1, hv.2.2⟩

theorem SFr_set_false (s : State) (f : List Bool) (x : Nat) :
    SFr s (f.set x false) = (SFr s f).erase x := by
  ext v
  unfold SFr
  rw [Finset.mem_erase, Finset.mem_filter, Finset.mem_filter]
  by_cases hv : v = x
  · subst hv
    rw [getD_set_default_self]
    simp
  · rw [getD_set_other _ _ _ (fun he => hv he.symm)]
    constructor
    · rintro ⟨h1, h2, h3⟩
      exact ⟨hv, h1, h2, h3⟩
    · rintro ⟨-, h1, h2, h3⟩
      exact ⟨h1, h2, h3⟩

theorem SFr_set_true_level {s : State} {f : List Bool} {x : Nat}
    (hx : x < f.length) (hxn : x < s.assignments.length)
    (hlev : levelOf s x = some s.assignment_stack.len) :
    SFr s (f.set x true) = insert x (SFr s f) := by
  ext v
  unfold SFr
  rw [Finset.mem_insert, Finset.mem_filter, Finset.mem_filter]
  by_cases hv : v = x
  · subst hv
    rw [getD_set_self _ _ _ _ hx]
    simp [hxn, hlev]
  · rw [getD_set_other _ _ _ (fun he => hv he.symm)]
    constructor
    · intro h
      exact Or.inr h
    · rintro (h | h)
      · exact absurd h hv
      · exact h

theorem SFr_set_true_other {s : State} {f : List Bool} {x : Nat}
    (hlev : levelOf s x ≠ some s.assignment_stack.len) :
    SFr s (f.set x true) = SFr s f := by
  ext v
  unfold SFr
  rw [Finset.mem_filter, Finset.mem_filter]
  by_cases hv : v = x
  · subst hv
    constructor
    · rintro ⟨-, -, h3⟩
      exact absurd h3 hlev
    · rintro ⟨-, -, h3⟩
      exact absurd h3 hlev
  · rw [getD_set_other _ _ _ (fun he => hv he.symm)]

theorem SFr_replicate_empty (s : State) (m : Nat) :
    SFr s (List.replicate m false) = ∅ := by
  ext v
  unfold SFr
  rw [Finset.mem_filter]
  simp only [Finset.not_mem_empty, iff_false]
  rintro ⟨-, h2, -⟩
  by_cases hv : v < m
  · rw [getD_in _ (by rw [List.length_replicate]; omega) false,
      List.getElem_replicate] at h2
    exact absurd h2 (by simp)
  · rw [getD_oob _ _ (by rw [List.length_replicate]; omega)] at h2
    exact absurd h2 (by simp)

theorem mem_SFr {s : State} {f : List Bool} {v : Nat} :
    v ∈ SFr s f ↔ v < s.assignments.length ∧ f.getD v false = true ∧
      levelOf s v = some s.assignment_stack.len := by
  unfold SFr
  rw [Finset.mem_filter, Finset.mem_range]

/-! Equation lemmas for `absorbCut`, one per execution path. -/

theorem absorbCut_seen {graph : List (Option DerivationGraphNode)}
    {L : Nat} {a : Atom} {rest : List Atom} {f : List Bool} {cls r : Nat}
    {body : List Atom} (hf : f.getD a.get_var.id false = true) :
    absorbCut graph L (a :: rest) f cls r body =
      absorbCut graph L rest f cls r body := by
  rw [absorbCut, if_pos hf]

theorem absorbCut_missing {graph : List (Option DerivationGraphNode)}
    {L : Nat} {a : Atom} {rest : List Atom} {f : List Bool} {cls r : Nat}
    {body : List Atom} (hf : f.getD a.get_var.id false = false)
    (hnode : graph.getD a.get_var.id none = none) :
    absorbCut graph L (a :: rest) f cls r body = none := by
  rw [absorbCut, if_neg (by rw [hf]; simp)]
  rw [hnode]

theorem absorbCut_cur {graph : List (Option DerivationGraphNode)}
    {L : Nat} {a : Atom} {rest : List Atom} {f : List Bool} {cls r : Nat}
    {body : List Atom} {node : DerivationGraphNode}
    (hf : f.getD a.get_var.id false = false)
    (hnode : graph.getD a.get_var.id none = some node)
    (hlev : node.level = L) :
    absorbCut graph L (a :: rest) f cls r body =
      absorbCut graph L rest (f.set a.get_var.id true) (cls + 1) r
        body := by
  rw [absorbCut, if_neg (by rw [hf]; simp)]
  rw [hnode]
  show (if node.level = L then
      absorbCut graph L rest (f.set a.get_var.id true) (cls + 1) r body
    else if node.level ≠ 0 then
      absorbCut graph L rest (f.set a.get_var.id true) cls
        (max r node.level) (body ++ [a.negated])
    else
      absorbCut graph L rest (f.set a.get_var.id true) cls r body) = _
  rw [if_pos hlev]

theorem absorbCut_mid {graph : List (Option DerivationGraphNode)}
    {L : Nat} {a : Atom} {rest : List Atom} {f : List Bool} {cls r : Nat}
    {body : List Atom} {node : DerivationGraphNode}
    (hf : f.getD a.get_var.id false = false)
    (hnode : graph.getD a.get_var.id none = some node)
    (hlev : node.level ≠ L) (h0 : node.level ≠ 0) :
    absorbCut graph L (a :: rest) f cls r body =
      absorbCut graph L rest (f.set a.get_var.id true) cls
        (max r node.level) (body ++ [a.negated]) := by
  rw [absorbCut, if_neg (by rw [hf]; simp)]
  rw [hnode]
  show (if node.level = L then
      absorbCut graph L rest (f.set a.get_var.id true) (cls + 1) r body
    else if node.level ≠ 0 then
      absorbCut graph L rest (f.set a.get_var.id true) cls
        (max r node.level) (body ++ [a.negated])
    else
      absorbCut graph L rest (f.set a.get_var.id true) cls r body) = _
  rw [if_neg hlev, if_pos h0]

theorem absorbCut_zero {graph : List (Option DerivationGraphNode)}
    {L : Nat} {a : Atom} {rest : List Atom} {f : List Bool} {cls r : Nat}
    {body : List Atom} {node : DerivationGraphNode}
    (hf : f.getD a.get_var.id false = false)
    (hnode : graph.getD a.get_var.id none = some node)
    (hlev : node.level ≠ L) (h0 : node.level = 0) :
    absorbCut graph L (a :: rest) f cls r body =
      absorbCut graph L rest (f.set a.get_var.id true) cls r body := by
  rw [absorbCut, if_neg (by rw [hf]; simp)]
  rw [hnode]
  show (if node.level = L then
      absorbCut graph L rest (f.set a.get_var.id true) (cls + 1) r body
    else if node.level ≠ 0 then
      absorbCut graph L rest (f.set a.get_var.id true) cls
        (max r node.level) (body ++ [a.negated])
    else
      absorbCut graph L rest (f.set a.get_var.id true) cls r body) = _
  rw [if_neg hlev, if_neg (by simp [h0])]

/-- Absorbing a cut of currently-true literals into the frontier succeeds
(no panic) and maintains the conflict-analysis invariant; the frontier
only grows, new frontier variables come from the cut, every cut variable
ends up in the frontier, the reset level only grows, the current-level
count only grows, and the body is only appended to. -/
theorem absorbCut_spec {s : State} (hInv : CoreInv s)
    (hL : 1 ≤ s.assignment_stack.len) :
    ∀ (cut : List Atom) (f : List Bool) (cls r : Nat) (body : List Atom),
      (∀ a ∈ cut, litTrue s.assignments a) →
      FrontInv s f cls r body →
      ∃ f2 cls2 r2 body2,
        absorbCut s.derivation_graph s.assignment_stack.len cut f cls r
            body = some (f2, cls2, r2, body2) ∧
        FrontInv s f2 cls2 r2 body2 ∧
        (∀ v, f.getD v false = true → f2.getD v false = true) ∧
        (∀ v, f2.getD v false = true → f.getD v false = true ∨
          ∃ a ∈ cut, a.get_var.id = v) ∧
        (∀ a ∈ cut, f2.getD a.get_var.id false = true) ∧
        r ≤ r2 ∧ cls ≤ cls2 ∧ ∃ ext, body2 = body ++ ext := by
  intro cut
  induction cut with
  | nil =>
    intro f cls r body hlit hFI
    refine ⟨f, cls, r, body, ?_, hFI, fun v h => h, fun v h => Or.inl h,
      fun a ha => absurd ha (List.not_mem_nil a), le_refl r, le_refl cls,
      [], by rw [List.append_nil]⟩
    rw [absorbCut]
  | cons a rest ih =>
    intro f cls r body hlit hFI
    obtain ⟨hF1, hF2, hF3, hF4, hF5, hF6⟩ := hFI
    have hla : litTrue s.assignments a := hlit a (List.mem_cons_self a rest)
    have hvn : a.get_var.id < s.assignments.length := litTrue_var_lt hla
    have hrest : ∀ x ∈ rest, litTrue s.assignments x :=
      fun x hx => hlit x (List.mem_cons_of_mem a hx)
    by_cases hf : f.getD a.get_var.id false = true
    · obtain ⟨f2, cls2, r2, body2, heq, hFI2, hmono, hprov, hcov, hrle,
        hcle, hext⟩ := ih f cls r body hrest ⟨hF1, hF2, hF3, hF4, hF5, hF6⟩
      refine ⟨f2, cls2, r2, body2, ?_, hFI2, hmono, ?_, ?_, hrle, hcle,
        hext⟩
      · rw [absorbCut_seen hf]
        exact heq
      · intro v hv
        rcases hprov v hv with h | ⟨x, hx, he⟩
        · exact Or.inl h
        · exact Or.inr ⟨x, List.mem_cons_of_mem a hx, he⟩
      · intro x hx
        rcases List.mem_cons.mp hx with rfl | hm
        · exact hmono _ hf
        · exact hcov x hm
    · have hf0 : f.getD a.get_var.id false = false := by
        cases hg : f.getD a.get_var.id false
        · rfl
        · exact absurd hg hf
      have hA1 : AgreeGraph s := hInv.2.2.2.2.1
      have hsome : (s.assignments.getD a.get_var.id none).isSome := by
        unfold litTrue at hla
        rw [hla]
        rfl
      obtain ⟨node, hnode⟩ := Option.isSome_iff_exists.mp
        ((hA1 a.get_var.id hvn).mp hsome)
      have hxf : a.get_var.id < f.length := by omega
      have hflen : (f.set a.get_var.id true).length =
          s.assignments.length := by
        rw [List.length_set]
        exact hF1
      have hmono1 : ∀ v, f.getD v false = true →
          (f.set a.get_var.id true).getD v false = true := by
        intro v hv
        by_cases he : a.get_var.id = v
        · subst he
          exact getD_set_self _ _ _ _ hxf
        · rw [getD_set_other _ _ _ he]
          exact hv
      have hcovself : (f.set a.get_var.id true).getD a.get_var.id false =
          true := getD_set_self _ _ _ _ hxf
      have hnodes1 : ∀ v, (f.set a.get_var.id true).getD v false = true →
          ∃ nd, s.derivation_graph.getD v none = some nd := by
        intro v hv
        by_cases he : a.get_var.id = v
        · subst he
          exact ⟨node, hnode⟩
        · rw [getD_set_other _ _ _ he] at hv
          exact hF3 v hv
      have hprov1 : ∀ v, (f.set a.get_var.id true).getD v false = true →
          f.getD v false = true ∨ a.get_var.id = v := by
        intro v hv
        by_cases he : a.get_var.id = v
        · exact Or.inr he
        · rw [getD_set_other _ _ _ he] at hv
          exact Or.inl hv
      by_cases hlev : node.level = s.assignment_stack.len
      · -- current level: count up
        have hlevOf : levelOf s a.get_var.id =
            some s.assignment_stack.len := by
          unfold levelOf
          rw [hnode]
          simp only [Option.map_some']
          rw [hlev]
        have hnotmem : a.get_var.id ∉ SFr s f := by
          intro hmem
          rw [mem_SFr] at hmem
          rw [hmem.2.1] at hf0
          exact absurd hf0 (by simp)
        have hcard : cls + 1 = (SFr s (f.set a.get_var.id true)).card := by
          rw [SFr_set_true_level hxf hvn hlevOf,
            Finset.card_insert_of_not_mem hnotmem, hF2]
        have hmid1 : ∀ v nd,
            (f.set a.get_var.id true).getD v false = true →
            s.derivation_graph.getD v none = some nd →
            1 ≤ nd.level → nd.level < s.assignment_stack.len →
            ({ var := { id := v }, polarity := !(polOf s v) } : Atom) ∈
              body := by
          intro v nd hv hnd h1 h2
          by_cases he : a.get_var.id = v
          · subst he
            rw [hnode] at hnd
            rw [← Option.some.inj hnd] at h2
            omega
          · rw [getD_set_other _ _ _ he] at hv
            exact hF6 v nd hv hnd h1 h2
        obtain ⟨f2, cls2, r2, body2, heq, hFI2, hmono, hprov, hcov, hrle,
          hcle, hext⟩ := ih (f.set a.get_var.id true) (cls + 1) r body
            hrest ⟨hflen, hcard, hnodes1, hF4, hF5, hmid1⟩
        refine ⟨f2, cls2, r2, body2, ?_, hFI2, ?_, ?_, ?_, hrle,
          by omega, hext⟩
        · rw [absorbCut_cur hf0 hnode hlev]
          exact heq
        · intro v hv
          exact hmono v (hmono1 v hv)
        · intro v hv
          rcases hprov v hv with h | ⟨x, hx, he⟩
          · rcases hprov1 v h with h' | h'
            · exact Or.inl h'
            · exact Or.inr ⟨a, List.mem_cons_self a rest, h'⟩
          · exact Or.inr ⟨x, List.mem_cons_of_mem a hx, he⟩
        · intro x hx
          rcases List.mem_cons.mp hx with rfl | hm
          · exact hmono _ hcovself
          · exact hcov x hm
      · -- some other level
        have hlevle : node.level ≤ s.assignment_stack.len :=
          coreInv_levels_le hInv _ _ hnode
        have hlevlt : node.level < s.assignment_stack.len := by omega
        have hlevOf : levelOf s a.get_var.id ≠
            some s.assignment_stack.len := by
          unfold levelOf
          rw [hnode]
          intro h
          simp only [Option.map_some', Option.some.injEq] at h
          exact hlev h
        have hSFr : SFr s (f.set a.get_var.id true) = SFr s f :=
          SFr_set_true_other hlevOf
        by_cases h0 : node.level = 0
        · -- level 0: skip entirely
          have hmid1 : ∀ v nd,
              (f.set a.get_var.id true).getD v false = true →
              s.derivation_graph.getD v none = some nd →
              1 ≤ nd.level → nd.level < s.assignment_stack.len →
              ({ var := { id := v }, polarity := !(polOf s v) } : Atom) ∈
                body := by
            intro v nd hv hnd h1 h2
            by_cases he : a.get_var.id = v
            · subst he
              rw [hnode] at hnd
              rw [← Option.some.inj hnd] at h1
              omega
            · rw [getD_set_other _ _ _ he] at hv
              exact hF6 v nd hv hnd h1 h2
          obtain ⟨f2, cls2, r2, body2, heq, hFI2, hmono, hprov, hcov,
            hrle, hcle, hext⟩ := ih (f.set a.get_var.id true) cls r body
              hrest ⟨hflen, by rw [hSFr]; exact hF2, hnodes1, hF4, hF5,
                hmid1⟩
          refine ⟨f2, cls2, r2, body2, ?_, hFI2, ?_, ?_, ?_, hrle, hcle,
            hext⟩
          · rw [absorbCut_zero hf0 hnode hlev h0]
            exact heq
          · intro v hv
            exact hmono v (hmono1 v hv)
          · intro v hv
            rcases hprov v hv with h | ⟨x, hx, he⟩
            · rcases hprov1 v h with h' | h'
              · exact Or.inl h'
              · exact Or.inr ⟨a, List.mem_cons_self a rest, h'⟩
            · exact Or.inr ⟨x, List.mem_cons_of_mem a hx, he⟩
          · intro x hx
            rcases List.mem_cons.mp hx with rfl | hm
            · exact hmono _ hcovself
            · exact hcov x hm
        · -- intermediate level: raise the reset level, extend the body
          have hbody1 : ∀ b ∈ body ++ [a.negated],
              litFalse s.assignments b ∧
              ∃ nd, s.derivation_graph.getD b.get_var.id none = some nd ∧
                1 ≤ nd.level ∧ nd.level ≤ max r node.level := by
            intro b hb
            rcases List.mem_append.mp hb with hb | hb
            · obtain ⟨h1, nd, h2, h3, h4⟩ := hF5 b hb
              exact ⟨h1, nd, h2, h3, by omega⟩
            · rw [List.mem_singleton] at hb
              subst hb
              refine ⟨litFalse_negated_iff.mpr hla, node, hnode,
                by omega, by omega⟩
          have hmid1 : ∀ v nd,
              (f.set a.get_var.id true).getD v false = true →
              s.derivation_graph.getD v none = some nd →
              1 ≤ nd.level → nd.level < s.assignment_stack.len →
              ({ var := { id := v }, polarity := !(polOf s v) } : Atom) ∈
                body ++ [a.negated] := by
            intro v nd hv hnd h1 h2
            by_cases he : a.get_var.id = v
            · subst he
              apply List.mem_append.mpr
              right
              rw [litTrue_polOf hla]
              rw [List.mem_singleton]
              rfl
            · rw [getD_set_other _ _ _ he] at hv
              exact List.mem_append.mpr
                (Or.inl (hF6 v nd hv hnd h1 h2))
          obtain ⟨f2, cls2, r2, body2, heq, hFI2, hmono, hprov, hcov,
            hrle, hcle, hext⟩ := ih (f.set a.get_var.id true) cls
              (max r node.level) (body ++ [a.negated]) hrest
              ⟨hflen, by rw [hSFr]; exact hF2, hnodes1,
                by rw [Nat.max_lt]; exact ⟨hF4, hlevlt⟩, hbody1, hmid1⟩
          obtain ⟨ext, hext⟩ := hext
          refine ⟨f2, cls2, r2, body2, ?_, hFI2, ?_, ?_, ?_,
            le_trans (le_max_left _ _) hrle, hcle,
            [a.negated] ++ ext, by rw [hext, List.append_assoc]⟩
          · rw [absorbCut_mid hf0 hnode hlev h0]
            exact heq
          · intro v hv
            exact hmono v (hmono1 v hv)
          · intro v hv
            rcases hprov v hv with h | ⟨x, hx, he⟩
            · rcases hprov1 v h with h' | h'
              · exact Or.inl h'
              · exact Or.inr ⟨a, List.mem_cons_self a rest, h'⟩
            · exact Or.inr ⟨x, List.mem_cons_of_mem a hx, he⟩
          · intro x hx
            rcases List.mem_cons.mp hx with rfl | hm
            · exact hmono _ hcovself
            · exact hcov x hm

theorem bool_ne_eq_not {b c : Bool} (h : b ≠ c) : b = !c := by
  cases b <;> cases c <;> simp_all

theorem take_succ_rev {α : Type} [Inhabited α] (l : List α) (k : Nat)
    (hk : k < l.length) :
    (l.take (k + 1)).reverse = l.getD k default :: (l.take k).reverse := by
  rw [getD_in l hk default, ← List.take_concat_get l k hk,
    List.concat_eq_append, List.reverse_append]
  simp

/-- The master theorem for the conflict-analysis loop.  Walking the
reversed current layer from position `k` downwards, with the running
invariant holding, at least one current-level frontier variable, all
current-level frontier variables within the first `k` layer positions,
and the resolution invariant, the loop returns (hitting none of the three
panics) a clause `mids ++ [piv.negated]` whose pivot is the first UIP: a
currently-true literal of the current level; the remaining literals are
falsified at levels in `[1, reset_level]` with `reset_level` below the
current level; and the clause is entailed by `F` whenever the semantic
hypotheses hold. -/
theorem analyseLoop_master (F : List Clause) {s : State}
    (hInv : CoreInv s) (hL : 1 ≤ s.assignment_stack.len)
    (hF0 : Forced0 F s) (hDS : DerivSem F s) :
    ∀ (k : Nat) (f : List Bool) (cls r : Nat) (body : List Atom),
      k ≤ s.assignment_stack.peek_stack.length →
      FrontInv s f cls r body →
      1 ≤ cls →
      (∀ v ∈ SFr s f, ∃ j, j < k ∧
        (s.assignment_stack.peek_stack.getD j default).get_var.id = v) →
      EntInv F s f body →
      ∃ piv r2 mids,
        analyseLoop s.derivation_graph s.assignment_stack.len
            ((s.assignment_stack.peek_stack.take k).reverse) f cls r
            body = some (Clause.new (mids ++ [piv.negated]), r2) ∧
        litTrue s.assignments piv ∧
        levelOf s piv.get_var.id = some s.assignment_stack.len ∧
        r2 < s.assignment_stack.len ∧
        (∀ b ∈ mids, litFalse s.assignments b ∧
          ∃ node, s.derivation_graph.getD b.get_var.id none = some node ∧
            1 ≤ node.level ∧ node.level ≤ r2) ∧
        (∀ ρ : Nat → Bool, cnfSatBy ρ F →
          clauseSatBy ρ (Clause.new (mids ++ [piv.negated]))) := by
  intro k
  induction k with
  | zero =>
    intro f cls r body hk hFI hcls hpos hEnt
    obtain ⟨v, hv⟩ := Finset.card_pos.mp (by
      rw [← hFI.2.1]
      omega)
    obtain ⟨j, hj, -⟩ := hpos v hv
    omega
  | succ k ih =>
    intro f cls r body hk hFI hcls hpos hEnt
    have hC := hInv
    obtain ⟨hW1, hW2, hW3, hW4, hA1, hA2, hA3, hA4, hL1, hG, hD⟩ := hC
    obtain ⟨hF1, hF2, hF3, hF4, hF5, hF6⟩ := hFI
    have hklt : k < s.assignment_stack.peek_stack.length := by omega
    have hLayerLen : s.assignment_stack.peek_stack.length =
        s.assignment_stack.values.length - topStart s := by
      rw [peek_stack_eq, List.length_drop]
    have hploc : topStart s + k < s.assignment_stack.values.length := by
      omega
    have hiter : ((s.assignment_stack.peek_stack.take (k + 1)).reverse :
        List Atom) =
        s.assignment_stack.peek_stack.getD k default ::
          (s.assignment_stack.peek_stack.take k).reverse :=
      take_succ_rev _ k hklt
    set A : Atom := s.assignment_stack.peek_stack.getD k default with hA
    have hatom : A = s.assignment_stack.values.getD (topStart s + k)
        default := by
      rw [hA, peek_stack_eq]
      exact getD_drop _ _ _ _ (by omega)
    have hmemv : A ∈ s.assignment_stack.values := by
      rw [hatom, getD_in _ hploc default]
      exact List.getElem_mem _
    have hlitA : litTrue s.assignments A := hA4 A hmemv
    have hvnA : A.get_var.id < s.assignments.length := hW4 A hmemv
    have hlevA : levelOf s A.get_var.id = some s.assignment_stack.len :=
      curLayer_level hInv hL hklt
    by_cases hf : f.getD A.get_var.id false = true
    · by_cases hcls1 : cls - 1 = 0
      · -- the pivot is the first UIP: return
        have hmemS : A.get_var.id ∈ SFr s f :=
          mem_SFr.mpr ⟨hvnA, hf, hlevA⟩
        have huniq := Finset.card_le_one.mp
          (by rw [← hF2]; omega : (SFr s f).card ≤ 1)
        rw [hiter, analyseLoop_uip hf hcls1]
        refine ⟨A, r, body, rfl, hlitA, hlevA, hF4, hF5, ?_⟩
        intro ρ hρ
        rcases hEnt ρ hρ with hsat | ⟨v, hv, hne⟩
        · obtain ⟨b, hb, hbt⟩ := hsat
          exact ⟨b, List.mem_append.mpr (Or.inl hb), hbt⟩
        · have hveq : v = A.get_var.id := huniq v hv _ hmemS
          subst hveq
          rw [litTrue_polOf hlitA] at hne
          refine ⟨A.negated, List.mem_append.mpr (Or.inr (by simp)), ?_⟩
          show ρ A.get_var.id = !A.polarity
          exact bool_ne_eq_not hne
      · obtain ⟨node, hnode⟩ := hF3 A.get_var.id hf
        cases node with
        | Guess lev =>
          -- the guess node is layer-initial, so this cannot happen
          have hlev : lev = s.assignment_stack.len := by
            unfold levelOf at hlevA
            rw [hnode] at hlevA
            simp only [Option.map_some', Option.some.injEq] at hlevA
            exact hlevA
          have hg := hG A.get_var.id hvnA
          unfold guessNodeCond at hg
          rw [hnode] at hg
          have hg3 : 1 ≤ lev ∧ lev ≤ s.assignment_stack.len ∧
              (s.assignment_stack.values.getD
                (s.assignment_stack.tops.getD (lev - 1) 0)
                default).get_var.id = A.get_var.id := hg
          have hlen : s.assignment_stack.len =
            s.assignment_stack.tops.length := rfl
          have htS : s.assignment_stack.tops.getD (lev - 1) 0 =
              topStart s := by
            rw [hlev, topStart_eq hL, hlen]
          have htlt : topStart s < s.assignment_stack.values.length := by
            omega
          have hidx1 := stackVars_indexOf hA3 htlt
          have hidx2 := stackVars_indexOf hA3 hploc
          rw [htS] at hg3
          rw [hg3.2.2] at hidx1
          rw [← hatom] at hidx2
          rw [hidx2] at hidx1
          have hk0 : k = 0 := by omega
          have hcard1 : (SFr s f).card ≤ 1 := by
            apply Finset.card_le_one.mpr
            intro x hx y hy
            obtain ⟨jx, hjx, hjxv⟩ := hpos x hx
            obtain ⟨jy, hjy, hjyv⟩ := hpos y hy
            have hjx0 : jx = 0 := by omega
            have hjy0 : jy = 0 := by omega
            rw [hjx0] at hjxv
            rw [hjy0] at hjyv
            rw [← hjxv, ← hjyv]
          omega
        | Derivation lev inputs =>
          have hd := hD A.get_var.id hvnA
          unfold derivNodeCond at hd
          rw [hnode] at hd
          have hd2 : ∀ a ∈ inputs, litTrue s.assignments a ∧
              (stackVars s).indexOf a.get_var.id <
                (stackVars s).indexOf A.get_var.id := hd
          have hidxA : (stackVars s).indexOf A.get_var.id =
              topStart s + k := by
            have := stackVars_indexOf hA3 hploc
            rw [← hatom] at this
            exact this
          -- remove the pivot from the frontier
          have hfset : ∀ v, (f.set A.get_var.id false).getD v false =
              true → f.getD v false = true ∧ v ≠ A.get_var.id := by
            intro v hv
            by_cases he : v = A.get_var.id
            · subst he
              rw [getD_set_default_self] at hv
              exact absurd hv (by simp)
            · rw [getD_set_other _ _ _ (fun x => he x.symm)] at hv
              exact ⟨hv, he⟩
          have hmemS : A.get_var.id ∈ SFr s f :=
            mem_SFr.mpr ⟨hvnA, hf, hlevA⟩
          have hFI' : FrontInv s (f.set A.get_var.id false) (cls - 1) r
              body := by
            refine ⟨by rw [List.length_set]; exact hF1, ?_, ?_, hF4, hF5,
              ?_⟩
            · rw [SFr_set_false, Finset.card_erase_of_mem hmemS, hF2]
            · intro v hv
              exact hF3 v (hfset v hv).1
            · intro v nd hv hnd h1 h2
              exact hF6 v nd (hfset v hv).1 hnd h1 h2
          obtain ⟨f2, cls2, r2', body2, hab, hFI2, hmono, hprov, hcov,
            hrle, hcle, ext, hext⟩ :=
            absorbCut_spec hInv hL inputs (f.set A.get_var.id false)
              (cls - 1) r body (fun a ha => (hd2 a ha).1) hFI'
          rw [hiter, analyseLoop_continue hf hcls1 hnode hab]
          apply ih f2 cls2 r2' body2 (by omega) hFI2 (by omega)
          · -- all current-level frontier variables sit below position k
            intro v hv
            rw [mem_SFr] at hv
            obtain ⟨hvn, hvf2, hvlev⟩ := hv
            rcases hprov v hvf2 with hvf' | ⟨x, hx, hxv⟩
            · obtain ⟨hvf, hvne⟩ := hfset v hvf'
              obtain ⟨j, hj, hjv⟩ := hpos v (mem_SFr.mpr ⟨hvn, hvf, hvlev⟩)
              refine ⟨j, ?_, hjv⟩
              rcases Nat.lt_or_ge j k with h | h
              · exact h
              · have hjk : j = k := by omega
                rw [hjk, ← hA] at hjv
                exact absurd hjv.symm hvne
            · -- a pivot input: strictly earlier on the stack
              have hvassigned : (s.assignments.getD v none).isSome := by
                obtain ⟨nd, hnd⟩ := hFI2.2.2.1 v hvf2
                exact (hA1 v hvn).mpr (by rw [hnd]; rfl)
              obtain ⟨j, hj, hjv⟩ :=
                level_top_in_curLayer hInv hL hvassigned hvlev
              refine ⟨j, ?_, hjv⟩
              have hjglob : (stackVars s).indexOf v = topStart s + j := by
                have hpl : topStart s + j <
                    s.assignment_stack.values.length := by
                  rw [hLayerLen] at hj
                  omega
                have := stackVars_indexOf hA3 hpl
                have hgetj : s.assignment_stack.peek_stack.getD j default =
                    s.assignment_stack.values.getD (topStart s + j)
                      default := by
                  rw [peek_stack_eq]
                  exact getD_drop _ _ _ _ hpl
                rw [← hgetj, hjv] at this
                exact this
              have hlt := (hd2 x hx).2
              rw [hidxA, hxv, hjglob] at hlt
              omega
          · -- the resolution invariant continues to hold
            intro ρ hρ
            rcases hEnt ρ hρ with hsat | ⟨v, hv, hne⟩
            · left
              obtain ⟨b, hb, hbt⟩ := hsat
              refine ⟨b, ?_, hbt⟩
              rw [hext]
              exact List.mem_append.mpr (Or.inl hb)
            · by_cases hva : v = A.get_var.id
              · subst hva
                by_cases hall : ∀ a ∈ inputs, ρ a.get_var.id = a.polarity
                · exact absurd (hDS A.get_var.id lev inputs hnode ρ hρ
                    hall) hne
                · push_neg at hall
                  obtain ⟨x, hx, hxne⟩ := hall
                  have hxtrue := (hd2 x hx).1
                  have hxpol := litTrue_polOf hxtrue
                  have hxvn : x.get_var.id < s.assignments.length :=
                    litTrue_var_lt hxtrue
                  obtain ⟨ndx, hndx⟩ := hFI2.2.2.1 x.get_var.id
                    (hcov x hx)
                  have hndxle := coreInv_levels_le hInv _ _ hndx
                  by_cases hxl : ndx.level = s.assignment_stack.len
                  · right
                    refine ⟨x.get_var.id, mem_SFr.mpr ⟨hxvn, hcov x hx,
                      ?_⟩, by rw [hxpol]; exact hxne⟩
                    unfold levelOf
                    rw [hndx]
                    simp only [Option.map_some']
                    rw [hxl]
                  · by_cases hx0 : ndx.level = 0
                    · have hforced := hF0 x.get_var.id (by
                        unfold levelOf
                        rw [hndx]
                        simp only [Option.map_some']
                        rw [hx0]) ρ hρ
                      rw [hxpol] at hforced
                      exact absurd hforced hxne
                    · left
                      have hmid := hFI2.2.2.2.2.2 x.get_var.id ndx
                        (hcov x hx) hndx (by omega) (by omega)
                      refine ⟨_, hmid, ?_⟩
                      show ρ x.get_var.id = !(polOf s x.get_var.id)
                      rw [hxpol]
                      exact bool_ne_eq_not hxne
              · right
                rw [mem_SFr] at hv
                have hvf' : (f.set A.get_var.id false).getD v false =
                    true := by
                  rw [getD_set_other _ _ _ (fun he => hva he.symm)]
                  exact hv.2.1
                exact ⟨v, SFr_mono hmono (mem_SFr.mpr
                  ⟨hv.1, hvf', hv.2.2⟩), hne⟩
    · -- not in the frontier: skip
      have hf0 : f.getD A.get_var.id false = false := by
        cases hg : f.getD A.get_var.id false
        · rfl
        · exact absurd hg hf
      rw [hiter, analyseLoop_skip hf0]
      apply ih f cls r body (by omega) ⟨hF1, hF2, hF3, hF4, hF5, hF6⟩
        hcls
      · intro v hv
        obtain ⟨j, hj, hjv⟩ := hpos v hv
        refine ⟨j, ?_, hjv⟩
        rcases Nat.lt_or_ge j k with h | h
        · exact h
        · have hjk : j = k := by omega
          rw [hjk, ← hA] at hjv
          rw [mem_SFr] at hv
          rw [hjv] at hf0
          rw [hv.2.1] at hf0
          exact absurd hf0 (by simp)
      · exact hEnt

/-- `analyse_conflict`, fully characterized on a conflict cut of
currently-true literals at least one of which sits at the current level:
it returns (no panic) a clause `mids ++ [piv.negated]` with `piv` the
first UIP (a currently-true current-level literal), `mids` falsified at
levels in `[1, reset_level]`, the reset level strictly below the current
level, and the clause entailed by `F` under the semantic hypotheses. -/
theorem analyse_conflict_spec (F : List Clause) {s : State}
    {inputs : List Atom} (hInv : CoreInv s)
    (hL : 1 ≤ s.assignment_stack.len)
    (hF0 : Forced0 F s) (hDS : DerivSem F s)
    (hin : ∀ a ∈ inputs, litTrue s.assignments a)
    (hcur : ∃ a ∈ inputs, levelOf s a.get_var.id =
      some s.assignment_stack.len)
    (hent : ∀ ρ : Nat → Bool, cnfSatBy ρ F →
      ∃ a ∈ inputs, ρ a.get_var.id ≠ a.polarity) :
    ∃ piv r2 mids,
      s.analyse_conflict inputs =
        some (Clause.new (mids ++ [piv.negated]), r2) ∧
      litTrue s.assignments piv ∧
      levelOf s piv.get_var.id = some s.assignment_stack.len ∧
      r2 < s.assignment_stack.len ∧
      (∀ b ∈ mids, litFalse s.assignments b ∧
        ∃ node, s.derivation_graph.getD b.get_var.id none = some node ∧
          1 ≤ node.level ∧ node.level ≤ r2) ∧
      (∀ ρ : Nat → Bool, cnfSatBy ρ F →
        clauseSatBy ρ (Clause.new (mids ++ [piv.negated]))) := by
  have hrep : ∀ v, (List.replicate s.assignments.length false).getD v
      false = false := by
    intro v
    by_cases h : v < s.assignments.length
    · rw [getD_in _ (by rw [List.length_replicate]; omega) false,
        List.getElem_replicate]
    · exact getD_oob _ _ (by rw [List.length_replicate]; omega)
  have hFI0 : FrontInv s (List.replicate s.assignments.length false) 0 0
      [] := by
    refine ⟨List.length_replicate _ _, ?_, ?_, hL, ?_, ?_⟩
    · rw [SFr_replicate_empty]
      rfl
    · intro v hv
      rw [hrep v] at hv
      exact absurd hv (by simp)
    · intro b hb
      exact absurd hb (List.not_mem_nil b)
    · intro v nd hv
      rw [hrep v] at hv
      exact absurd hv (by simp)
  obtain ⟨f1, cls1, r1, body1, hab, hFI1, hmono, hprov, hcov, -, -, -⟩ :=
    absorbCut_spec hInv hL inputs
      (List.replicate s.assignments.length false) 0 0 [] hin hFI0
  obtain ⟨a0, ha0, hlev0⟩ := hcur
  have hmem0 : a0.get_var.id ∈ SFr s f1 :=
    mem_SFr.mpr ⟨litTrue_var_lt (hin a0 ha0), hcov a0 ha0, hlev0⟩
  have hcls1 : 1 ≤ cls1 := by
    have hpos := Finset.card_pos.mpr ⟨a0.get_var.id, hmem0⟩
    have := hFI1.2.1
    omega
  have hA1 : AgreeGraph s := hInv.2.2.2.2.1
  obtain ⟨piv, r2, mids, heq, hp1, hp2, hp3, hp4, hp5⟩ :=
    analyseLoop_master F hInv hL hF0 hDS
      s.assignment_stack.peek_stack.length f1 cls1 r1 body1
      (le_refl _) hFI1 hcls1
      (by
        intro v hv
        rw [mem_SFr] at hv
        obtain ⟨hvn, hvf, hvlev⟩ := hv
        have hvassigned : (s.assignments.getD v none).isSome := by
          obtain ⟨nd, hnd⟩ := hFI1.2.2.1 v hvf
          exact (hA1 v hvn).mpr (by rw [hnd]; rfl)
        obtain ⟨j, hj, hjv⟩ :=
          level_top_in_curLayer hInv hL hvassigned hvlev
        exact ⟨j, hj, hjv⟩)
      (by
        intro ρ hρ
        obtain ⟨a, ha, hane⟩ := hent ρ hρ
        have hat := hin a ha
        have hapol := litTrue_polOf hat
        have havn : a.get_var.id < s.assignments.length :=
          litTrue_var_lt hat
        obtain ⟨nd, hnd⟩ := hFI1.2.2.1 a.get_var.id (hcov a ha)
        have hndle := coreInv_levels_le hInv _ _ hnd
        by_cases hal : nd.level = s.assignment_stack.len
        · right
          refine ⟨a.get_var.id, mem_SFr.mpr ⟨havn, hcov a ha, ?_⟩,
            by rw [hapol]; exact hane⟩
          unfold levelOf
          rw [hnd]
          simp only [Option.map_some']
          rw [hal]
        · by_cases ha0' : nd.level = 0
          · have hforced := hF0 a.get_var.id (by
              unfold levelOf
              rw [hnd]
              simp only [Option.map_some']
              rw [ha0']) ρ hρ
            rw [hapol] at hforced
            exact absurd hforced hane
          · left
            have hmid := hFI1.2.2.2.2.2 a.get_var.id nd (hcov a ha) hnd
              (by omega) (by omega)
            refine ⟨_, hmid, ?_⟩
            show ρ a.get_var.id = !(polOf s a.get_var.id)
            rw [hapol]
            exact bool_ne_eq_not hane)
  rw [List.take_length] at heq
  exact ⟨piv, r2, mids, by rw [analyse_conflict_eq hab]; exact heq,
    hp1, hp2, hp3, hp4, hp5⟩

/-- No assignment satisfies the empty clause (the degenerate clause list
used to instantiate the semantic parameters when only the operational
conclusions are needed). -/
theorem cnfSatBy_empty_clause (ρ : Nat → Bool) :
    ¬ cnfSatBy ρ [Clause.new []] := by
  intro h
  obtain ⟨a, ha, -⟩ := h (Clause.new []) (List.mem_singleton.mpr rfl)
  exact absurd ha (List.not_mem_nil a)

/-- Appending a clause over in-range variables preserves the core
invariant. -/
theorem coreInv_append_clause {s : State} (hInv : CoreInv s) {C : Clause}
    (hC : ∀ a ∈ C.body, a.get_var.id < s.assignments.length) :
    CoreInv { s with clauses := s.clauses ++ [C] } := by
  obtain ⟨h1, h2, h3, h4, h5, h6, h7, h8, h9, h10, h11⟩ := hInv
  refine ⟨h1, ?_, h3, h4, h5, h6, h7, h8, h9, h10, h11⟩
  intro c hc
  rcases List.mem_append.mp hc with h | h
  · exact h2 c h
  · rw [List.mem_singleton] at h
    subst h
    exact hC

theorem levelOf_some_node {s : State} {v lev : Nat}
    (h : levelOf s v = some lev) :
    ∃ node, s.derivation_graph.getD v none = some node ∧
      node.level = lev := by
  unfold levelOf at h
  cases hnd : s.derivation_graph.getD v none with
  | none => rw [hnd] at h; exact absurd h (by simp)
  | some nd =>
    rw [hnd] at h
    simp only [Option.map_some', Option.some.injEq] at h
    exact ⟨nd, rfl, h⟩

/-- The learned clause is asserting: falsified at the moment of learning,
and unit after the backjump, forcing the pivot's negation. -/
theorem learned_clause_asserting (s : State) (inputs : List Atom)
    (hInv : CoreInv s) (hL : 1 ≤ s.assignment_stack.len)
    (hin : ∀ a ∈ inputs, litTrue s.assignments a)
    (hcur : ∃ a ∈ inputs, levelOf s a.get_var.id =
      some s.assignment_stack.len) :
    ∃ C r2 piv,
      s.analyse_conflict inputs = some (C, r2) ∧
      r2 < s.assignment_stack.len ∧
      (∀ b ∈ C.body, litFalse s.assignments b) ∧
      litTrue s.assignments piv ∧
      levelOf s piv.get_var.id = some s.assignment_stack.len ∧
      (backjump { s with clauses := s.clauses ++ [C] }
          r2).assignment_stack.len = r2 ∧
      ∃ ins,
        C.unit_prop_clause
          (backjump { s with clauses := s.clauses ++ [C] }
            r2).assignments = .UnitProp ins piv.negated := by
  obtain ⟨piv, r2, mids, heq, hptrue, hplev, hrlt, hmids, -⟩ :=
    analyse_conflict_spec [Clause.new []] hInv hL
      (fun v hlev ρ hρ => absurd hρ (cnfSatBy_empty_clause ρ))
      (fun v lev ins hnd ρ hρ hall => absurd hρ (cnfSatBy_empty_clause ρ))
      hin hcur
      (fun ρ hρ => absurd hρ (cnfSatBy_empty_clause ρ))
  obtain ⟨pnode, hpnode, hpnlev⟩ := levelOf_some_node hplev
  have hCrange : ∀ a ∈ (Clause.new (mids ++ [piv.negated])).body,
      a.get_var.id < s.assignments.length := by
    intro a ha
    rcases List.mem_append.mp ha with h | h
    · obtain ⟨-, nd, hnd, -, -⟩ := hmids a h
      exact node_var_lt hInv.1 hnd
    · rw [List.mem_singleton] at h
      subst h
      exact node_var_lt hInv.1 hpnode
  have hInv' : CoreInv { s with clauses :=
      s.clauses ++ [Clause.new (mids ++ [piv.negated])] } :=
    coreInv_append_clause hInv hCrange
  have hT' : r2 < ({ s with clauses :=
      s.clauses ++ [Clause.new (mids ++ [piv.negated])] } :
      State).assignment_stack.len := hrlt
  obtain ⟨-, -, -, b4, -, b6, -⟩ :=
    backjump_spec (({ s with clauses :=
        s.clauses ++ [Clause.new (mids ++ [piv.negated])] } :
        State).assignment_stack.len - r2) _ r2 hInv'.2.2.1 rfl
      (Nat.le_of_lt hT')
  have hdropP : piv.get_var.id ∈ droppedVars
      { s with clauses := s.clauses ++ [Clause.new (mids ++
        [piv.negated])] } r2 :=
    (droppedVars_iff hInv' hT' _).mpr ⟨pnode, hpnode, by omega⟩
  have hnotdrop : ∀ b ∈ mids, b.get_var.id ∉ droppedVars
      { s with clauses := s.clauses ++ [Clause.new (mids ++
        [piv.negated])] } r2 := by
    intro b hb hmemd
    obtain ⟨nd', hnd', hgt⟩ := (droppedVars_iff hInv' hT' _).mp hmemd
    obtain ⟨-, nd, hnd, -, hndle⟩ := hmids b hb
    have hgg : ({ s with clauses := s.clauses ++ [Clause.new (mids ++
        [piv.negated])] } : State).derivation_graph =
        s.derivation_graph := rfl
    rw [hgg, hnd] at hnd'
    rw [← Option.some.inj hnd'] at hgt
    omega
  have hslotP : (backjump { s with clauses := s.clauses ++
      [Clause.new (mids ++ [piv.negated])] } r2).assignments.getD
      piv.get_var.id none = none := by
    rw [b6, if_pos hdropP]
  have hslotM : ∀ b ∈ mids, (backjump { s with clauses := s.clauses ++
      [Clause.new (mids ++ [piv.negated])] } r2).assignments.getD
      b.get_var.id none = s.assignments.getD b.get_var.id none := by
    intro b hb
    rw [b6, if_neg (hnotdrop b hb)]
  have hunsetP : litUnset (backjump { s with clauses := s.clauses ++
      [Clause.new (mids ++ [piv.negated])] } r2).assignments
      piv.negated := by
    show (backjump _ r2).assignments.getD piv.negated.get_var.id none =
      none
    exact hslotP
  have hfalseM : ∀ b ∈ mids, litFalse (backjump { s with clauses :=
      s.clauses ++ [Clause.new (mids ++ [piv.negated])] }
      r2).assignments b := by
    intro b hb
    show (backjump _ r2).assignments.getD b.get_var.id none =
      some (!b.polarity)
    rw [hslotM b hb]
    exact (hmids b hb).1
  have hfil : (mids ++ [piv.negated]).filter
      (unsetB (backjump { s with clauses := s.clauses ++
        [Clause.new (mids ++ [piv.negated])] } r2).assignments) =
      [piv.negated] := by
    rw [List.filter_append]
    have h1 : mids.filter (unsetB (backjump { s with clauses :=
        s.clauses ++ [Clause.new (mids ++ [piv.negated])] }
        r2).assignments) = [] := by
      rw [List.filter_eq_nil]
      intro b hb
      rw [unsetB_iff]
      exact litFalse_not_litUnset (hfalseM b hb)
    have h2 : [piv.negated].filter (unsetB (backjump { s with clauses :=
        s.clauses ++ [Clause.new (mids ++ [piv.negated])] }
        r2).assignments) = [piv.negated] := by
      rw [List.filter_cons_of_pos (unsetB_iff.mpr hunsetP)]
      rfl
    rw [h1, h2]
    rfl
  refine ⟨Clause.new (mids ++ [piv.negated]), r2, piv, heq, hrlt, ?_,
    hptrue, hplev, ?_, ?_⟩
  · intro b hb
    rcases List.mem_append.mp hb with h | h
    · exact (hmids b h).1
    · rw [List.mem_singleton] at h
      subst h
      exact litFalse_negated_iff.mpr hptrue
  · show (backjump _ r2).assignment_stack.tops.length = r2
    rw [b4, List.length_take]
    have hlk : s.assignment_stack.len =
      s.assignment_stack.tops.length := rfl
    have hlk2 : ({ s with clauses := s.clauses ++ [Clause.new (mids ++
        [piv.negated])] } : State).assignment_stack.tops =
        s.assignment_stack.tops := rfl
    rw [hlk2]
    omega
  · refine ⟨_, (upc_unitProp_iff _ _ _ _).mpr
      ⟨List.mem_append.mpr (Or.inr (List.mem_singleton.mpr rfl)),
        hunsetP, hfil, ?_, rfl⟩⟩
    intro a ha
    rcases List.mem_append.mp ha with h | h
    · exact Or.inr (hfalseM a h)
    · rw [List.mem_singleton] at h
      subst h
      exact Or.inl hunsetP

/-- C4: whenever `analyse_conflict` is invoked by `sat()` on the reasons
of a conflict at decision level `≥ 1` (the reasons are currently-true
literals, at least one at the current level, on a structurally sound
state), it returns a learned clause and reset level such that: the
learned clause is falsified by the assignment at the moment of learning;
the reset level is below the current level; and after the backjump of
`sat()` (applied to the state with the learned clause appended) the
number of open levels is the reset level and the learned clause is unit,
forcing the negation of the pivot (first-UIP) literal, which was a
currently-true current-level literal. -/
theorem claim_C4_learned_clause_asserting (s : State) (inputs : List Atom)
    (hInv : CoreInv s) (hL : 1 ≤ s.assignment_stack.len)
    (hin : ∀ a ∈ inputs, litTrue s.assignments a)
    (hcur : ∃ a ∈ inputs, levelOf s a.get_var.id =
      some s.assignment_stack.len) :
    ∃ C r2 piv,
      s.analyse_conflict inputs = some (C, r2) ∧
      r2 < s.assignment_stack.len ∧
      (∀ b ∈ C.body, litFalse s.assignments b) ∧
      litTrue s.assignments piv ∧
      levelOf s piv.get_var.id = some s.assignment_stack.len ∧
      (backjump { s with clauses := s.clauses ++ [C] }
          r2).assignment_stack.len = r2 ∧
      ∃ ins,
        C.unit_prop_clause
          (backjump { s with clauses := s.clauses ++ [C] }
            r2).assignments = .UnitProp ins piv.negated :=
  learned_clause_asserting s inputs hInv hL hin hcur

/-- Witness for C4 on the repository's own conflict-analysis test state:
clauses `(!a ∨ b)` and `(!a ∨ !b)`, `a` guessed true at level 1, `!b`
derived at level 1; the conflict cut comes from the falsified clause
`(!a ∨ b)`. -/
theorem claim_C4_witness :
    CoreInv
      { clauses :=
          [Clause.new [{ var := { id := 0 }, polarity := false },
                       { var := { id := 1 }, polarity := true }],
           Clause.new [{ var := { id := 0 }, polarity := false },
                       { var := { id := 1 }, polarity := false }]]
        assignment_stack :=
          { values := [{ var := { id := 0 }, polarity := true },
                       { var := { id := 1 }, polarity := false }],
            tops := [0] }
        assignments := [some true, some false]
        derivation_graph :=
          [some (.Guess 1),
           some (.Derivation 1 [{ var := { id := 0 }, polarity := true }])]
      } ∧
    (∃ C r2 piv,
      State.analyse_conflict
        { clauses :=
            [Clause.new [{ var := { id := 0 }, polarity := false },
                         { var := { id := 1 }, polarity := true }],
             Clause.new [{ var := { id := 0 }, polarity := false },
                         { var := { id := 1 }, polarity := false }]]
          assignment_stack :=
            { values := [{ var := { id := 0 }, polarity := true },
                         { var := { id := 1 }, polarity := false }],
              tops := [0] }
          assignments := [some true, some false]
          derivation_graph :=
            [some (.Guess 1),
             some (.Derivation 1
               [{ var := { id := 0 }, polarity := true }])] }
        [{ var := { id := 0 }, polarity := true },
         { var := { id := 1 }, polarity := false }] = some (C, r2) ∧
      r2 <
        ({ clauses :=
            [Clause.new [{ var := { id := 0 }, polarity := false },
                         { var := { id := 1 }, polarity := true }],
             Clause.new [{ var := { id := 0 }, polarity := false },
                         { var := { id := 1 }, polarity := false }]]
           assignment_stack :=
             { values := [{ var := { id := 0 }, polarity := true },
                          { var := { id := 1 }, polarity := false }],
               tops := [0] }
           assignments := [some true, some false]
           derivation_graph :=
             [some (.Guess 1),
              some (.Derivation 1
                [{ var := { id := 0 }, polarity := true }])] } :
          State).assignment_stack.len ∧
      (∀ b ∈ C.body, litFalse [some true, some false] b) ∧
      litTrue [some true, some false] piv ∧
      levelOf
        { clauses :=
            [Clause.new [{ var := { id := 0 }, polarity := false },
                         { var := { id := 1 }, polarity := true }],
             Clause.new [{ var := { id := 0 }, polarity := false },
                         { var := { id := 1 }, polarity := false }]]
          assignment_stack :=
            { values := [{ var := { id := 0 }, polarity := true },
                         { var := { id := 1 }, polarity := false }],
              tops := [0] }
          assignments := [some true, some false]
          derivation_graph :=
            [some (.Guess 1),
             some (.Derivation 1
               [{ var := { id := 0 }, polarity := true }])] }
        piv.get_var.id =
        some
          ({ clauses :=
              [Clause.new [{ var := { id := 0 }, polarity := false },
                           { var := { id := 1 }, polarity := true }],
               Clause.new [{ var := { id := 0 }, polarity := false },
                           { var := { id := 1 }, polarity := false }]]
             assignment_stack :=
               { values := [{ var := { id := 0 }, polarity := true },
                            { var := { id := 1 }, polarity := false }],
                 tops := [0] }
             assignments := [some true, some false]
             derivation_graph :=
               [some (.Guess 1),
                some (.Derivation 1
                  [{ var := { id := 0 }, polarity := true }])] } :
            State).assignment_stack.len ∧
      (backjump
          { clauses :=
              [Clause.new [{ var := { id := 0 }, polarity := false },
                           { var := { id := 1 }, polarity := true }],
               Clause.new [{ var := { id := 0 }, polarity := false },
                           { var := { id := 1 }, polarity := false }],
               C]
            assignment_stack :=
              { values := [{ var := { id := 0 }, polarity := true },
                           { var := { id := 1 }, polarity := false }],
                tops := [0] }
            assignments := [some true, some false]
            derivation_graph :=
              [some (.Guess 1),
               some (.Derivation 1
                 [{ var := { id := 0 }, polarity := true }])] }
          r2).assignment_stack.len = r2 ∧
      ∃ ins,
        C.unit_prop_clause
          (backjump
            { clauses :=
                [Clause.new [{ var := { id := 0 }, polarity := false },
                             { var := { id := 1 }, polarity := true }],
                 Clause.new [{ var := { id := 0 }, polarity := false },
                             { var := { id := 1 }, polarity := false }],
                 C]
              assignment_stack :=
                { values := [{ var := { id := 0 }, polarity := true },
                             { var := { id := 1 }, polarity := false }],
                  tops := [0] }
              assignments := [some true, some false]
              derivation_graph :=
                [some (.Guess 1),
                 some (.Derivation 1
                   [{ var := { id := 0 }, polarity := true }])] }
            r2).assignments = .UnitProp ins piv.negated) :=
  ⟨by decide,
   claim_C4_learned_clause_asserting
     { clauses :=
         [Clause.new [{ var := { id := 0 }, polarity := false },
                      { var := { id := 1 }, polarity := true }],
          Clause.new [{ var := { id := 0 }, polarity := false },
                      { var := { id := 1 }, polarity := false }]]
       assignment_stack :=
         { values := [{ var := { id := 0 }, polarity := true },
                      { var := { id := 1 }, polarity := false }],
           tops := [0] }
       assignments := [some true, some false]
       derivation_graph :=
         [some (.Guess 1),
          some (.Derivation 1 [{ var := { id := 0 }, polarity := true }])]
     }
     [{ var := { id := 0 }, polarity := true },
      { var := { id := 1 }, polarity := false }]
     (by decide) (by decide) (by decide) (by decide)⟩

/-! ## Helpers for the push-style mutations (`installUnit`, `make_guess`) -/

theorem getD_append_lt {α : Type} (l l' : List α) {p : Nat} (d : α)
    (hp : p < l.length) : (l ++ l').getD p d = l.getD p d := by
  rw [getD_in _ (by rw [List.length_append]; omega) d, getD_in _ hp d]
  rw [List.getElem_append]
  exact dif_pos hp

theorem getD_append_self {α : Type} (l : List α) (x : α) (d : α) :
    (l ++ [x]).getD l.length d = x := by
  rw [getD_in _ (by rw [List.length_append]; simp) d]
  exact List.getElem_concat_length l x l.length rfl _

theorem chain_lt_snoc_le {l : List Nat} {a b : Nat}
    (h : List.Chain' (· < ·) (l ++ [a])) (hab : a ≤ b) :
    List.Chain' (· < ·) (l ++ [b]) := by
  obtain ⟨h1, -, h3⟩ := List.chain'_append.mp h
  rw [List.chain'_append]
  refine ⟨h1, List.chain'_singleton b, ?_⟩
  intro x hx y hy
  simp only [List.head?_cons, Option.mem_def, Option.some.injEq] at hy
  subst hy
  have := h3 x hx a (by simp)
  omega

/-- The position just past the stack is at level `len`. -/
theorem posLevel_full {s : State} (hW : WfTops s) :
    posLevel s.assignment_stack.tops s.assignment_stack.values.length =
      s.assignment_stack.tops.length := by
  unfold posLevel
  rw [List.countP_eq_length]
  intro t ht
  obtain ⟨i, hi, hti⟩ := List.getElem_of_mem ht
  have hlt := wfTops_lt_values hW hi
  rw [getD_in _ hi 0, hti] at hlt
  simp only [decide_eq_true_eq]
  omega

/-- An unset variable is absent from the stack. -/
theorem unset_not_on_stack {s : State} (hInv : CoreInv s) {v : Nat}
    (hv : s.assignments.getD v none = none) : v ∉ stackVars s := by
  intro hmem
  by_cases hvn : v < s.assignments.length
  · have := (hInv.2.2.2.2.2.1 v hvn).mpr hmem
    rw [hv] at this
    exact absurd this (by simp)
  · obtain ⟨a, ha, hav⟩ := List.mem_map.mp hmem
    have := hInv.2.2.2.1 a ha
    omega

/-- An unset variable has no graph node. -/
theorem unset_no_node {s : State} (hInv : CoreInv s) {v : Nat}
    (hv : s.assignments.getD v none = none) :
    s.derivation_graph.getD v none = none := by
  by_cases hvn : v < s.assignments.length
  · have := (hInv.2.2.2.2.1 v hvn).not.mp (by rw [hv]; simp)
    exact Option.not_isSome_iff_eq_none.mp this
  · exact getD_oob _ _ (by rw [hInv.1]; omega)

/-- A currently-true literal's variable is on the stack. -/
theorem litTrue_on_stack {s : State} (hInv : CoreInv s) {a : Atom}
    (h : litTrue s.assignments a) : a.get_var.id ∈ stackVars s := by
  apply (hInv.2.2.2.2.2.1 a.get_var.id (litTrue_var_lt h)).mp
  unfold litTrue at h
  rw [h]
  rfl

theorem guessNodeCondAux_guess (s : State) (v lev : Nat) :
    guessNodeCondAux s v (some (.Guess lev)) =
      (1 ≤ lev ∧ lev ≤ s.assignment_stack.len ∧
        (s.assignment_stack.values.getD
          (s.assignment_stack.tops.getD (lev - 1) 0)
          default).get_var.id = v) := rfl

theorem derivNodeCondAux_deriv (s : State) (v lev : Nat)
    (ins : List Atom) :
    derivNodeCondAux s v (some (.Derivation lev ins)) =
      (∀ a ∈ ins, litTrue s.assignments a ∧
        (stackVars s).indexOf a.get_var.id <
          (stackVars s).indexOf v) := rfl

/-- Installing a propagated unit (an unset output with currently-true
reason literals) preserves the core invariant. -/
theorem installUnit_coreInv {s : State} {inputs : List Atom}
    {output : Atom} (hInv : CoreInv s)
    (hunset : s.assignments.getD output.get_var.id none = none)
    (hvn : output.get_var.id < s.assignments.length)
    (hins : ∀ a ∈ inputs, litTrue s.assignments a) :
    CoreInv (installUnit s inputs output) := by
  have hC := hInv
  obtain ⟨hW1, hW2, hW3, hW4, hA1, hA2, hA3, hA4, hL1, hG, hD⟩ := hC
  have hgr : (installUnit s inputs output).derivation_graph =
      s.derivation_graph.set output.get_var.id
        (some (.Derivation s.assignment_stack.len inputs)) := rfl
  have hassn : (installUnit s inputs output).assignments =
      s.assignments.set output.get_var.id (some output.polarity) := rfl
  have hvals : (installUnit s inputs output).assignment_stack.values =
      s.assignment_stack.values ++ [output] := rfl
  have htops : (installUnit s inputs output).assignment_stack.tops =
      s.assignment_stack.tops := rfl
  have hlen : (installUnit s inputs output).assignment_stack.len =
      s.assignment_stack.len := rfl
  have hv0g : output.get_var.id < s.derivation_graph.length := by
    rw [hW1]
    omega
  have hsv : stackVars (installUnit s inputs output) =
      stackVars s ++ [output.get_var.id] := by
    unfold stackVars
    rw [hvals, List.map_append]
    rfl
  have hne_of_true : ∀ {a : Atom}, litTrue s.assignments a →
      output.get_var.id ≠ a.get_var.id := by
    intro a hat he
    unfold litTrue at hat
    rw [← he, hunset] at hat
    exact absurd hat (by simp)
  refine ⟨?_, ?_, ?_, ?_, ?_, ?_, ?_, ?_, ?_, ?_, ?_⟩
  · unfold WfLens
    rw [hgr, hassn, List.length_set, List.length_set]
    exact hW1
  · intro c hc a ha
    rw [hassn, List.length_set]
    exact hW2 c hc a ha
  · unfold WfTops
    rw [htops, hvals, List.length_append, List.length_singleton]
    exact chain_lt_snoc_le hW3 (by omega)
  · intro a ha
    rw [hvals] at ha
    rw [hassn, List.length_set]
    rcases List.mem_append.mp ha with h | h
    · exact hW4 a h
    · rw [List.mem_singleton] at h
      subst h
      exact hvn
  · intro v hv
    rw [hassn, List.length_set] at hv
    rw [hassn, hgr]
    by_cases he : output.get_var.id = v
    · rw [← he, getD_set_self _ _ _ _ (by omega),
        getD_set_self _ _ _ _ hv0g]
      simp
    · rw [getD_set_other _ _ _ he, getD_set_other _ _ _ he]
      exact hA1 v hv
  · intro v hv
    rw [hassn, List.length_set] at hv
    rw [hassn, hsv, List.mem_append]
    by_cases he : output.get_var.id = v
    · rw [← he, getD_set_self _ _ _ _ (by omega)]
      constructor
      · intro h
        exact Or.inr (List.mem_singleton.mpr rfl)
      · intro h
        rfl
    · rw [getD_set_other _ _ _ he]
      constructor
      · intro h
        exact Or.inl ((hA2 v hv).mp h)
      · rintro (h | h)
        · exact (hA2 v hv).mpr h
        · rw [List.mem_singleton] at h
          exact absurd h.symm he
  · unfold StackNodup
    rw [hsv, List.nodup_append]
    refine ⟨hA3, List.nodup_singleton _, ?_⟩
    intro x hx hx'
    rw [List.mem_singleton] at hx'
    subst hx'
    exact unset_not_on_stack hInv hunset hx
  · intro a ha
    rw [hvals] at ha
    rw [hassn]
    rcases List.mem_append.mp ha with h | h
    · have hne : output.get_var.id ≠ a.get_var.id :=
        hne_of_true (hA4 a h)
      rw [getD_set_other _ _ _ hne]
      exact hA4 a h
    · rw [List.mem_singleton] at h
      subst h
      rw [getD_set_self _ _ _ _ (by omega)]
  · intro p hp
    rw [hvals, List.length_append, List.length_singleton] at hp
    rw [hvals, htops, hgr]
    rcases Nat.lt_or_ge p s.assignment_stack.values.length with h | h
    · rw [getD_append_lt _ _ _ h]
      have hmem : s.assignment_stack.values.getD p default ∈
          s.assignment_stack.values := by
        rw [getD_in _ h default]
        exact List.getElem_mem _
      have hne : output.get_var.id ≠
          (s.assignment_stack.values.getD p default).get_var.id :=
        hne_of_true (hA4 _ hmem)
      rw [getD_set_other _ _ _ hne]
      exact hL1 p h
    · have hpe : p = s.assignment_stack.values.length := by omega
      subst hpe
      rw [getD_append_self, getD_set_self _ _ _ _ hv0g]
      rw [posLevel_full hW3]
      rfl
  · intro v hv
    rw [hassn, List.length_set] at hv
    unfold guessNodeCond
    rw [hgr]
    by_cases he : output.get_var.id = v
    · rw [← he, getD_set_self _ _ _ _ hv0g]
      exact trivial
    · rw [getD_set_other _ _ _ he]
      cases hold : s.derivation_graph.getD v none with
      | none => exact trivial
      | some nd =>
        cases nd with
        | Derivation l i => exact trivial
        | Guess lev =>
          have hg := hG v hv
          unfold guessNodeCond at hg
          rw [hold] at hg
          rw [guessNodeCondAux_guess] at hg ⊢
          rw [hlen, hvals, htops]
          have hlk : s.assignment_stack.len =
            s.assignment_stack.tops.length := rfl
          refine ⟨hg.1, hg.2.1, ?_⟩
          rw [getD_append_lt _ _ _ (wfTops_lt_values hW3 (by omega))]
          exact hg.2.2
  · intro v hv
    rw [hassn, List.length_set] at hv
    unfold derivNodeCond
    rw [hgr]
    by_cases he : output.get_var.id = v
    · rw [← he, getD_set_self _ _ _ _ hv0g]
      rw [derivNodeCondAux_deriv]
      intro a ha
      have hat := hins a ha
      have hane := hne_of_true hat
      constructor
      · unfold litTrue
        rw [hassn, getD_set_other _ _ _ hane]
        exact hat
      · rw [hsv,
          List.indexOf_append_of_mem (litTrue_on_stack hInv hat),
          List.indexOf_append_of_not_mem
            (unset_not_on_stack hInv hunset),
          List.indexOf_cons_self]
        have h1 := List.indexOf_lt_length.mpr
          (litTrue_on_stack hInv hat)
        omega
    · rw [getD_set_other _ _ _ he]
      cases hold : s.derivation_graph.getD v none with
      | none => exact trivial
      | some nd =>
        cases nd with
        | Guess lev => exact trivial
        | Derivation lev ins =>
          have hd := hD v hv
          unfold derivNodeCond at hd
          rw [hold] at hd
          rw [derivNodeCondAux_deriv] at hd ⊢
          intro a ha
          obtain ⟨hat, hidx⟩ := hd a ha
          have hane := hne_of_true hat
          have hvmem : v ∈ stackVars s := by
            apply (hA2 v hv).mp
            apply (hA1 v hv).mpr
            rw [hold]
            rfl
          constructor
          · unfold litTrue
            rw [hassn, getD_set_other _ _ _ hane]
            exact hat
          · rw [hsv,
              List.indexOf_append_of_mem (litTrue_on_stack hInv hat),
              List.indexOf_append_of_mem hvmem]
            exact hidx

/-- The observable frame of a propagation scan: clauses and the level
structure are untouched, array sizes are kept, assigned variables keep
their slots and nodes, and every newly assigned variable gets a node at
the current level. -/
def ScanFrame (s s' : State) : Prop :=
  s'.clauses = s.clauses ∧
  s'.assignment_stack.tops = s.assignment_stack.tops ∧
  s'.assignments.length = s.assignments.length ∧
  s'.derivation_graph.length = s.derivation_graph.length ∧
  (∀ v, s.assignments.getD v none ≠ none →
    s'.assignments.getD v none = s.assignments.getD v none ∧
    s'.derivation_graph.getD v none = s.derivation_graph.getD v none) ∧
  (∀ v, s.assignments.getD v none = none →
    (s'.assignments.getD v none = none ∧
      s'.derivation_graph.getD v none =
        s.derivation_graph.getD v none) ∨
    ((s'.derivation_graph.getD v none).map DerivationGraphNode.level =
      some s.assignment_stack.len ∧
      s'.assignments.getD v none ≠ none))

theorem scanFrame_refl (s : State) : ScanFrame s s :=
  ⟨rfl, rfl, rfl, rfl, fun v h => ⟨rfl, rfl⟩,
    fun v h => Or.inl ⟨h, rfl⟩⟩

theorem scanFrame_trans {s s' s'' : State} (h1 : ScanFrame s s')
    (h2 : ScanFrame s' s'') : ScanFrame s s'' := by
  obtain ⟨a1, a2, a3, a4, a5, a6⟩ := h1
  obtain ⟨b1, b2, b3, b4, b5, b6⟩ := h2
  have hlen : s'.assignment_stack.len = s.assignment_stack.len := by
    unfold StackStack.len
    rw [a2]
  refine ⟨by rw [b1, a1], by rw [b2, a2], by rw [b3, a3],
    by rw [b4, a4], ?_, ?_⟩
  · intro v hv
    obtain ⟨c1, c2⟩ := a5 v hv
    obtain ⟨d1, d2⟩ := b5 v (by rw [c1]; exact hv)
    exact ⟨by rw [d1, c1], by rw [d2, c2]⟩
  · intro v hv
    rcases a6 v hv with ⟨c1, c2⟩ | ⟨c1, c2⟩
    · rcases b6 v c1 with ⟨d1, d2⟩ | ⟨d1, d2⟩
      · exact Or.inl ⟨d1, by rw [d2, c2]⟩
      · rw [hlen] at d1
        exact Or.inr ⟨d1, d2⟩
    · obtain ⟨d1, d2⟩ := b5 v c2
      exact Or.inr ⟨by rw [d2]; exact c1, by rw [d1]; exact c2⟩

theorem installUnit_frame {s : State} {inputs : List Atom}
    {output : Atom}
    (hunset : s.assignments.getD output.get_var.id none = none)
    (hvn : output.get_var.id < s.assignments.length)
    (hvg : output.get_var.id < s.derivation_graph.length) :
    ScanFrame s (installUnit s inputs output) := by
  have hgr : (installUnit s inputs output).derivation_graph =
      s.derivation_graph.set output.get_var.id
        (some (.Derivation s.assignment_stack.len inputs)) := rfl
  have hassn : (installUnit s inputs output).assignments =
      s.assignments.set output.get_var.id (some output.polarity) := rfl
  refine ⟨rfl, rfl, by rw [hassn, List.length_set],
    by rw [hgr, List.length_set], ?_, ?_⟩
  · intro v hv
    have hne : output.get_var.id ≠ v := by
      intro he
      rw [← he, hunset] at hv
      exact absurd rfl hv
    rw [hassn, hgr, getD_set_other _ _ _ hne, getD_set_other _ _ _ hne]
    exact ⟨rfl, rfl⟩
  · intro v hv
    by_cases he : output.get_var.id = v
    · right
      rw [← he, hassn, hgr, getD_set_self _ _ _ _ hvn,
        getD_set_self _ _ _ _ hvg]
      exact ⟨rfl, by simp⟩
    · left
      rw [hassn, hgr, getD_set_other _ _ _ he, getD_set_other _ _ _ he]
      exact ⟨hv, rfl⟩

/-- Installing a unit found by `unit_prop_clause` on a current clause
preserves the whole solver invariant. -/
theorem installUnit_solverInv {F : List Clause} {s : State} {c : Clause}
    {inputs : List Atom} {output : Atom} (hInv : SolverInv F s)
    (hc : c ∈ s.clauses)
    (hupc : c.unit_prop_clause s.assignments = .UnitProp inputs output) :
    SolverInv F (installUnit s inputs output) := by
  obtain ⟨hCore, hTI, hCE, hF0, hDS⟩ := hInv
  obtain ⟨hmemo, hunseto, hfilo, hallo, hinso⟩ :=
    (upc_unitProp_iff c s.assignments inputs output).mp hupc
  have hunset : s.assignments.getD output.get_var.id none = none :=
    hunseto
  have hvn : output.get_var.id < s.assignments.length :=
    hCore.2.1 c hc output hmemo
  have hins : ∀ a ∈ inputs, litTrue s.assignments a := by
    intro a ha
    rw [hinso] at ha
    obtain ⟨b, hb, hba⟩ := List.mem_map.mp ha
    rw [← hba]
    rw [litTrue_negated_iff]
    exact of_decide_eq_true (List.mem_filter.mp hb).2
  have hgr : (installUnit s inputs output).derivation_graph =
      s.derivation_graph.set output.get_var.id
        (some (.Derivation s.assignment_stack.len inputs)) := rfl
  have hassn : (installUnit s inputs output).assignments =
      s.assignments.set output.get_var.id (some output.polarity) := rfl
  have hlen : (installUnit s inputs output).assignment_stack.len =
      s.assignment_stack.len := rfl
  have hv0g : output.get_var.id < s.derivation_graph.length := by
    rw [hCore.1]
    omega
  have hcl : (installUnit s inputs output).clauses = s.clauses := rfl
  have hout_unique : ∀ b ∈ c.body, litUnset s.assignments b →
      b = output := by
    intro b hb hu
    have : b ∈ c.body.filter (unsetB s.assignments) :=
      List.mem_filter.mpr ⟨hb, unsetB_iff.mpr hu⟩
    rw [hfilo] at this
    exact List.mem_singleton.mp this
  have hsat_forces : ∀ ρ : Nat → Bool, cnfSatBy ρ F →
      (∀ a ∈ inputs, ρ a.get_var.id = a.polarity) →
      ρ output.get_var.id = output.polarity := by
    intro ρ hρ hall
    obtain ⟨b, hb, hbt⟩ := hCE c hc ρ hρ
    rcases hallo b hb with hu | hf
    · rw [hout_unique b hb hu] at hbt
      exact hbt
    · have hbneg : b.negated ∈ inputs := by
        rw [hinso]
        apply List.mem_map.mpr
        exact ⟨b, List.mem_filter.mpr ⟨hb, decide_eq_true hf⟩, rfl⟩
      have := hall b.negated hbneg
      have h2 : ρ b.get_var.id = !b.polarity := this
      rw [hbt] at h2
      exact absurd h2 (by simp)
  refine ⟨installUnit_coreInv hCore hunset hvn hins, ?_, ?_, ?_, ?_⟩
  · -- TopInv
    intro hL' c' hc' hfalse
    rw [hcl] at hc'
    by_cases hex : ∃ a ∈ c'.body, a.get_var.id = output.get_var.id
    · obtain ⟨a, ha, hav⟩ := hex
      refine ⟨a, ha, ?_⟩
      unfold levelOf
      rw [hgr, hav, getD_set_self _ _ _ _ hv0g]
      rfl
    · push_neg at hex
      have hfalse0 : ∀ a ∈ c'.body, litFalse s.assignments a := by
        intro a ha
        have hne : output.get_var.id ≠ a.get_var.id :=
          fun he => hex a ha he.symm
        have := hfalse a ha
        unfold litFalse at this ⊢
        rw [hassn, getD_set_other _ _ _ hne] at this
        exact this
      obtain ⟨a, ha, halev⟩ := hTI hL' c' hc' hfalse0
      refine ⟨a, ha, ?_⟩
      obtain ⟨nd, hnd, -⟩ := levelOf_some_node halev
      have hne : output.get_var.id ≠ a.get_var.id := by
        intro he
        rw [← he, unset_no_node hCore hunset] at hnd
        exact absurd hnd (by simp)
      unfold levelOf at halev ⊢
      rw [hgr, getD_set_other _ _ _ hne]
      exact halev
  · -- ClausesEnt
    intro c' hc' ρ hρ
    rw [hcl] at hc'
    exact hCE c' hc' ρ hρ
  · -- Forced0
    intro v hlev ρ hρ
    by_cases he : output.get_var.id = v
    · have hlen0 : s.assignment_stack.len = 0 := by
        unfold levelOf at hlev
        rw [hgr, ← he, getD_set_self _ _ _ _ hv0g] at hlev
        simp only [Option.map_some', Option.some.injEq] at hlev
        exact hlev
      have hall : ∀ a ∈ inputs, ρ a.get_var.id = a.polarity := by
        intro a ha
        have hat := hins a ha
        have havn : a.get_var.id < s.assignments.length :=
          litTrue_var_lt hat
        have hsome : (s.assignments.getD a.get_var.id none).isSome := by
          unfold litTrue at hat
          rw [hat]
          rfl
        obtain ⟨nd, hnd⟩ := Option.isSome_iff_exists.mp
          ((hCore.2.2.2.2.1 a.get_var.id havn).mp hsome)
        have hle := coreInv_levels_le hCore _ _ hnd
        have hf := hF0 a.get_var.id (by
          unfold levelOf
          rw [hnd]
          simp only [Option.map_some', Option.some.injEq]
          omega) ρ hρ
        rw [litTrue_polOf hat] at hf
        exact hf
      have := hsat_forces ρ hρ hall
      rw [← he]
      rw [this]
      unfold polOf
      rw [hassn, getD_set_self _ _ _ _ hvn]
      rfl
    · have hlev' : levelOf s v = some 0 := by
        unfold levelOf at hlev ⊢
        rw [hgr, getD_set_other _ _ _ he] at hlev
        exact hlev
      have := hF0 v hlev' ρ hρ
      rw [this]
      unfold polOf
      rw [hassn, getD_set_other _ _ _ he]
  · -- DerivSem
    intro v lev ins hnd ρ hρ hall
    by_cases he : output.get_var.id = v
    · rw [hgr, ← he, getD_set_self _ _ _ _ hv0g] at hnd
      have hinj := Option.some.inj hnd
      have hinseq : ins = inputs := by
        injection hinj.symm
      rw [hinseq] at hall
      have := hsat_forces ρ hρ hall
      rw [← he, this]
      unfold polOf
      rw [hassn, getD_set_self _ _ _ _ hvn]
      rfl
    · rw [hgr, getD_set_other _ _ _ he] at hnd
      have := hDS v lev ins hnd ρ hρ hall
      rw [this]
      unfold polOf
      rw [hassn, getD_set_other _ _ _ he]

/-- One pass of the propagation loop preserves the solver invariant; on
early exit the conflict comes from a clause of the current list that is
fully falsified in the exit state. -/
theorem scanPass_inv (F : List Clause) :
    ∀ (cs : List Clause) (s : State) (d : Bool),
      SolverInv F s → (∀ c ∈ cs, c ∈ s.clauses) →
      (∀ s' d', scanPass s d cs = .Completed s' d' →
        SolverInv F s' ∧ ScanFrame s s') ∧
      (∀ inputs s', scanPass s d cs = .Conflict inputs s' →
        SolverInv F s' ∧ ScanFrame s s' ∧
        ∃ c ∈ s'.clauses, inputs = c.body.map Atom.negated ∧
          (∀ a ∈ c.body, litFalse s'.assignments a)) := by
  intro cs
  induction cs with
  | nil =>
    intro s d hInv hsub
    constructor
    · intro s' d' h
      rw [scanPass] at h
      cases h
      exact ⟨hInv, scanFrame_refl s⟩
    · intro inputs s' h
      rw [scanPass] at h
      exact absurd h (by simp)
  | cons c rest ih =>
    intro s d hInv hsub
    have hcs : c ∈ s.clauses := hsub c (List.mem_cons_self c rest)
    constructor
    · intro s' d' h
      rw [scanPass] at h
      cases hupc : c.unit_prop_clause s.assignments with
      | Conflict =>
        rw [hupc] at h
        exact absurd h (by simp)
      | None =>
        rw [hupc] at h
        exact (ih s d hInv (fun x hx => hsub x
          (List.mem_cons_of_mem c hx))).1 s' d' h
      | UnitProp ins out =>
        rw [hupc] at h
        obtain ⟨hmemo, hunseto, -, -, -⟩ :=
          (upc_unitProp_iff c s.assignments ins out).mp hupc
        have hvn : out.get_var.id < s.assignments.length :=
          hInv.1.2.1 c hcs out hmemo
        have hvg : out.get_var.id < s.derivation_graph.length := by
          rw [hInv.1.1]
          omega
        have hInv2 := installUnit_solverInv hInv hcs hupc
        obtain ⟨hI, hFr⟩ := (ih (installUnit s ins out) true hInv2
          (fun x hx => hsub x (List.mem_cons_of_mem c hx))).1 s' d' h
        exact ⟨hI, scanFrame_trans (installUnit_frame hunseto hvn hvg)
          hFr⟩
    · intro inputs s' h
      rw [scanPass] at h
      cases hupc : c.unit_prop_clause s.assignments with
      | Conflict =>
        rw [hupc] at h
        simp only [PassResult.Conflict.injEq] at h
        obtain ⟨h1, h2⟩ := h
        rw [← h2, ← h1]
        exact ⟨hInv, scanFrame_refl s, c, hcs, rfl,
          (upc_conflict_iff c s.assignments).mp hupc⟩
      | None =>
        rw [hupc] at h
        exact (ih s d hInv (fun x hx => hsub x
          (List.mem_cons_of_mem c hx))).2 inputs s' h
      | UnitProp ins out =>
        rw [hupc] at h
        obtain ⟨hmemo, hunseto, -, -, -⟩ :=
          (upc_unitProp_iff c s.assignments ins out).mp hupc
        have hvn : out.get_var.id < s.assignments.length :=
          hInv.1.2.1 c hcs out hmemo
        have hvg : out.get_var.id < s.derivation_graph.length := by
          rw [hInv.1.1]
          omega
        have hInv2 := installUnit_solverInv hInv hcs hupc
        obtain ⟨hI, hFr, hsrc⟩ := (ih (installUnit s ins out) true hInv2
          (fun x hx => hsub x (List.mem_cons_of_mem c hx))).2 inputs s' h
        exact ⟨hI, scanFrame_trans (installUnit_frame hunseto hvn hvg)
          hFr, hsrc⟩

/-- The whole propagation loop preserves the solver invariant.  A `Done`
exit is a quiescent fixpoint; a `Conflict` exit names a current clause
that is fully falsified in the exit state. -/
theorem scanLoop_inv (F : List Clause) :
    ∀ (fuel : Nat) (s : State), SolverInv F s →
      (∀ s', scanLoop fuel s = some (.Done s') →
        SolverInv F s' ∧ ScanFrame s s' ∧
        ∀ c ∈ s'.clauses, c.unit_prop_clause s'.assignments = .None) ∧
      (∀ inputs s', scanLoop fuel s = some (.Conflict inputs s') →
        SolverInv F s' ∧ ScanFrame s s' ∧
        ∃ c ∈ s'.clauses, inputs = c.body.map Atom.negated ∧
          (∀ a ∈ c.body, litFalse s'.assignments a)) := by
  intro fuel
  induction fuel with
  | zero =>
    intro s hInv
    constructor
    · intro s' h
      rw [scanLoop] at h
      exact absurd h (by simp)
    · intro inputs s' h
      rw [scanLoop] at h
      exact absurd h (by simp)
  | succ fuel ih =>
    intro s hInv
    constructor
    · intro s' h
      rw [scanLoop] at h
      cases hp : scanPass s false s.clauses with
      | Conflict inputs s₁ =>
        rw [hp] at h
        exact absurd h (by simp)
      | Completed s₁ d =>
        rw [hp] at h
        cases d with
        | true =>
          obtain ⟨hI1, hFr1⟩ :=
            (scanPass_inv F s.clauses s false hInv (fun x hx => hx)).1
              s₁ true hp
          obtain ⟨hI2, hFr2, hfix⟩ := (ih s₁ hI1).1 s' h
          exact ⟨hI2, scanFrame_trans hFr1 hFr2, hfix⟩
        | false =>
          simp only [Option.some.injEq, FullUnitPropResult.Done.injEq]
            at h
          obtain ⟨hs, -, hfix⟩ := scanPass_false_fixpoint s false
            s.clauses s₁ hp
          rw [← h, hs]
          exact ⟨hInv, scanFrame_refl s, hfix⟩
    · intro inputs s' h
      rw [scanLoop] at h
      cases hp : scanPass s false s.clauses with
      | Conflict inputs' s₁ =>
        rw [hp] at h
        simp only [Option.some.injEq,
          FullUnitPropResult.Conflict.injEq] at h
        obtain ⟨h1, h2⟩ := h
        obtain ⟨hI, hFr, hsrc⟩ :=
          (scanPass_inv F s.clauses s false hInv (fun x hx => hx)).2
            inputs' s₁ hp
        rw [← h1, ← h2]
        exact ⟨hI, hFr, hsrc⟩
      | Completed s₁ d =>
        rw [hp] at h
        cases d with
        | true =>
          obtain ⟨hI1, hFr1⟩ :=
            (scanPass_inv F s.clauses s false hInv (fun x hx => hx)).1
              s₁ true hp
          obtain ⟨hI2, hFr2, hsrc⟩ := (ih s₁ hI1).2 inputs s' h
          exact ⟨hI2, scanFrame_trans hFr1 hFr2, hsrc⟩
        | false => exact absurd h (by simp)

/-- What `guess` returns: the first unset slot, taken positively. -/
theorem guessScan_some :
    ∀ (l : List (Option Bool)) (i : Nat) (g : Atom),
      guessScan l i = some g →
      g.polarity = true ∧ i ≤ g.get_var.id ∧
        g.get_var.id - i < l.length ∧
        l.getD (g.get_var.id - i) none = none := by
  intro l
  induction l with
  | nil =>
    intro i g h
    rw [guessScan] at h
    exact absurd h (by simp)
  | cons a rest ih =>
    intro i g h
    cases a with
    | none =>
      rw [guessScan] at h
      have hg : VarRef.as_atom { id := i } true = g :=
        Option.some.inj h
      rw [← hg]
      refine ⟨rfl, le_refl i, ?_, ?_⟩
      · show i - i < rest.length + 1
        omega
      · show (none :: rest).getD (i - i) none = none
        have : i - i = 0 := by omega
        rw [this]
        rfl
    | some b =>
      rw [guessScan] at h
      obtain ⟨h1, h2, h3, h4⟩ := ih (i + 1) g h
      refine ⟨h1, by omega, ?_, ?_⟩
      · rw [List.length_cons]
        omega
      · have he : g.get_var.id - i = (g.get_var.id - (i + 1)) + 1 := by
          omega
        rw [he, List.getD_cons_succ]
        exact h4

theorem posLevel_snoc_gt (tops : List Nat) {b p : Nat} (hp : p < b) :
    posLevel (tops ++ [b]) p = posLevel tops p := by
  unfold posLevel
  rw [List.countP_append, List.countP_cons, List.countP_nil]
  rw [if_neg (by simp; omega)]
  omega

theorem posLevel_snoc_le (tops : List Nat) {b p : Nat} (hp : b ≤ p) :
    posLevel (tops ++ [b]) p = posLevel tops p + 1 := by
  unfold posLevel
  rw [List.countP_append, List.countP_cons, List.countP_nil]
  rw [if_pos (by simp; omega)]

/-- Making a guess after a quiescent scan preserves the whole solver
invariant. -/
theorem make_guess_solverInv {F : List Clause} {s : State} {g : Atom}
    (hInv : SolverInv F s) (hg : s.guess = some g)
    (hq : ∀ c ∈ s.clauses, c.unit_prop_clause s.assignments = .None) :
    SolverInv F (s.make_guess g) := by
  obtain ⟨hCore, hTI, hCE, hF0, hDS⟩ := hInv
  have hC := hCore
  obtain ⟨hW1, hW2, hW3, hW4, hA1, hA2, hA3, hA4, hL1, hG, hD⟩ := hC
  obtain ⟨hgpol, -, hgn, hgslot⟩ := guessScan_some s.assignments 0 g hg
  rw [Nat.sub_zero] at hgn hgslot
  have hgr : (s.make_guess g).derivation_graph =
      s.derivation_graph.set g.get_var.id
        (some (.Guess (s.assignment_stack.len + 1))) := rfl
  have hassn : (s.make_guess g).assignments =
      s.assignments.set g.get_var.id (some g.polarity) := rfl
  have hvals : (s.make_guess g).assignment_stack.values =
      s.assignment_stack.values ++ [g] := rfl
  have htops : (s.make_guess g).assignment_stack.tops =
      s.assignment_stack.tops ++ [s.assignment_stack.values.length] :=
    rfl
  have hlen : (s.make_guess g).assignment_stack.len =
      s.assignment_stack.len + 1 := by
    unfold StackStack.len
    rw [htops, List.length_append, List.length_singleton]
  have hlk : s.assignment_stack.len =
    s.assignment_stack.tops.length := rfl
  have hv0g : g.get_var.id < s.derivation_graph.length := by
    rw [hW1]
    omega
  have hsv : stackVars (s.make_guess g) =
      stackVars s ++ [g.get_var.id] := by
    unfold stackVars
    rw [hvals, List.map_append]
    rfl
  have hne_of_true : ∀ {a : Atom}, litTrue s.assignments a →
      g.get_var.id ≠ a.get_var.id := by
    intro a hat he
    unfold litTrue at hat
    rw [← he, hgslot] at hat
    exact absurd hat (by simp)
  have hCore' : CoreInv (s.make_guess g) := by
    refine ⟨?_, ?_, ?_, ?_, ?_, ?_, ?_, ?_, ?_, ?_, ?_⟩
    · unfold WfLens
      rw [hgr, hassn, List.length_set, List.length_set]
      exact hW1
    · intro c hc a ha
      rw [hassn, List.length_set]
      exact hW2 c hc a ha
    · unfold WfTops
      rw [htops, hvals, List.length_append, List.length_singleton]
      rw [List.chain'_append]
      refine ⟨hW3, List.chain'_singleton _, ?_⟩
      intro x hx y hy
      rw [List.getLast?_concat] at hx
      simp only [Option.mem_def, Option.some.injEq] at hx
      simp only [List.head?_cons, Option.mem_def,
        Option.some.injEq] at hy
      omega
    · intro a ha
      rw [hvals] at ha
      rw [hassn, List.length_set]
      rcases List.mem_append.mp ha with h | h
      · exact hW4 a h
      · rw [List.mem_singleton] at h
        subst h
        exact hgn
    · intro v hv
      rw [hassn, List.length_set] at hv
      rw [hassn, hgr]
      by_cases he : g.get_var.id = v
      · rw [← he, getD_set_self _ _ _ _ hgn, getD_set_self _ _ _ _ hv0g]
        simp
      · rw [getD_set_other _ _ _ he, getD_set_other _ _ _ he]
        exact hA1 v hv
    · intro v hv
      rw [hassn, List.length_set] at hv
      rw [hassn, hsv, List.mem_append]
      by_cases he : g.get_var.id = v
      · rw [← he, getD_set_self _ _ _ _ hgn]
        constructor
        · intro h
          exact Or.inr (List.mem_singleton.mpr rfl)
        · intro h
          rfl
      · rw [getD_set_other _ _ _ he]
        constructor
        · intro h
          exact Or.inl ((hA2 v hv).mp h)
        · rintro (h | h)
          · exact (hA2 v hv).mpr h
          · rw [List.mem_singleton] at h
            exact absurd h.symm he
    · unfold StackNodup
      rw [hsv, List.nodup_append]
      refine ⟨hA3, List.nodup_singleton _, ?_⟩
      intro x hx hx'
      rw [List.mem_singleton] at hx'
      subst hx'
      exact unset_not_on_stack hCore hgslot hx
    · intro a ha
      rw [hvals] at ha
      rw [hassn]
      rcases List.mem_append.mp ha with h | h
      · have hne : g.get_var.id ≠ a.get_var.id :=
          hne_of_true (hA4 a h)
        rw [getD_set_other _ _ _ hne]
        exact hA4 a h
      · rw [List.mem_singleton] at h
        subst h
        rw [getD_set_self _ _ _ _ hgn]
    · intro p hp
      rw [hvals, List.length_append, List.length_singleton] at hp
      rw [hvals, htops, hgr]
      rcases Nat.lt_or_ge p s.assignment_stack.values.length with h | h
      · rw [getD_append_lt _ _ _ h]
        have hmem : s.assignment_stack.values.getD p default ∈
            s.assignment_stack.values := by
          rw [getD_in _ h default]
          exact List.getElem_mem _
        have hne : g.get_var.id ≠
            (s.assignment_stack.values.getD p default).get_var.id :=
          hne_of_true (hA4 _ hmem)
        rw [getD_set_other _ _ _ hne]
        rw [posLevel_snoc_gt _ h]
        exact hL1 p h
      · have hpe : p = s.assignment_stack.values.length := by omega
        subst hpe
        rw [getD_append_self, getD_set_self _ _ _ _ hv0g]
        rw [posLevel_snoc_le _ (le_refl _), posLevel_full hW3]
        rfl
    · intro v hv
      rw [hassn, List.length_set] at hv
      unfold guessNodeCond
      rw [hgr]
      by_cases he : g.get_var.id = v
      · rw [← he, getD_set_self _ _ _ _ hv0g, guessNodeCondAux_guess]
        rw [hlen, hvals, htops]
        refine ⟨by omega, le_refl _, ?_⟩
        have hstep : s.assignment_stack.len + 1 - 1 =
            s.assignment_stack.tops.length := by omega
        rw [hstep, getD_append_self, getD_append_self]
      · rw [getD_set_other _ _ _ he]
        cases hold : s.derivation_graph.getD v none with
        | none => exact trivial
        | some nd =>
          cases nd with
          | Derivation l i => exact trivial
          | Guess lev =>
            have hgc := hG v hv
            unfold guessNodeCond at hgc
            rw [hold] at hgc
            rw [guessNodeCondAux_guess] at hgc ⊢
            rw [hlen, hvals, htops]
            refine ⟨hgc.1, by omega, ?_⟩
            have ht : (s.assignment_stack.tops ++
                [s.assignment_stack.values.length]).getD (lev - 1) 0 =
                s.assignment_stack.tops.getD (lev - 1) 0 :=
              getD_append_lt _ _ _ (by omega)
            rw [ht]
            rw [getD_append_lt _ _ _
              (wfTops_lt_values hW3 (by omega))]
            exact hgc.2.2
    · intro v hv
      rw [hassn, List.length_set] at hv
      unfold derivNodeCond
      rw [hgr]
      by_cases he : g.get_var.id = v
      · rw [← he, getD_set_self _ _ _ _ hv0g]
        exact trivial
      · rw [getD_set_other _ _ _ he]
        cases hold : s.derivation_graph.getD v none with
        | none => exact trivial
        | some nd =>
          cases nd with
          | Guess lev => exact trivial
          | Derivation lev ins =>
            have hd := hD v hv
            unfold derivNodeCond at hd
            rw [hold] at hd
            rw [derivNodeCondAux_deriv] at hd ⊢
            intro a ha
            obtain ⟨hat, hidx⟩ := hd a ha
            have hane := hne_of_true hat
            have hvmem : v ∈ stackVars s := by
              apply (hA2 v hv).mp
              apply (hA1 v hv).mpr
              rw [hold]
              rfl
            constructor
            · unfold litTrue
              rw [hassn, getD_set_other _ _ _ hane]
              exact hat
            · rw [hsv,
                List.indexOf_append_of_mem (litTrue_on_stack hCore hat),
                List.indexOf_append_of_mem hvmem]
              exact hidx
  refine ⟨hCore', ?_, ?_, ?_, ?_⟩
  · -- TopInv
    intro hL' c hc hfalse
    by_cases hex : ∃ a ∈ c.body, a.get_var.id = g.get_var.id
    · obtain ⟨a, ha, hav⟩ := hex
      refine ⟨a, ha, ?_⟩
      unfold levelOf
      rw [hgr, hav, getD_set_self _ _ _ _ hv0g, hlen]
      rfl
    · push_neg at hex
      exfalso
      have hfalse0 : ∀ a ∈ c.body, litFalse s.assignments a := by
        intro a ha
        have hne : g.get_var.id ≠ a.get_var.id :=
          fun he => hex a ha he.symm
        have := hfalse a ha
        unfold litFalse at this ⊢
        rw [hassn, getD_set_other _ _ _ hne] at this
        exact this
      exact ((upc_none_iff c s.assignments).mp (hq c hc)).1 hfalse0
  · -- ClausesEnt
    intro c hc ρ hρ
    exact hCE c hc ρ hρ
  · -- Forced0
    intro v hlev ρ hρ
    by_cases he : g.get_var.id = v
    · exfalso
      unfold levelOf at hlev
      rw [hgr, ← he, getD_set_self _ _ _ _ hv0g] at hlev
      simp only [Option.map_some', Option.some.injEq] at hlev
      have : DerivationGraphNode.level
          (.Guess (s.assignment_stack.len + 1)) =
          s.assignment_stack.len + 1 := rfl
      omega
    · have hlev' : levelOf s v = some 0 := by
        unfold levelOf at hlev ⊢
        rw [hgr, getD_set_other _ _ _ he] at hlev
        exact hlev
      have := hF0 v hlev' ρ hρ
      rw [this]
      unfold polOf
      rw [hassn, getD_set_other _ _ _ he]
  · -- DerivSem
    intro v lev ins hnd ρ hρ hall
    by_cases he : g.get_var.id = v
    · rw [hgr, ← he, getD_set_self _ _ _ _ hv0g] at hnd
      exact absurd (Option.some.inj hnd) (by simp)
    · rw [hgr, getD_set_other _ _ _ he] at hnd
      have := hDS v lev ins hnd ρ hρ hall
      rw [this]
      unfold polOf
      rw [hassn, getD_set_other _ _ _ he]

theorem getD_take {α : Type} (l : List α) {n p : Nat} (d : α)
    (hp : p < n) (hpl : p < l.length) :
    (l.take n).getD p d = l.getD p d := by
  rw [getD_in _ (by rw [List.length_take]; omega) d, getD_in _ hpl d]
  exact List.getElem_take l

theorem indexOf_take_eq {α : Type} [DecidableEq α] :
    ∀ (l : List α) (n : Nat) (a : α), a ∈ l → l.indexOf a < n →
      (l.take n).indexOf a = l.indexOf a := by
  intro l
  induction l with
  | nil =>
    intro n a ha
    exact absurd ha (List.not_mem_nil a)
  | cons x xs ih =>
    intro n a ha hlt
    cases n with
    | zero =>
      exact absurd hlt (by omega)
    | succ n =>
      rw [List.take_succ_cons]
      by_cases he : x = a
      · rw [List.indexOf_cons_eq _ he, List.indexOf_cons_eq _ he]
      · rw [List.indexOf_cons_ne _ he, List.indexOf_cons_ne _ he]
        rw [List.indexOf_cons_ne _ he] at hlt
        have ha' : a ∈ xs := by
          rcases List.mem_cons.mp ha with h | h
          · exact absurd h.symm he
          · exact h
        rw [ih n a ha' (by omega)]

theorem posLevel_take_eq {s : State} (hW : WfTops s) {T p : Nat}
    (hTb : T < s.assignment_stack.tops.length)
    (hp : p < s.assignment_stack.tops.getD T 0) :
    posLevel (s.assignment_stack.tops.take T) p =
      posLevel s.assignment_stack.tops p := by
  conv_rhs => rw [← List.take_append_drop T s.assignment_stack.tops]
  unfold posLevel
  rw [List.countP_append]
  have hz : (s.assignment_stack.tops.drop T).countP
      (fun t => decide (t ≤ p)) = 0 := by
    rw [List.countP_eq_zero]
    intro x hx
    obtain ⟨j, hj, hxj⟩ := List.getElem_of_mem hx
    rw [List.getElem_drop] at hxj
    have hjb : T + j < s.assignment_stack.tops.length := by
      rw [List.length_drop] at hj
      omega
    have hmono := wfTops_mono hW (by omega : T ≤ T + j) hjb
    rw [getD_in _ hjb 0] at hmono
    simp only [decide_eq_true_eq]
    omega
  omega

/-- The backjump loop preserves the core invariant. -/
theorem backjump_coreInv {s : State} (hInv : CoreInv s) {T : Nat}
    (hT : T < s.assignment_stack.len) :
    CoreInv (backjump s T) := by
  have hC := hInv
  obtain ⟨hW1, hW2, hW3, hW4, hA1, hA2, hA3, hA4, hL1, hG, hD⟩ := hC
  obtain ⟨b1, b2, b3, b4, b5, b6, b7⟩ :=
    backjump_spec (s.assignment_stack.len - T) s T hW3 rfl
      (Nat.le_of_lt hT)
  have hTb : T < s.assignment_stack.tops.length := hT
  have hb0 : s.assignment_stack.tops.getD T
      s.assignment_stack.values.length =
      s.assignment_stack.tops.getD T 0 := by
    rw [getD_in _ hTb, getD_in _ hTb]
  have hblt : s.assignment_stack.tops.getD T 0 <
      s.assignment_stack.values.length := wfTops_lt_values hW3 hTb
  have hvlen : (backjump s T).assignment_stack.values.length =
      s.assignment_stack.tops.getD T 0 := by
    rw [b5, hb0, List.length_take]
    omega
  have hvget : ∀ p, p < s.assignment_stack.tops.getD T 0 →
      (backjump s T).assignment_stack.values.getD p default =
        s.assignment_stack.values.getD p default := by
    intro p hp
    rw [b5, hb0]
    exact getD_take _ _ hp (by omega)
  have hnode_at : ∀ p, p < s.assignment_stack.values.length →
      ∃ nd, s.derivation_graph.getD
        ((s.assignment_stack.values.getD p default).get_var.id) none =
        some nd ∧ nd.level = posLevel s.assignment_stack.tops p := by
    intro p hp
    exact levelOf_some_node (hL1 p hp)
  have hnotdrop : ∀ p, p < s.assignment_stack.tops.getD T 0 →
      ((s.assignment_stack.values.getD p default).get_var.id) ∉
        droppedVars s T := by
    intro p hp hmem
    obtain ⟨nd', hnd', hgt⟩ := (droppedVars_iff hInv hT _).mp hmem
    obtain ⟨nd, hnd, hlev⟩ := hnode_at p (by omega)
    rw [hnd] at hnd'
    rw [← Option.some.inj hnd'] at hgt
    have := posLevel_le hW3 hTb hp
    omega
  have hdrop_of_ge : ∀ p, s.assignment_stack.tops.getD T 0 ≤ p →
      p < s.assignment_stack.values.length →
      ((s.assignment_stack.values.getD p default).get_var.id) ∈
        droppedVars s T := by
    intro p hp hpl
    obtain ⟨nd, hnd, hlev⟩ := hnode_at p hpl
    apply (droppedVars_iff hInv hT _).mpr
    refine ⟨nd, hnd, ?_⟩
    have := posLevel_gt hW3 hTb hp
    omega
  have hsv : stackVars (backjump s T) =
      (stackVars s).take (s.assignment_stack.tops.getD T 0) := by
    unfold stackVars
    rw [b5, hb0, List.map_take]
  have hstkpos : ∀ v, v ∈ stackVars s → v ∉ droppedVars s T →
      (stackVars s).indexOf v < s.assignment_stack.tops.getD T 0 := by
    intro v hv hnd
    obtain ⟨p, hp, hpv⟩ := List.getElem_of_mem hv
    have hplen : p < s.assignment_stack.values.length := by
      have : (stackVars s).length =
          s.assignment_stack.values.length := by
        unfold stackVars
        rw [List.length_map]
      omega
    have hidx : (stackVars s).indexOf v = p := by
      have hsi := stackVars_indexOf hA3 hplen
      have hvv : (s.assignment_stack.values.getD p
          default).get_var.id = v := by
        rw [getD_in _ hplen default]
        have hgi := hpv
        unfold stackVars at hgi
        rw [List.getElem_map] at hgi
        exact hgi
      rw [hvv] at hsi
      exact hsi
    rw [hidx]
    by_contra hge
    apply hnd
    have hvv : (s.assignment_stack.values.getD p default).get_var.id =
        v := by
      rw [getD_in _ hplen default]
      unfold stackVars at hpv
      rw [List.getElem_map] at hpv
      exact hpv
    rw [← hvv]
    exact hdrop_of_ge p (by omega) hplen
  refine ⟨?_, ?_, ?_, ?_, ?_, ?_, ?_, ?_, ?_, ?_, ?_⟩
  · unfold WfLens
    rw [b2, b3]
    exact hW1
  · intro c hc a ha
    rw [b1] at hc
    rw [b2]
    exact hW2 c hc a ha
  · unfold WfTops
    rw [b4, hvlen]
    have he : s.assignment_stack.tops.take T ++
        [s.assignment_stack.tops.getD T 0] =
        s.assignment_stack.tops.take (T + 1) := by
      rw [getD_in _ hTb 0, ← List.take_concat_get _ _ hTb,
        List.concat_eq_append]
    rw [he]
    exact List.Chain'.sublist hW3
      ((List.take_sublist _ _).trans (List.sublist_append_left _ _))
  · intro a ha
    rw [b5] at ha
    rw [b2]
    exact hW4 a (List.take_subset _ _ ha)
  · intro v hv
    rw [b2] at hv
    rw [b6 v, b7 v]
    by_cases hd : v ∈ droppedVars s T
    · rw [if_pos hd, if_pos hd]
      exact Iff.rfl
    · rw [if_neg hd, if_neg hd]
      exact hA1 v hv
  · intro v hv
    rw [b2] at hv
    rw [b6 v, hsv]
    by_cases hd : v ∈ droppedVars s T
    · rw [if_pos hd]
      constructor
      · intro h
        exact absurd h (by simp)
      · intro h
        obtain ⟨p, hpm, hpv⟩ := List.mem_take_iff_getElem.mp h
        exfalso
        have hplen : p < s.assignment_stack.values.length := by
          have hsl : (stackVars s).length =
              s.assignment_stack.values.length := by
            unfold stackVars
            rw [List.length_map]
          omega
        have hvv : (s.assignment_stack.values.getD p
            default).get_var.id = v := by
          rw [getD_in _ hplen default]
          unfold stackVars at hpv
          rw [List.getElem_map] at hpv
          exact hpv
        apply hnotdrop p (by omega)
        rw [hvv]
        exact hd
    · rw [if_neg hd]
      constructor
      · intro h
        have hmem := (hA2 v hv).mp h
        have hlt := hstkpos v hmem hd
        have hidxlen : (stackVars s).indexOf v < (stackVars s).length :=
          List.indexOf_lt_length.mpr hmem
        apply List.mem_take_iff_getElem.mpr
        exact ⟨(stackVars s).indexOf v, by omega,
          List.getElem_indexOf hidxlen⟩
      · intro h
        exact (hA2 v hv).mpr (List.take_subset _ _ h)
  · unfold StackNodup
    rw [hsv]
    exact List.Nodup.sublist (List.take_sublist _ _) hA3
  · intro a ha
    rw [b5, hb0] at ha
    obtain ⟨p, hpm, hpv⟩ := List.mem_take_iff_getElem.mp ha
    have hplen : p < s.assignment_stack.values.length := by omega
    have hmem : a ∈ s.assignment_stack.values := by
      rw [← hpv]
      exact List.getElem_mem _
    rw [b6, if_neg (by
      have hvv : (s.assignment_stack.values.getD p
          default).get_var.id = a.get_var.id := by
        rw [getD_in _ hplen default, hpv]
      rw [← hvv]
      exact hnotdrop p (by omega))]
    exact hA4 a hmem
  · intro p hp
    rw [hvlen] at hp
    rw [hvget p hp, b4]
    have hnd2 := hnotdrop p hp
    rw [b7, if_neg hnd2]
    rw [posLevel_take_eq hW3 hTb hp]
    exact hL1 p (by omega)
  · intro v hv
    rw [b2] at hv
    unfold guessNodeCond
    rw [b7]
    by_cases hd : v ∈ droppedVars s T
    · rw [if_pos hd]
      exact trivial
    · rw [if_neg hd]
      cases hold : s.derivation_graph.getD v none with
      | none => exact trivial
      | some nd =>
        cases nd with
        | Derivation l i => exact trivial
        | Guess lev =>
          have hgc := hG v hv
          unfold guessNodeCond at hgc
          rw [hold] at hgc
          rw [guessNodeCondAux_guess] at hgc ⊢
          have hlevle : lev ≤ T := by
            by_contra hgt
            apply hd
            exact (droppedVars_iff hInv hT v).mpr
              ⟨.Guess lev, hold, by
                show T < DerivationGraphNode.level (.Guess lev)
                show T < lev
                omega⟩
          have hlen3 : (backjump s T).assignment_stack.len = T := by
            show (backjump s T).assignment_stack.tops.length = T
            rw [b4, List.length_take]
            omega
          refine ⟨hgc.1, by omega, ?_⟩
          have htg : (backjump s T).assignment_stack.tops.getD
              (lev - 1) 0 = s.assignment_stack.tops.getD (lev - 1) 0 :=
            by
            rw [b4]
            exact getD_take _ _ (by omega) (by omega)
          rw [htg]
          have hpos_lt : s.assignment_stack.tops.getD (lev - 1) 0 <
              s.assignment_stack.tops.getD T 0 :=
            wfTops_strict hW3 (by omega) hTb
          rw [hvget _ hpos_lt]
          exact hgc.2.2
  · intro v hv
    rw [b2] at hv
    unfold derivNodeCond
    rw [b7]
    by_cases hd : v ∈ droppedVars s T
    · rw [if_pos hd]
      exact trivial
    · rw [if_neg hd]
      cases hold : s.derivation_graph.getD v none with
      | none => exact trivial
      | some nd =>
        cases nd with
        | Guess lev => exact trivial
        | Derivation lev ins =>
          have hdc := hD v hv
          unfold derivNodeCond at hdc
          rw [hold] at hdc
          rw [derivNodeCondAux_deriv] at hdc ⊢
          intro a ha
          obtain ⟨hat, hidx⟩ := hdc a ha
          have hvmem : v ∈ stackVars s := by
            apply (hA2 v hv).mp
            apply (hA1 v hv).mpr
            rw [hold]
            rfl
          have hvlt := hstkpos v hvmem hd
          have hamem : a.get_var.id ∈ stackVars s :=
            litTrue_on_stack hInv hat
          have haidxlt : (stackVars s).indexOf a.get_var.id <
              s.assignment_stack.tops.getD T 0 := by omega
          have hand : a.get_var.id ∉ droppedVars s T := by
            intro hmem2
            have hidxlen : (stackVars s).indexOf a.get_var.id <
                (stackVars s).length := List.indexOf_lt_length.mpr hamem
            have hplen : (stackVars s).indexOf a.get_var.id <
                s.assignment_stack.values.length := by
              have hsl : (stackVars s).length =
                  s.assignment_stack.values.length := by
                unfold stackVars
                rw [List.length_map]
              omega
            apply hnotdrop ((stackVars s).indexOf a.get_var.id) haidxlt
            have hvv : (s.assignment_stack.values.getD
                ((stackVars s).indexOf a.get_var.id)
                default).get_var.id = a.get_var.id := by
              rw [getD_in _ hplen default]
              have hgi := List.getElem_indexOf hidxlen
              unfold stackVars at hgi
              rw [List.getElem_map] at hgi
              exact hgi
            rw [hvv]
            exact hmem2
          constructor
          · unfold litTrue
            rw [b6, if_neg hand]
            exact hat
          · rw [hsv,
              indexOf_take_eq _ _ _ hamem haidxlt,
              indexOf_take_eq _ _ _ hvmem hvlt]
            exact hidx

/-- The conflict facts delivered by a conflicting scan, packaged for the
conflict-analysis entry point. -/
theorem conflict_cut_facts {F : List Clause} {s₁ : State}
    {inputs : List Atom} {c₀ : Clause} (hI1 : SolverInv F s₁)
    (hz : s₁.assignment_stack.len ≠ 0) (hc₀ : c₀ ∈ s₁.clauses)
    (hinputs : inputs = c₀.body.map Atom.negated)
    (hfalse : ∀ a ∈ c₀.body, litFalse s₁.assignments a) :
    (∀ a ∈ inputs, litTrue s₁.assignments a) ∧
    (∃ a ∈ inputs, levelOf s₁ a.get_var.id =
      some s₁.assignment_stack.len) ∧
    (∀ ρ : Nat → Bool, cnfSatBy ρ F →
      ∃ a ∈ inputs, ρ a.get_var.id ≠ a.polarity) := by
  refine ⟨?_, ?_, ?_⟩
  · intro a ha
    rw [hinputs] at ha
    obtain ⟨b, hb, hba⟩ := List.mem_map.mp ha
    rw [← hba, litTrue_negated_iff]
    exact hfalse b hb
  · obtain ⟨b, hb, hlevb⟩ := hI1.2.1 (by omega) c₀ hc₀ hfalse
    refine ⟨b.negated, ?_, hlevb⟩
    rw [hinputs]
    exact List.mem_map.mpr ⟨b, hb, rfl⟩
  · intro ρ hρ
    obtain ⟨b, hb, hbt⟩ := hI1.2.2.1 c₀ hc₀ ρ hρ
    refine ⟨b.negated, ?_, ?_⟩
    · rw [hinputs]
      exact List.mem_map.mpr ⟨b, hb, rfl⟩
    · show ¬(ρ b.get_var.id = !b.polarity)
      rw [hbt]
      simp

/-- The conflict step of `sat()` — learn the clause returned by
`analyse_conflict` and backjump to the returned level — preserves the
whole solver invariant. -/
theorem conflict_step_solverInv {F : List Clause} {s₁ : State}
    {inputs : List Atom} {C : Clause} {r2 : Nat}
    (hI1 : SolverInv F s₁) (hz : s₁.assignment_stack.len ≠ 0)
    (hsrc : ∃ c ∈ s₁.clauses, inputs = c.body.map Atom.negated ∧
      ∀ a ∈ c.body, litFalse s₁.assignments a)
    (hac : s₁.analyse_conflict inputs = some (C, r2)) :
    SolverInv F (backjump { s₁ with clauses := s₁.clauses ++ [C] }
      r2) := by
  obtain ⟨c₀, hc₀, hinputs, hfalse⟩ := hsrc
  obtain ⟨hin, hcur, hent⟩ :=
    conflict_cut_facts hI1 hz hc₀ hinputs hfalse
  obtain ⟨hCore1, hTI1, hCE1, hF01, hDS1⟩ := hI1
  obtain ⟨piv, r2', mids, heq, hptrue, hplev, hrlt, hmids, hentC⟩ :=
    analyse_conflict_spec F hCore1 (by omega) hF01 hDS1 hin hcur hent
  rw [hac] at heq
  obtain ⟨hCeq, hreq⟩ := Prod.mk.injEq .. ▸ Option.some.inj heq
  subst hreq
  subst hCeq
  obtain ⟨pnode, hpnode, hpnlev⟩ := levelOf_some_node hplev
  have hCrange : ∀ a ∈ (Clause.new (mids ++ [piv.negated])).body,
      a.get_var.id < s₁.assignments.length := by
    intro a ha
    rcases List.mem_append.mp ha with h | h
    · obtain ⟨-, nd, hnd, -, -⟩ := hmids a h
      exact node_var_lt hCore1.1 hnd
    · rw [List.mem_singleton] at h
      subst h
      exact node_var_lt hCore1.1 hpnode
  have hCore2 : CoreInv { s₁ with clauses :=
      s₁.clauses ++ [Clause.new (mids ++ [piv.negated])] } :=
    coreInv_append_clause hCore1 hCrange
  have hI2 : SolverInv F { s₁ with clauses :=
      s₁.clauses ++ [Clause.new (mids ++ [piv.negated])] } := by
    refine ⟨hCore2, ?_, ?_, hF01, hDS1⟩
    · intro hL' c hc hfalse'
      rcases List.mem_append.mp hc with h | h
      · exact hTI1 hL' c h hfalse'
      · rw [List.mem_singleton] at h
        subst h
        exact ⟨piv.negated, List.mem_append.mpr
          (Or.inr (List.mem_singleton.mpr rfl)), hplev⟩
    · intro c hc ρ hρ
      rcases List.mem_append.mp hc with h | h
      · exact hCE1 c h ρ hρ
      · rw [List.mem_singleton] at h
        subst h
        exact hentC ρ hρ
  have hT2 : r2 < ({ s₁ with clauses :=
      s₁.clauses ++ [Clause.new (mids ++ [piv.negated])] } :
      State).assignment_stack.len := hrlt
  obtain ⟨b1, b2, b3, b4, b5, b6, b7⟩ :=
    backjump_spec (({ s₁ with clauses := s₁.clauses ++
        [Clause.new (mids ++ [piv.negated])] } :
        State).assignment_stack.len - r2) _ r2 hCore2.2.2.1 rfl
      (Nat.le_of_lt hT2)
  have hdrop_top : ∀ v, levelOf s₁ v = some s₁.assignment_stack.len →
      v ∈ droppedVars { s₁ with clauses := s₁.clauses ++
        [Clause.new (mids ++ [piv.negated])] } r2 := by
    intro v hlev
    obtain ⟨nd, hnd, hndlev⟩ := levelOf_some_node hlev
    exact (droppedVars_iff hCore2 hT2 v).mpr ⟨nd, hnd, by omega⟩
  refine ⟨backjump_coreInv hCore2 hT2, ?_, ?_, ?_, ?_⟩
  · -- TopInv: no clause is falsified after the backjump at all
    intro hL3 c hc hfalse3
    exfalso
    rw [b1] at hc
    have hfalse1 : ∀ a, a ∈ c.body →
        litFalse s₁.assignments a ∧ a.get_var.id ∉ droppedVars
          { s₁ with clauses := s₁.clauses ++
            [Clause.new (mids ++ [piv.negated])] } r2 := by
      intro a ha
      have hf3 := hfalse3 a ha
      unfold litFalse at hf3
      rw [b6] at hf3
      by_cases hd : a.get_var.id ∈ droppedVars
          { s₁ with clauses := s₁.clauses ++
            [Clause.new (mids ++ [piv.negated])] } r2
      · rw [if_pos hd] at hf3
        exact absurd hf3 (by simp)
      · rw [if_neg hd] at hf3
        exact ⟨hf3, hd⟩
    rcases List.mem_append.mp hc with h | h
    · obtain ⟨b, hb, hlevb⟩ := hTI1 (by omega) c h
        (fun a ha => (hfalse1 a ha).1)
      exact (hfalse1 b hb).2 (hdrop_top _ hlevb)
    · rw [List.mem_singleton] at h
      subst h
      have hmem : piv.negated ∈
          (Clause.new (mids ++ [piv.negated])).body :=
        List.mem_append.mpr (Or.inr (List.mem_singleton.mpr rfl))
      exact (hfalse1 piv.negated hmem).2 (hdrop_top _ hplev)
  · -- ClausesEnt
    intro c hc ρ hρ
    rw [b1] at hc
    exact hI2.2.2.1 c hc ρ hρ
  · -- Forced0
    intro v hlev ρ hρ
    obtain ⟨nd, hnd, hndlev⟩ := levelOf_some_node hlev
    rw [b7] at hnd
    by_cases hd : v ∈ droppedVars { s₁ with clauses := s₁.clauses ++
        [Clause.new (mids ++ [piv.negated])] } r2
    · rw [if_pos hd] at hnd
      exact absurd hnd (by simp)
    · rw [if_neg hd] at hnd
      have hlev1 : levelOf s₁ v = some 0 := by
        unfold levelOf
        rw [hnd]
        simp only [Option.map_some']
        rw [hndlev]
      have := hF01 v hlev1 ρ hρ
      rw [this]
      unfold polOf
      rw [b6, if_neg hd]
  · -- DerivSem
    intro v lev ins hnd ρ hρ hall
    rw [b7] at hnd
    by_cases hd : v ∈ droppedVars { s₁ with clauses := s₁.clauses ++
        [Clause.new (mids ++ [piv.negated])] } r2
    · rw [if_pos hd] at hnd
      exact absurd hnd (by simp)
    · rw [if_neg hd] at hnd
      have := hDS1 v lev ins hnd ρ hρ hall
      rw [this]
      unfold polOf
      rw [b6, if_neg hd]

theorem getD_replicate_none {α : Type} (n v : Nat) :
    (List.replicate n (none : Option α)).getD v none = none := by
  by_cases h : v < n
  · rw [getD_in _ (by rw [List.length_replicate]; omega) none,
      List.getElem_replicate]
  · exact getD_oob _ _ (by rw [List.length_replicate]; omega)

/-- The whole solver invariant holds for a fresh state over its own
clause list. -/
theorem solverInv_new (clauses : List Clause) (n : Nat)
    (hwf : ∀ c ∈ clauses, ∀ a ∈ c.body, a.get_var.id < n) :
    SolverInv clauses (State.new clauses n) := by
  have hga : (State.new clauses n).derivation_graph =
      List.replicate n none := rfl
  have hassn : (State.new clauses n).assignments =
      List.replicate n none := rfl
  refine ⟨⟨?_, ?_, ?_, ?_, ?_, ?_, ?_, ?_, ?_, ?_, ?_⟩, ?_, ?_, ?_, ?_⟩
  · unfold WfLens
    rw [hga, hassn, List.length_replicate, List.length_replicate]
  · intro c hc a ha
    rw [hassn, List.length_replicate]
    exact hwf c hc a ha
  · exact List.chain'_singleton _
  · intro a ha
    exact absurd ha (List.not_mem_nil a)
  · intro v hv
    rw [hassn, hga, getD_replicate_none, getD_replicate_none]
    exact Iff.rfl
  · intro v hv
    rw [hassn, getD_replicate_none]
    constructor
    · intro h
      exact absurd h (by simp)
    · intro h
      exact absurd h (List.not_mem_nil v)
  · exact List.nodup_nil
  · intro a ha
    exact absurd ha (List.not_mem_nil a)
  · intro p hp
    have hz : (State.new clauses n).assignment_stack.values.length = 0 :=
      rfl
    omega
  · intro v hv
    unfold guessNodeCond
    rw [hga, getD_replicate_none]
    exact trivial
  · intro v hv
    unfold derivNodeCond
    rw [hga, getD_replicate_none]
    exact trivial
  · intro hL
    exact absurd hL (by simp [State.new, StackStack.new, StackStack.len])
  · intro c hc ρ hρ
    exact hρ c hc
  · intro v hlev
    unfold levelOf at hlev
    rw [hga, getD_replicate_none] at hlev
    exact absurd hlev (by simp)
  · intro v lev ins hnd
    rw [hga, getD_replicate_none] at hnd
    exact absurd hnd (by simp)

/-- The states `sat()` passes through, starting from a fresh state. -/
inductive Reachable (clauses : List Clause) (num_vars : Nat) :
    State → Prop where
  | init : Reachable clauses num_vars (State.new clauses num_vars)
  | step {s s' : State} : Reachable clauses num_vars s →
      satStep s = .next s' → Reachable clauses num_vars s'

/-- One `sat()` iteration that continues preserves the solver
invariant. -/
theorem satStep_solverInv {F : List Clause} {s s' : State}
    (hInv : SolverInv F s) (h : satStep s = .next s') :
    SolverInv F s' := by
  cases hscan : s.unit_prop_scan with
  | none =>
    rw [satStep_eq_scan_stuck hscan] at h
    exact absurd h (by simp)
  | some res =>
    cases res with
    | Done s₁ =>
      cases hg : s₁.guess with
      | none =>
        rw [satStep_eq_done_sat hscan hg] at h
        exact absurd h (by simp)
      | some g =>
        rw [satStep_eq_done_guess hscan hg] at h
        simp only [StepResult.next.injEq] at h
        obtain ⟨hI1, -, hq⟩ := (scanLoop_inv F _ s hInv).1 s₁ hscan
        rw [← h]
        exact make_guess_solverInv hI1 hg hq
    | Conflict inputs s₁ =>
      by_cases hz : s₁.assignment_stack.len = 0
      · rw [satStep_eq_conflict_zero hscan hz] at h
        exact absurd h (by simp)
      · cases hac : s₁.analyse_conflict inputs with
        | none =>
          rw [satStep_eq_conflict_stuck hscan hz hac] at h
          exact absurd h (by simp)
        | some p =>
          obtain ⟨C, r2⟩ := p
          rw [satStep_eq_conflict_next hscan hz hac] at h
          simp only [StepResult.next.injEq] at h
          obtain ⟨hI1, -, hsrc⟩ := (scanLoop_inv F _ s hInv).2 inputs
            s₁ hscan
          rw [← h]
          exact conflict_step_solverInv hI1 hz hsrc hac

/-- Every reachable state satisfies the whole solver invariant. -/
theorem reachable_solverInv {clauses : List Clause} {n : Nat}
    {s : State}
    (hwf : ∀ c ∈ clauses, ∀ a ∈ c.body, a.get_var.id < n)
    (hr : Reachable clauses n s) : SolverInv clauses s := by
  induction hr with
  | init => exact solverInv_new clauses n hwf
  | step hr hstep ih => exact satStep_solverInv ih hstep

/-- C8: at every loop boundary of `sat()` (i.e. in every reachable
state), the three state structures agree: a variable's slot in the
assignment map is set iff a literal for that variable is on the layered
assignment stack, iff the variable has an implication-graph entry — all
three describe the same set of assigned variables. -/
theorem claim_C8_three_structure_agreement (clauses : List Clause)
    (num_vars : Nat) (s : State)
    (hwf : ∀ c ∈ clauses, ∀ a ∈ c.body, a.get_var.id < num_vars)
    (hr : Reachable clauses num_vars s) :
    ∀ v < s.assignments.length,
      ((s.assignments.getD v none).isSome ↔ v ∈ stackVars s) ∧
      ((s.assignments.getD v none).isSome ↔
        (s.derivation_graph.getD v none).isSome) ∧
      (v ∈ stackVars s ↔ (s.derivation_graph.getD v none).isSome) := by
  have hI := reachable_solverInv hwf hr
  intro v hv
  have h1 := hI.1.2.2.2.2.2.1 v hv
  have h2 := hI.1.2.2.2.2.1 v hv
  exact ⟨h1, h2, h1.symm.trans h2⟩

/-- Witness for C8: the fresh state of the one-clause formula `x0`. -/
theorem claim_C8_witness :
    (∀ c ∈ [Clause.new [VarRef.as_atom { id := 0 } true]], ∀ a ∈ c.body,
      a.get_var.id < 1) ∧
    (∀ v < (State.new [Clause.new [VarRef.as_atom { id := 0 } true]]
        1).assignments.length,
      (((State.new [Clause.new [VarRef.as_atom { id := 0 } true]]
          1).assignments.getD v none).isSome ↔
        v ∈ stackVars (State.new
          [Clause.new [VarRef.as_atom { id := 0 } true]] 1)) ∧
      (((State.new [Clause.new [VarRef.as_atom { id := 0 } true]]
          1).assignments.getD v none).isSome ↔
        ((State.new [Clause.new [VarRef.as_atom { id := 0 } true]]
          1).derivation_graph.getD v none).isSome) ∧
      (v ∈ stackVars (State.new
          [Clause.new [VarRef.as_atom { id := 0 } true]] 1) ↔
        ((State.new [Clause.new [VarRef.as_atom { id := 0 } true]]
          1).derivation_graph.getD v none).isSome)) :=
  ⟨by decide,
   claim_C8_three_structure_agreement
     [Clause.new [VarRef.as_atom { id := 0 } true]] 1 _
     (by decide) Reachable.init⟩

/-! ## Scan fuel sufficiency -/

theorem countP_set_dec {α : Type} (p : α → Bool) :
    ∀ (l : List α) (i : Nat) (y : α), i < l.length →
      (∀ h : i < l.length, p l[i] = true) → p y = false →
      (l.set i y).countP p + 1 = l.countP p := by
  intro l
  induction l with
  | nil =>
    intro i y hi
    exact absurd hi (by simp)
  | cons a l ih =>
    intro i y hi hpi hpy
    cases i with
    | zero =>
      rw [List.set_cons_zero, List.countP_cons, List.countP_cons]
      have ha : p a = true := hpi (by simp)
      rw [ha, hpy]
      simp
    | succ i =>
      rw [List.set_cons_succ, List.countP_cons, List.countP_cons]
      have hi' : i < l.length := by
        rw [List.length_cons] at hi
        omega
      have := ih i y hi' (fun h => hpi (by rw [List.length_cons]; omega))
        hpy
      omega

theorem installUnit_noneCount {s : State} {ins : List Atom} {out : Atom}
    (hunset : s.assignments.getD out.get_var.id none = none)
    (hvn : out.get_var.id < s.assignments.length) :
    (installUnit s ins out).noneCount < s.noneCount := by
  unfold State.noneCount
  have hassn : (installUnit s ins out).assignments =
      s.assignments.set out.get_var.id (some out.polarity) := rfl
  rw [hassn]
  have := countP_set_dec (fun slot => decide (slot = none))
    s.assignments out.get_var.id (some out.polarity) hvn
    (fun h => by
      rw [getD_in _ hvn none] at hunset
      rw [hunset]
      rfl)
    (by simp)
  omega

theorem scanPass_noneCount (F : List Clause) :
    ∀ (cs : List Clause) (s : State) (d : Bool),
      SolverInv F s → (∀ c ∈ cs, c ∈ s.clauses) →
      ∀ s' d', scanPass s d cs = .Completed s' d' →
        s'.noneCount ≤ s.noneCount ∧
        (d = false → d' = true → s'.noneCount < s.noneCount) := by
  intro cs
  induction cs with
  | nil =>
    intro s d hInv hsub s' d' h
    rw [scanPass] at h
    cases h
    exact ⟨le_refl _, fun h1 h2 => absurd (h1 ▸ h2) (by simp)⟩
  | cons c rest ih =>
    intro s d hInv hsub s' d' h
    have hcs : c ∈ s.clauses := hsub c (List.mem_cons_self c rest)
    rw [scanPass] at h
    cases hupc : c.unit_prop_clause s.assignments with
    | Conflict =>
      rw [hupc] at h
      exact absurd h (by simp)
    | None =>
      rw [hupc] at h
      exact ih s d hInv (fun x hx => hsub x (List.mem_cons_of_mem c hx))
        s' d' h
    | UnitProp ins out =>
      rw [hupc] at h
      obtain ⟨hmemo, hunseto, -, -, -⟩ :=
        (upc_unitProp_iff c s.assignments ins out).mp hupc
      have hvn : out.get_var.id < s.assignments.length :=
        hInv.1.2.1 c hcs out hmemo
      have hdec := @installUnit_noneCount s ins out hunseto hvn
      have hInv2 := installUnit_solverInv hInv hcs hupc
      obtain ⟨hle, -⟩ := ih (installUnit s ins out) true hInv2
        (fun x hx => hsub x (List.mem_cons_of_mem c hx)) s' d' h
      exact ⟨by omega, fun _ _ => by omega⟩

theorem scanLoop_some (F : List Clause) :
    ∀ (fuel : Nat) (s : State), SolverInv F s →
      s.noneCount < fuel → scanLoop fuel s ≠ none := by
  intro fuel
  induction fuel with
  | zero =>
    intro s hInv hcnt
    omega
  | succ fuel ih =>
    intro s hInv hcnt
    rw [scanLoop]
    cases hp : scanPass s false s.clauses with
    | Conflict inputs s₁ => simp
    | Completed s₁ d =>
      cases d with
      | false => simp
      | true =>
        obtain ⟨hI1, -⟩ :=
          (scanPass_inv F s.clauses s false hInv (fun x hx => hx)).1 s₁
            true hp
        obtain ⟨-, hlt⟩ := scanPass_noneCount F s.clauses s false hInv
          (fun x hx => hx) s₁ true hp
        exact ih s₁ hI1 (by have := hlt rfl rfl; omega)

/-- On an invariant state, the scan's fuel suffices, `analyse_conflict`
never hits a panic, and a `sat()` iteration never gets stuck. -/
theorem satStep_has_result {F : List Clause} {s : State}
    (hI : SolverInv F s) :
    s.unit_prop_scan ≠ none ∧
    (∀ inputs s₁, s.unit_prop_scan = some (.Conflict inputs s₁) →
      s₁.assignment_stack.len ≠ 0 →
      s₁.analyse_conflict inputs ≠ none) ∧
    satStep s ≠ .stuck := by
  have hscanSome : s.unit_prop_scan ≠ none :=
    scanLoop_some F (s.noneCount + 1) s hI (by omega)
  have hanalyse : ∀ inputs s₁,
      s.unit_prop_scan = some (.Conflict inputs s₁) →
      s₁.assignment_stack.len ≠ 0 →
      s₁.analyse_conflict inputs ≠ none := by
    intro inputs s₁ hscan hz
    obtain ⟨hI1, -, c₀, hc₀, hinputs, hfalse⟩ :=
      (scanLoop_inv F _ s hI).2 inputs s₁ hscan
    obtain ⟨hin, hcur, hent⟩ :=
      conflict_cut_facts hI1 hz hc₀ hinputs hfalse
    obtain ⟨piv, r2, mids, heq, -⟩ :=
      analyse_conflict_spec F hI1.1 (by omega) hI1.2.2.2.1
        hI1.2.2.2.2 hin hcur hent
    rw [heq]
    simp
  refine ⟨hscanSome, hanalyse, ?_⟩
  cases hscan : s.unit_prop_scan with
  | none => exact absurd hscan hscanSome
  | some res =>
    cases res with
    | Done s₁ =>
      cases hg : s₁.guess with
      | none =>
        rw [satStep_eq_done_sat hscan hg]
        simp
      | some g =>
        rw [satStep_eq_done_guess hscan hg]
        simp
    | Conflict inputs s₁ =>
      by_cases hz : s₁.assignment_stack.len = 0
      · rw [satStep_eq_conflict_zero hscan hz]
        simp
      · cases hac : s₁.analyse_conflict inputs with
        | none => exact absurd hac (hanalyse inputs s₁ hscan hz)
        | some p =>
          obtain ⟨C, r2⟩ := p
          rw [satStep_eq_conflict_next hscan hz hac]
          simp

/-- C9: in every state reachable by `sat()` from a fresh state over a
well-formed clause list, the propagation scan terminates (its fuel never
runs out) and, whenever it reports a conflict above level 0,
`analyse_conflict` returns a value — so the three structural panics
inside `analyse_conflict` (a cut literal with no derivation-graph entry,
a `Guess` pivot reached while `cur_level_size > 0`, and exhaustion of the
current-level iterator before finding the UIP), which this embedding
models as its `none` results, are unreachable; in particular a `sat()`
iteration never gets stuck. -/
theorem claim_C9_panics_unreachable (clauses : List Clause)
    (num_vars : Nat) (s : State)
    (hwf : ∀ c ∈ clauses, ∀ a ∈ c.body, a.get_var.id < num_vars)
    (hr : Reachable clauses num_vars s) :
    s.unit_prop_scan ≠ none ∧
    (∀ inputs s₁, s.unit_prop_scan = some (.Conflict inputs s₁) →
      s₁.assignment_stack.len ≠ 0 →
      s₁.analyse_conflict inputs ≠ none) ∧
    satStep s ≠ .stuck :=
  satStep_has_result (reachable_solverInv hwf hr)

/-- Witness for C9: the fresh state of the one-clause formula `x0`. -/
theorem claim_C9_witness :
    (∀ c ∈ [Clause.new [VarRef.as_atom { id := 0 } true]], ∀ a ∈ c.body,
      a.get_var.id < 1) ∧
    (State.new [Clause.new [VarRef.as_atom { id := 0 } true]]
        1).unit_prop_scan ≠ none ∧
    (∀ inputs s₁,
      (State.new [Clause.new [VarRef.as_atom { id := 0 } true]]
        1).unit_prop_scan = some (.Conflict inputs s₁) →
      s₁.assignment_stack.len ≠ 0 →
      s₁.analyse_conflict inputs ≠ none) ∧
    satStep (State.new [Clause.new [VarRef.as_atom { id := 0 } true]] 1)
      ≠ .stuck :=
  ⟨by decide,
   claim_C9_panics_unreachable
     [Clause.new [VarRef.as_atom { id := 0 } true]] 1 _
     (by decide) Reachable.init⟩

/-- A level-0 conflict refutes the original clause list: a clause of the
current list that is fully falsified while no decisions are open cannot
be satisfied by any model of the originals. -/
theorem level0_conflict_unsat {F : List Clause} {s₁ : State}
    (hI1 : SolverInv F s₁) (hz : s₁.assignment_stack.len = 0)
    {c₀ : Clause} (hc₀ : c₀ ∈ s₁.clauses)
    (hfalse : ∀ a ∈ c₀.body, litFalse s₁.assignments a) :
    ∀ ρ : Nat → Bool, ¬ cnfSatBy ρ F := by
  intro ρ hρ
  obtain ⟨b, hb, hbt⟩ := hI1.2.2.1 c₀ hc₀ ρ hρ
  have hbf := hfalse b hb
  have hbvn : b.get_var.id < s₁.assignments.length := by
    by_contra hge
    unfold litFalse at hbf
    rw [getD_oob _ _ (by omega)] at hbf
    exact absurd hbf (by simp)
  have hsome : (s₁.assignments.getD b.get_var.id none).isSome := by
    unfold litFalse at hbf
    rw [hbf]
    rfl
  obtain ⟨nd, hnd⟩ := Option.isSome_iff_exists.mp
    ((hI1.1.2.2.2.2.1 b.get_var.id hbvn).mp hsome)
  have hle := coreInv_levels_le hI1.1 _ _ hnd
  have hforced := hI1.2.2.2.1 b.get_var.id (by
    unfold levelOf
    rw [hnd]
    simp only [Option.map_some', Option.some.injEq]
    omega) ρ hρ
  rw [litFalse_polOf hbf] at hforced
  rw [hbt] at hforced
  exact absurd hforced (by simp)

/-- Along a run from an invariant state, an UNSAT verdict refutes the
original clause list. -/
theorem satFuel_false_unsat (F : List Clause) :
    ∀ (fuel : Nat) (s : State), SolverInv F s →
      ∀ s', satFuel fuel s = some (false, s') →
        ∀ ρ : Nat → Bool, ¬ cnfSatBy ρ F := by
  intro fuel
  induction fuel with
  | zero =>
    intro s hInv s' h
    rw [satFuel] at h
    exact absurd h (by simp)
  | succ fuel ih =>
    intro s hInv s' h
    rw [satFuel] at h
    cases hstep : satStep s with
    | next s₁ =>
      rw [hstep] at h
      exact ih s₁ (satStep_solverInv hInv hstep) s' h
    | stuck =>
      rw [hstep] at h
      exact absurd h (by simp)
    | done b s₁ =>
      rw [hstep] at h
      simp only [Option.some.injEq, Prod.mk.injEq] at h
      obtain ⟨hb, hs⟩ := h
      cases hscan : s.unit_prop_scan with
      | none =>
        rw [satStep_eq_scan_stuck hscan] at hstep
        exact absurd hstep (by simp)
      | some res =>
        cases res with
        | Done s₂ =>
          cases hg : s₂.guess with
          | some g =>
            rw [satStep_eq_done_guess hscan hg] at hstep
            exact absurd hstep (by simp)
          | none =>
            rw [satStep_eq_done_sat hscan hg] at hstep
            simp only [StepResult.done.injEq] at hstep
            rw [← hstep.1] at hb
            exact absurd hb (by simp)
        | Conflict inputs s₂ =>
          by_cases hz : s₂.assignment_stack.len = 0
          · obtain ⟨hI2, -, c₀, hc₀, -, hfalse⟩ :=
              (scanLoop_inv F _ s hInv).2 inputs s₂ hscan
            exact level0_conflict_unsat hI2 hz hc₀ hfalse
          · cases hac : s₂.analyse_conflict inputs with
            | none =>
              rw [satStep_eq_conflict_stuck hscan hz hac] at hstep
              exact absurd hstep (by simp)
            | some p =>
              obtain ⟨C, r2⟩ := p
              rw [satStep_eq_conflict_next hscan hz hac] at hstep
              exact absurd hstep (by simp)

/-- C2: if `State::sat()` returns false (UNSAT) on a fresh state over a
well-formed clause list, then no total assignment of the variables
satisfies every original input clause. -/
theorem claim_C2_unsat_sound (clauses : List Clause) (num_vars : Nat)
    (fuel : Nat) (s' : State)
    (hwf : ∀ c ∈ clauses, ∀ a ∈ c.body, a.get_var.id < num_vars)
    (h : satFuel fuel (State.new clauses num_vars) = some (false, s')) :
    ∀ ρ : Nat → Bool, ¬ cnfSatBy ρ clauses :=
  satFuel_false_unsat clauses fuel (State.new clauses num_vars)
    (solverInv_new clauses num_vars hwf) s' h

/-- Witness for C2: the formula `x0 ∧ !x0` is refuted in one `sat()`
iteration, and the theorem yields its unsatisfiability. -/
theorem claim_C2_witness :
    (∀ c ∈ [Clause.new [VarRef.as_atom { id := 0 } true],
        Clause.new [VarRef.as_atom { id := 0 } false]], ∀ a ∈ c.body,
      a.get_var.id < 1) ∧
    (∃ s', satFuel 1
        (State.new [Clause.new [VarRef.as_atom { id := 0 } true],
          Clause.new [VarRef.as_atom { id := 0 } false]] 1) =
        some (false, s') ∧
      ∀ ρ : Nat → Bool, ¬ cnfSatBy ρ
        [Clause.new [VarRef.as_atom { id := 0 } true],
         Clause.new [VarRef.as_atom { id := 0 } false]]) := by
  refine ⟨by decide, ?_⟩
  cases hres : satFuel 1
      (State.new [Clause.new [VarRef.as_atom { id := 0 } true],
        Clause.new [VarRef.as_atom { id := 0 } false]] 1) with
  | none => exact absurd hres (by decide)
  | some p =>
    obtain ⟨b, sfin⟩ := p
    have hb : b = false := by
      have : (satFuel 1
        (State.new [Clause.new [VarRef.as_atom { id := 0 } true],
          Clause.new [VarRef.as_atom { id := 0 } false]] 1)).map
          Prod.fst = some false := by decide
      rw [hres] at this
      simpa using this
    subst hb
    exact ⟨sfin, rfl,
      claim_C2_unsat_sound _ 1 1 sfin (by decide) hres⟩

/-! ### Termination of the search loop

The measure: each assigned variable contributes a weight that grows as its
decision level shrinks, and a pending unit/conflict adds the weight of the
next assignment at the current level.  Every continuing `sat()` iteration
strictly increases the measure, which is bounded, so the loop terminates. -/

/-- `unit_prop_clause` reads the assignment map only through `getD`, so a
pointwise-equal map yields the same `None` verdict. -/
theorem upc_none_congr {l l' : Assignments}
    (h : ∀ v, l.getD v none = l'.getD v none) (c : Clause)
    (hn : c.unit_prop_clause l' = .None) :
    c.unit_prop_clause l = .None := by
  rw [upc_none_iff] at hn ⊢
  have hfil : c.body.filter (unsetB l) = c.body.filter (unsetB l') :=
    List.filter_congr fun a ha => by unfold unsetB; rw [h]
  have hF : ∀ a : Atom, litFalse l a ↔ litFalse l' a := fun a => by
    unfold litFalse; rw [h]
  have hU : ∀ a : Atom, litUnset l a ↔ litUnset l' a := fun a => by
    unfold litUnset; rw [h]
  constructor
  · intro hall
    exact hn.1 fun a ha => (hF a).mp (hall a ha)
  · rintro ⟨hall, hlen⟩
    refine hn.2 ⟨fun a ha => (hall a ha).imp (hU a).mp (hF a).mp, ?_⟩
    rw [← hfil]
    exact hlen

/-- A propagation scan that starts with a pending unit or conflict and
finishes `Done` must assign at least one new variable. -/
theorem scan_done_new_assign {F : List Clause} {s s₁ : State}
    (hInv : SolverInv F s) (hP : Pend s)
    (hscan : s.unit_prop_scan = some (.Done s₁)) :
    ∃ v₀, v₀ < s.assignments.length ∧
      s.assignments.getD v₀ none = none ∧
      s₁.assignments.getD v₀ none ≠ none := by
  obtain ⟨hI1, hFr, hfix⟩ := (scanLoop_inv F _ s hInv).1 s₁ hscan
  by_contra hno
  push_neg at hno
  have hag : ∀ v, s.assignments.getD v none =
      s₁.assignments.getD v none := by
    intro v
    by_cases hv : v < s.assignments.length
    · by_cases hset : s.assignments.getD v none = none
      · rcases hFr.2.2.2.2.2 v hset with ⟨h1, -⟩ | ⟨-, h2⟩
        · rw [hset, h1]
        · exact absurd (hno v hv hset) h2
      · exact ((hFr.2.2.2.2.1 v hset).1).symm
    · rw [getD_oob _ _ (by omega),
        getD_oob _ _ (by rw [hFr.2.2.1]; omega)]
  obtain ⟨c, hc, hne⟩ := hP
  have hc1 : c ∈ s₁.clauses := by rw [hFr.1]; exact hc
  exact hne (upc_none_congr hag c (hfix c hc1))

/-- The weight of one derivation-graph slot, over `n` variables: an
assignment at level `lev` weighs `(n + 2) ^ (n - lev)`. -/
def nodeWeight (n : Nat) : Option DerivationGraphNode → Nat
  | none => 0
  | some nd => (n + 2) ^ (n - nd.level)

/-- The total weight of a derivation graph over `n` variables. -/
def psiSum (n : Nat) (graph : List (Option DerivationGraphNode)) : Nat :=
  (Finset.range n).sum fun v => nodeWeight n (graph.getD v none)

/-- The assigned-variable part of the termination measure. -/
def psiBase (s : State) : Nat :=
  psiSum s.assignments.length s.derivation_graph

instance pendDecidable (s : State) : Decidable (Pend s) :=
  inferInstanceAs (Decidable (∃ c ∈ s.clauses,
    c.unit_prop_clause s.assignments ≠ .None))

/-- The termination measure: slot weights, plus — when a unit or conflict
is pending — the weight of the next assignment at the current level. -/
def psi (s : State) : Nat :=
  psiBase s +
    if Pend s then
      (s.assignments.length + 2) ^
        (s.assignments.length - s.assignment_stack.len)
    else 0

theorem nodeWeight_le (n : Nat) (o : Option DerivationGraphNode) :
    nodeWeight n o ≤ (n + 2) ^ n := by
  cases o with
  | none => exact Nat.zero_le _
  | some nd => exact Nat.pow_le_pow_right (by omega) (by omega)

/-- Strictly increasing level boundaries dominate their index. -/
theorem wfTops_ge_index {s : State} (hW : WfTops s) :
    ∀ i, i < s.assignment_stack.tops.length →
      i ≤ s.assignment_stack.tops.getD i 0 := by
  intro i
  induction i with
  | zero => intro h; exact Nat.zero_le _
  | succ i ih =>
    intro h
    have h1 := ih (by omega)
    have h2 := wfTops_strict hW (show i < i + 1 by omega) h
    omega

/-- The number of open levels never exceeds the number of variables. -/
theorem len_le_assignments {s : State} (hCore : CoreInv s) :
    s.assignment_stack.len ≤ s.assignments.length := by
  obtain ⟨hW1, hW2, hW3, hW4, hA1, hA2, hA3, hA4, hL1, hG, hD⟩ := hCore
  have hvals : s.assignment_stack.values.length ≤
      s.assignments.length := by
    have hsub : (stackVars s).toFinset ⊆
        Finset.range s.assignments.length := by
      intro x hx
      rw [List.mem_toFinset] at hx
      obtain ⟨a, ha, hav⟩ := List.mem_map.mp hx
      rw [Finset.mem_range, ← hav]
      exact hW4 a ha
    have hcard := Finset.card_le_card hsub
    rw [List.toFinset_card_of_nodup hA3, Finset.card_range] at hcard
    have hlenmap : (stackVars s).length =
        s.assignment_stack.values.length := List.length_map _ _
    omega
  have hlen_eq : s.assignment_stack.len =
      s.assignment_stack.tops.length := rfl
  by_cases hz : s.assignment_stack.len = 0
  · omega
  · have hlt : s.assignment_stack.len - 1 <
        s.assignment_stack.tops.length := by omega
    have hge := wfTops_ge_index hW3 (s.assignment_stack.len - 1) hlt
    have hup := wfTops_lt_values hW3 hlt
    omega

/-- Setting a node on a previously empty slot adds exactly its weight. -/
theorem psiSum_set (n : Nat) (graph : List (Option DerivationGraphNode))
    {v₀ : Nat} (hv : v₀ < n) (hv' : v₀ < graph.length)
    (hold : graph.getD v₀ none = none) (nd : DerivationGraphNode) :
    psiSum n (graph.set v₀ (some nd)) =
      psiSum n graph + nodeWeight n (some nd) := by
  unfold psiSum
  rw [← Finset.sum_erase_add (Finset.range n)
      (fun v => nodeWeight n ((graph.set v₀ (some nd)).getD v none))
      (Finset.mem_range.mpr hv),
    ← Finset.sum_erase_add (Finset.range n)
      (fun v => nodeWeight n (graph.getD v none))
      (Finset.mem_range.mpr hv)]
  have h1 : ∑ x ∈ (Finset.range n).erase v₀,
      nodeWeight n ((graph.set v₀ (some nd)).getD x none) =
      ∑ x ∈ (Finset.range n).erase v₀,
        nodeWeight n (graph.getD x none) :=
    Finset.sum_congr rfl fun x hx => by
      rw [getD_set_other _ _ _ (Ne.symm (Finset.ne_of_mem_erase hx))]
  have h2 : (graph.set v₀ (some nd)).getD v₀ none = some nd :=
    getD_set_self _ _ _ _ hv'
  have h3 : nodeWeight n (graph.getD v₀ none) = 0 := by rw [hold]; rfl
  rw [h1, h2]
  omega

/-- Pointwise weight domination gives sum domination. -/
theorem psiSum_le (n : Nat) (g g' : List (Option DerivationGraphNode))
    (h : ∀ v < n, nodeWeight n (g.getD v none) ≤
      nodeWeight n (g'.getD v none)) :
    psiSum n g ≤ psiSum n g' :=
  Finset.sum_le_sum fun v hv => h v (Finset.mem_range.mp hv)

/-- Pointwise domination up to a uniform slack `c` gives sum domination up
to `n * c`. -/
theorem psiSum_le_add (n : Nat)
    (g g' : List (Option DerivationGraphNode)) (c : Nat)
    (h : ∀ v < n, nodeWeight n (g.getD v none) ≤
      nodeWeight n (g'.getD v none) + c) :
    psiSum n g ≤ psiSum n g' + n * c := by
  unfold psiSum
  calc (Finset.range n).sum (fun v => nodeWeight n (g.getD v none)) ≤
      (Finset.range n).sum
        (fun v => nodeWeight n (g'.getD v none) + c) :=
        Finset.sum_le_sum fun v hv => h v (Finset.mem_range.mp hv)
    _ = (Finset.range n).sum
        (fun v => nodeWeight n (g'.getD v none)) +
        (Finset.range n).sum (fun _ => c) := Finset.sum_add_distrib
    _ = (Finset.range n).sum
        (fun v => nodeWeight n (g'.getD v none)) + n * c := by
        rw [Finset.sum_const, Finset.card_range, smul_eq_mul]

/-- Pointwise domination plus a guaranteed extra weight at one previously
empty slot gives a strict sum gain. -/
theorem psiSum_add_le (n : Nat)
    {g g' : List (Option DerivationGraphNode)} {v₀ : Nat} (hv : v₀ < n)
    (h : ∀ v < n, nodeWeight n (g.getD v none) ≤
      nodeWeight n (g'.getD v none))
    (h0 : g.getD v₀ none = none) {c : Nat}
    (hc : c ≤ nodeWeight n (g'.getD v₀ none)) :
    psiSum n g + c ≤ psiSum n g' := by
  unfold psiSum
  rw [← Finset.sum_erase_add (Finset.range n)
      (fun v => nodeWeight n (g.getD v none))
      (Finset.mem_range.mpr hv),
    ← Finset.sum_erase_add (Finset.range n)
      (fun v => nodeWeight n (g'.getD v none))
      (Finset.mem_range.mpr hv)]
  have h1 : ∑ x ∈ (Finset.range n).erase v₀,
      nodeWeight n (g.getD x none) ≤
      ∑ x ∈ (Finset.range n).erase v₀,
        nodeWeight n (g'.getD x none) :=
    Finset.sum_le_sum fun x hx =>
      h x (Finset.mem_range.mp (Finset.mem_of_mem_erase hx))
  have h2 : nodeWeight n (g.getD v₀ none) = 0 := by rw [h0]; rfl
  omega

/-- Across a scan frame, every slot's weight can only grow. -/
theorem scanFrame_weight_le {s s₁ : State} (hCore : CoreInv s)
    (hFr : ScanFrame s s₁) (n : Nat) :
    ∀ v < n, nodeWeight n (s.derivation_graph.getD v none) ≤
      nodeWeight n (s₁.derivation_graph.getD v none) := by
  intro v hv
  by_cases hset : s.assignments.getD v none = none
  · rw [unset_no_node hCore hset]
    exact Nat.zero_le _
  · rw [(hFr.2.2.2.2.1 v hset).2]

/-- The measure is bounded by `(n + 1) * (n + 2) ^ n`. -/
theorem psi_le_bound (s : State) :
    psi s ≤ (s.assignments.length + 1) *
      (s.assignments.length + 2) ^ s.assignments.length := by
  have h1 : psiBase s ≤ s.assignments.length *
      (s.assignments.length + 2) ^ s.assignments.length := by
    unfold psiBase psiSum
    have := Finset.sum_le_card_nsmul (Finset.range s.assignments.length)
      (fun v => nodeWeight s.assignments.length
        (s.derivation_graph.getD v none))
      ((s.assignments.length + 2) ^ s.assignments.length)
      (fun x hx => nodeWeight_le _ _)
    rw [Finset.card_range, smul_eq_mul] at this
    exact this
  have h4 : (s.assignments.length + 1) *
      (s.assignments.length + 2) ^ s.assignments.length =
      s.assignments.length *
        (s.assignments.length + 2) ^ s.assignments.length +
      (s.assignments.length + 2) ^ s.assignments.length := by
    rw [Nat.add_mul, Nat.one_mul]
  unfold psi
  by_cases hP : Pend s
  · rw [if_pos hP]
    have h2 : (s.assignments.length + 2) ^
        (s.assignments.length - s.assignment_stack.len) ≤
        (s.assignments.length + 2) ^ s.assignments.length :=
      Nat.pow_le_pow_right (by omega) (by omega)
    omega
  · rw [if_neg hP]
    omega

/-- The guess branch of a `sat()` iteration strictly increases the
measure and keeps the number of variables. -/
theorem guess_step_psi {F : List Clause} {s s₁ : State} {g : Atom}
    (hInv : SolverInv F s)
    (hscan : s.unit_prop_scan = some (.Done s₁))
    (hg : s₁.guess = some g) :
    psi s < psi (s₁.make_guess g) ∧
    (s₁.make_guess g).assignments.length = s.assignments.length := by
  obtain ⟨hI1, hFr, hq⟩ := (scanLoop_inv F _ s hInv).1 s₁ hscan
  have hN1 : s₁.assignments.length = s.assignments.length := hFr.2.2.1
  have hGlen : s₁.derivation_graph.length = s.assignments.length := by
    rw [hFr.2.2.2.1]
    exact hInv.1.1
  have hlen1 : s₁.assignment_stack.len = s.assignment_stack.len := by
    show s₁.assignment_stack.tops.length =
      s.assignment_stack.tops.length
    rw [hFr.2.1]
  obtain ⟨hgpol, -, hgn, hgslot⟩ := guessScan_some s₁.assignments 0 g hg
  rw [Nat.sub_zero] at hgn hgslot
  have hassn2 : (s₁.make_guess g).assignments =
      s₁.assignments.set g.get_var.id (some g.polarity) := rfl
  have hgr2 : (s₁.make_guess g).derivation_graph =
      s₁.derivation_graph.set g.get_var.id
        (some (.Guess (s₁.assignment_stack.len + 1))) := rfl
  have hN2 : (s₁.make_guess g).assignments.length =
      s.assignments.length := by
    rw [hassn2, List.length_set, hN1]
  have hbase2 : psiBase (s₁.make_guess g) = psiBase s₁ +
      nodeWeight s.assignments.length
        (some (.Guess (s₁.assignment_stack.len + 1))) := by
    unfold psiBase
    rw [hN2, hN1, hgr2]
    exact psiSum_set s.assignments.length s₁.derivation_graph
      (by omega) (by omega) (unset_no_node hI1.1 hgslot) _
  have hwpos : 0 < nodeWeight s.assignments.length
      (some (.Guess (s₁.assignment_stack.len + 1))) :=
    pow_pos (by omega) _
  have hge2 : psiBase (s₁.make_guess g) ≤ psi (s₁.make_guess g) :=
    Nat.le_add_right _ _
  refine ⟨?_, hN2⟩
  by_cases hP : Pend s
  · obtain ⟨v₀, hv₀, hunset₀, hset₀⟩ :=
      scan_done_new_assign hInv hP hscan
    have hstep : psiBase s + (s.assignments.length + 2) ^
        (s.assignments.length - s.assignment_stack.len) ≤
        psiBase s₁ := by
      unfold psiBase
      rw [hN1]
      refine psiSum_add_le s.assignments.length hv₀
        (scanFrame_weight_le hInv.1 hFr _)
        (unset_no_node hInv.1 hunset₀) ?_
      rcases hFr.2.2.2.2.2 v₀ hunset₀ with ⟨h1, -⟩ | ⟨h2, -⟩
      · exact absurd h1 hset₀
      · cases hg1 : s₁.derivation_graph.getD v₀ none with
        | none => rw [hg1] at h2; exact absurd h2 (by simp)
        | some nd =>
          rw [hg1] at h2
          simp only [Option.map_some', Option.some.injEq] at h2
          show (s.assignments.length + 2) ^
              (s.assignments.length - s.assignment_stack.len) ≤
            (s.assignments.length + 2) ^
              (s.assignments.length - nd.level)
          rw [h2]
    have hpsis : psi s = psiBase s + (s.assignments.length + 2) ^
        (s.assignments.length - s.assignment_stack.len) := by
      unfold psi
      rw [if_pos hP]
    omega
  · have hpsis : psi s = psiBase s := by
      unfold psi
      rw [if_neg hP, Nat.add_zero]
    have hmono : psiBase s ≤ psiBase s₁ := by
      unfold psiBase
      rw [hN1]
      exact psiSum_le _ _ _ (scanFrame_weight_le hInv.1 hFr _)
    omega

/-- The conflict branch of a `sat()` iteration — learn the analysed
clause and backjump — strictly increases the measure and keeps the number
of variables. -/
theorem conflict_step_psi {F : List Clause} {s s₁ : State}
    {inputs : List Atom} {C : Clause} {r2 : Nat}
    (hInv : SolverInv F s)
    (hscan : s.unit_prop_scan = some (.Conflict inputs s₁))
    (hz : s₁.assignment_stack.len ≠ 0)
    (hac : s₁.analyse_conflict inputs = some (C, r2)) :
    psi s <
      psi (backjump { s₁ with clauses := s₁.clauses ++ [C] } r2) ∧
    (backjump { s₁ with clauses := s₁.clauses ++ [C] }
        r2).assignments.length = s.assignments.length := by
  obtain ⟨hI1, hFr, c₀, hc₀, hinputs, hfalse⟩ :=
    (scanLoop_inv F _ s hInv).2 inputs s₁ hscan
  obtain ⟨hin, hcur, -⟩ := conflict_cut_facts hI1 hz hc₀ hinputs hfalse
  obtain ⟨C', r2', piv, heq, hrlt, hCfalse, hpivT, hpivLev, hlen3,
    hunit⟩ := learned_clause_asserting s₁ inputs hI1.1 (by omega)
      hin hcur
  rw [hac] at heq
  obtain ⟨hCeq, hreq⟩ := Prod.mk.injEq .. ▸ Option.some.inj heq
  subst hreq
  subst hCeq
  obtain ⟨ins, hu⟩ := hunit
  have hN1 : s₁.assignments.length = s.assignments.length := hFr.2.2.1
  have hlen1 : s₁.assignment_stack.len = s.assignment_stack.len := by
    show s₁.assignment_stack.tops.length =
      s.assignment_stack.tops.length
    rw [hFr.2.1]
  have hCrange : ∀ a ∈ C.body,
      a.get_var.id < s₁.assignments.length := by
    intro a ha
    exact @litTrue_var_lt s₁ a.negated
      (litTrue_negated_iff.mpr (hCfalse a ha))
  have hCore2 : CoreInv { s₁ with clauses := s₁.clauses ++ [C] } :=
    coreInv_append_clause hI1.1 hCrange
  have hT2 : r2 < ({ s₁ with clauses := s₁.clauses ++ [C] } :
      State).assignment_stack.len := hrlt
  obtain ⟨b1, b2, b3, b4, b5, b6, b7⟩ :=
    backjump_spec (({ s₁ with clauses := s₁.clauses ++ [C] } :
        State).assignment_stack.len - r2) _ r2 hCore2.2.2.1 rfl
      (Nat.le_of_lt hT2)
  have hN3 : (backjump { s₁ with clauses := s₁.clauses ++ [C] }
      r2).assignments.length = s.assignments.length := by
    rw [b2]
    exact hN1
  have hC3mem : C ∈ (backjump { s₁ with clauses := s₁.clauses ++ [C] }
      r2).clauses := by
    rw [b1]
    show C ∈ s₁.clauses ++ [C]
    exact List.mem_append.mpr (Or.inr (List.mem_singleton.mpr rfl))
  have hPend3 : Pend (backjump { s₁ with clauses :=
      s₁.clauses ++ [C] } r2) := by
    refine ⟨C, hC3mem, ?_⟩
    rw [hu]
    simp
  have hr2N : r2 < s.assignments.length := by
    have hle := len_le_assignments hI1.1
    omega
  have hpoint : ∀ v < s.assignments.length,
      nodeWeight s.assignments.length
        (s.derivation_graph.getD v none) ≤
      nodeWeight s.assignments.length
        ((backjump { s₁ with clauses := s₁.clauses ++ [C] }
          r2).derivation_graph.getD v none) +
        (s.assignments.length + 2) ^
          (s.assignments.length - r2 - 1) := by
    intro v hv
    by_cases hset : s.assignments.getD v none = none
    · rw [unset_no_node hInv.1 hset]
      exact Nat.zero_le _
    · have hgeq : s₁.derivation_graph.getD v none =
          s.derivation_graph.getD v none := (hFr.2.2.2.2.1 v hset).2
      cases hnd : s.derivation_graph.getD v none with
      | none => exact Nat.zero_le _
      | some nd =>
        by_cases hlev : nd.level ≤ r2
        · have hnot : v ∉ droppedVars
              { s₁ with clauses := s₁.clauses ++ [C] } r2 := by
            intro hmem
            obtain ⟨nd', hnd', hgt⟩ :=
              (droppedVars_iff hCore2 hT2 v).mp hmem
            have h2 : ({ s₁ with clauses := s₁.clauses ++ [C] } :
                State).derivation_graph.getD v none = some nd := by
              show s₁.derivation_graph.getD v none = some nd
              rw [hgeq]
              exact hnd
            rw [h2] at hnd'
            rw [← Option.some.inj hnd'] at hgt
            omega
          have hkeep : (backjump { s₁ with clauses :=
              s₁.clauses ++ [C] } r2).derivation_graph.getD v none =
              some nd := by
            rw [b7 v, if_neg hnot]
            show s₁.derivation_graph.getD v none = some nd
            rw [hgeq]
            exact hnd
          rw [hkeep]
          exact Nat.le_add_right _ _
        · have hsmall : nodeWeight s.assignments.length (some nd) ≤
              (s.assignments.length + 2) ^
                (s.assignments.length - r2 - 1) := by
            show (s.assignments.length + 2) ^
                (s.assignments.length - nd.level) ≤
              (s.assignments.length + 2) ^
                (s.assignments.length - r2 - 1)
            exact Nat.pow_le_pow_right (by omega) (by omega)
          omega
  have hsum : psiBase s ≤
      psiBase (backjump { s₁ with clauses := s₁.clauses ++ [C] } r2) +
      s.assignments.length * (s.assignments.length + 2) ^
        (s.assignments.length - r2 - 1) := by
    unfold psiBase
    rw [hN3]
    exact psiSum_le_add _ _ _ _ hpoint
  have hpsi3 : psi (backjump { s₁ with clauses :=
      s₁.clauses ++ [C] } r2) =
      psiBase (backjump { s₁ with clauses := s₁.clauses ++ [C] } r2) +
      (s.assignments.length + 2) ^ (s.assignments.length - r2) := by
    unfold psi
    rw [if_pos hPend3, hN3, hlen3]
  have hpsis_le : psi s ≤ psiBase s + (s.assignments.length + 2) ^
      (s.assignments.length - s.assignment_stack.len) := by
    unfold psi
    by_cases hP : Pend s
    · rw [if_pos hP]
    · rw [if_neg hP]
      omega
  have hpmono : (s.assignments.length + 2) ^
      (s.assignments.length - s.assignment_stack.len) ≤
      (s.assignments.length + 2) ^
        (s.assignments.length - r2 - 1) :=
    Nat.pow_le_pow_right (by omega) (by omega)
  have hpowsplit : (s.assignments.length + 2) ^
      (s.assignments.length - r2) =
      s.assignments.length * (s.assignments.length + 2) ^
        (s.assignments.length - r2 - 1) +
      2 * (s.assignments.length + 2) ^
        (s.assignments.length - r2 - 1) := by
    have he : s.assignments.length - r2 =
        (s.assignments.length - r2 - 1) + 1 := by omega
    conv_lhs => rw [he]
    rw [pow_succ]
    ring
  have hppos : 0 < (s.assignments.length + 2) ^
      (s.assignments.length - r2 - 1) := pow_pos (by omega) _
  refine ⟨?_, hN3⟩
  omega

/-- Every continuing `sat()` iteration strictly increases the measure and
keeps the number of variables. -/
theorem satStep_psi {F : List Clause} {s s' : State}
    (hInv : SolverInv F s) (h : satStep s = .next s') :
    psi s < psi s' ∧ s'.assignments.length = s.assignments.length := by
  cases hscan : s.unit_prop_scan with
  | none =>
    rw [satStep_eq_scan_stuck hscan] at h
    exact absurd h (by simp)
  | some res =>
    cases res with
    | Done s₁ =>
      cases hg : s₁.guess with
      | none =>
        rw [satStep_eq_done_sat hscan hg] at h
        exact absurd h (by simp)
      | some g =>
        rw [satStep_eq_done_guess hscan hg] at h
        simp only [StepResult.next.injEq] at h
        rw [← h]
        exact guess_step_psi hInv hscan hg
    | Conflict inputs s₁ =>
      by_cases hz : s₁.assignment_stack.len = 0
      · rw [satStep_eq_conflict_zero hscan hz] at h
        exact absurd h (by simp)
      · cases hac : s₁.analyse_conflict inputs with
        | none =>
          rw [satStep_eq_conflict_stuck hscan hz hac] at h
          exact absurd h (by simp)
        | some p =>
          obtain ⟨C, r2⟩ := p
          rw [satStep_eq_conflict_next hscan hz hac] at h
          simp only [StepResult.next.injEq] at h
          rw [← h]
          exact conflict_step_psi hInv hscan hz hac

/-- Once the fuel exceeds the gap between the measure and its bound, the
`sat()` loop delivers a verdict. -/
theorem satFuel_some (F : List Clause) :
    ∀ (fuel : Nat) (s : State), SolverInv F s →
      (s.assignments.length + 1) *
        (s.assignments.length + 2) ^ s.assignments.length <
        psi s + fuel →
      (satFuel fuel s).isSome := by
  intro fuel
  induction fuel with
  | zero =>
    intro s hI hlt
    have := psi_le_bound s
    omega
  | succ fuel ih =>
    intro s hI hlt
    rw [satFuel]
    cases hstep : satStep s with
    | next s' =>
      obtain ⟨hpsi, hlen⟩ := satStep_psi hI hstep
      exact ih s' (satStep_solverInv hI hstep) (by rw [hlen]; omega)
    | done b s' => simp
    | stuck => exact absurd hstep (satStep_has_result hI).2.2

/-- C3: on every well-formed input (a finite clause list whose literals
mention variables below the variable count), `State::sat()` terminates —
the embedded loop, given the explicit iteration bound
`(n + 1) * (n + 2) ^ n + 1` as fuel, returns a verdict, and that verdict
is either `true` (SAT) or `false` (UNSAT). -/
theorem claim_C3_termination (clauses : List Clause) (num_vars : Nat)
    (hwf : ∀ c ∈ clauses, ∀ a ∈ c.body, a.get_var.id < num_vars) :
    ∃ b s', satFuel ((num_vars + 1) * (num_vars + 2) ^ num_vars + 1)
      (State.new clauses num_vars) = some (b, s') ∧
      (b = true ∨ b = false) := by
  have hI := solverInv_new clauses num_vars hwf
  have hb : (State.new clauses num_vars).assignments.length =
      num_vars := List.length_replicate num_vars none
  have hsome := satFuel_some clauses
    ((num_vars + 1) * (num_vars + 2) ^ num_vars + 1)
    (State.new clauses num_vars) hI (by rw [hb]; omega)
  obtain ⟨⟨b, s'⟩, hv⟩ := Option.isSome_iff_exists.mp hsome
  refine ⟨b, s', hv, ?_⟩
  cases b
  · exact Or.inr rfl
  · exact Or.inl rfl

/-- Witness for C3: the one-clause formula `x0` over one variable. -/
theorem claim_C3_witness :
    (∀ c ∈ [Clause.new [VarRef.as_atom { id := 0 } true]], ∀ a ∈ c.body,
      a.get_var.id < 1) ∧
    ∃ b s', satFuel ((1 + 1) * (1 + 2) ^ 1 + 1)
      (State.new [Clause.new [VarRef.as_atom { id := 0 } true]] 1) =
        some (b, s') ∧ (b = true ∨ b = false) :=
  ⟨by decide, claim_C3_termination
    [Clause.new [VarRef.as_atom { id := 0 } true]] 1 (by decide)⟩

end Cdcl
